import Mathlib

/-!
Managed heap runtime of coolc: allocator, root scopes and marker.

A shallow embedding of
* `gc/src/gc/gc-impl/gc-common.cpp` and `gc/src/gc/gc-interface/gc.hpp`
  (namespace `gc`: `StackRecord`, `ZeroGC`, `Marker`), and
* `coolc/src/codegen/runtime/gc/GC.cpp` (namespace `runtime`: `GC::allocate`).

Addresses are natural numbers and `NULL` is `0`.  Pointer arithmetic is done in
`Nat`, except for the sums of `ZeroGC::allocate` with the size of a class, which
are taken modulo `2 ^ 64`.
-/

namespace gc

/-! ## Memory -/

/-- Raw memory.  A scalar that the program stores at address `a` is kept in the
cell `a`; `memset` writes every cell of its range. -/
abbrev Mem := Nat → Nat

/-- The null pointer. -/
def NULL : Nat := 0

/-- The assignment `*(T *)a = v`. -/
def store (m : Mem) (a v : Nat) : Mem := fun x => if x = a then v else m x

/-- The call `memset(lo, v, hi - lo)`. -/
def fill (m : Mem) (lo hi v : Nat) : Mem := fun x => if lo ≤ x ∧ x < hi then v else m x

/-! ## Object model (object-desc.hpp) -/

/-- Modelled from the spec: the class descriptor `objects::Klass` of
object-desc.hpp, which is not among the sources.  The spec gives it as
`{ tag, instance_size, is_special, field_count, method_table }`; the code reads
`size()` (the instance size) and `type()` (the tag). -/
structure Klass where
  type : Nat
  size : Nat
  is_special : Bool
  field_count : Nat
deriving DecidableEq, Repr

/-- Modelled from the spec: the layout of `objects::ObjectHeader` of
object-desc.hpp, which is not among the sources: the size of the header, the
offsets of `_mark`, `_size` and `_tag` in it, the size of a field slot
(`sizeof(address)`), and the class descriptor that a tag indexes. -/
structure ObjectDesc where
  HEADER_SIZE : Nat
  MARK_OFFSET : Nat
  SIZE_OFFSET : Nat
  TAG_OFFSET : Nat
  WORD_SIZE : Nat
  klass_of : Nat → Klass

/-- The three header fields are distinct cells inside the header and a slot
has positive size. -/
def ObjectDesc.layout_ok (od : ObjectDesc) : Prop :=
  od.MARK_OFFSET < od.HEADER_SIZE ∧ od.SIZE_OFFSET < od.HEADER_SIZE ∧
  od.TAG_OFFSET < od.HEADER_SIZE ∧ od.MARK_OFFSET ≠ od.SIZE_OFFSET ∧
  od.MARK_OFFSET ≠ od.TAG_OFFSET ∧ od.SIZE_OFFSET ≠ od.TAG_OFFSET ∧ 0 < od.WORD_SIZE

instance (od : ObjectDesc) : Decidable od.layout_ok := by
  unfold ObjectDesc.layout_ok; infer_instance

namespace ObjectHeader

/-- Field `hdr->_mark`. -/
def _mark (od : ObjectDesc) (m : Mem) (hdr : Nat) : Nat := m (hdr + od.MARK_OFFSET)

/-- Field `hdr->_size`. -/
def _size (od : ObjectDesc) (m : Mem) (hdr : Nat) : Nat := m (hdr + od.SIZE_OFFSET)

/-- Field `hdr->_tag`. -/
def _tag (od : ObjectDesc) (m : Mem) (hdr : Nat) : Nat := m (hdr + od.TAG_OFFSET)

/-- Modelled from the spec: `is_marked()` of object-desc.hpp; the mark is a
small integer, zero when the object is unmarked. -/
def is_marked (od : ObjectDesc) (m : Mem) (hdr : Nat) : Bool := _mark od m hdr != 0

/-- Modelled from the spec: `set_marked()` of object-desc.hpp sets the mark bit. -/
def set_marked (od : ObjectDesc) (m : Mem) (hdr : Nat) : Mem := store m (hdr + od.MARK_OFFSET) 1

/-- Modelled from the spec: `has_special_type()` of object-desc.hpp; the tag
indexes the class descriptor, whose `is_special` flag it returns. -/
def has_special_type (od : ObjectDesc) (m : Mem) (hdr : Nat) : Bool :=
  (od.klass_of (_tag od m hdr)).is_special

/-- Modelled from the spec: `field_cnt()` of object-desc.hpp, the number of
reference slots of the class of the object. -/
def field_cnt (od : ObjectDesc) (m : Mem) (hdr : Nat) : Nat :=
  (od.klass_of (_tag od m hdr)).field_count

/-- Modelled from the spec: `fields_base()` of object-desc.hpp, the address of
the first field, right after the header. -/
def fields_base (od : ObjectDesc) (hdr : Nat) : Nat := hdr + od.HEADER_SIZE

/-- Modelled from the spec: `zero_fields()` of object-desc.hpp null-fills the
field region, the `_size - sizeof(ObjectHeader)` bytes from `fields_base()`. -/
def zero_fields (od : ObjectDesc) (m : Mem) (hdr : Nat) : Mem :=
  fill m (fields_base od hdr) (fields_base od hdr + (_size od m hdr - od.HEADER_SIZE)) 0

end ObjectHeader

/-! ## ZeroGC (gc-common.cpp, lines 78-114) -/

/-- The exception `std::bad_alloc`. -/
inductive Exception where
  | bad_alloc
deriving DecidableEq, Repr

/-- The data members of `ZeroGC` together with the memory it manages.  The
timing statistics of the base class are left out: they do not influence the
heap. -/
structure ZeroGC where
  _heap_size : Nat
  _need_zeroing : Bool
  _heap_start : Nat
  _heap_pos : Nat
  mem : Mem

/-- The constructor `ZeroGC::ZeroGC(heap_size, need_zeroing)`; `malloc_result`
is the pointer that `malloc(heap_size)` returned. -/
def ZeroGC.mk_heap (malloc_result : Nat) (mem : Mem) (heap_size : Nat) (need_zeroing : Bool) :
    Except Exception ZeroGC :=
  if malloc_result = NULL then .error .bad_alloc
  else .ok
    { _heap_size := heap_size, _need_zeroing := need_zeroing,
      _heap_start := malloc_result, _heap_pos := malloc_result, mem := mem }

/-- The method `ZeroGC::allocate(klass)`.  The result is the returned address or
the thrown exception, paired with the collector state after the call.  The sum
`_heap_pos + obj_size` of line 93 and the assignment `_heap_pos += obj_size` of
line 99 add a `size_t` to a pointer in 64 bits, so they wrap for a size near
`2 ^ 64`; `_heap_start + _heap_size` is the end of the block that `malloc`
returned, an address. -/
def ZeroGC.allocate (od : ObjectDesc) (gc : ZeroGC) (klass : Klass) :
    Except Exception Nat × ZeroGC :=
  let obj_size := klass.size
  if (gc._heap_pos + obj_size) % 2 ^ 64 ≥ gc._heap_start + gc._heap_size then
    (.error .bad_alloc, gc)
  else
    let object := gc._heap_pos
    let heap_pos := (gc._heap_pos + obj_size) % 2 ^ 64
    let m1 := store gc.mem (object + od.MARK_OFFSET) 0
    let m2 := store m1 (object + od.SIZE_OFFSET) obj_size
    let m3 := store m2 (object + od.TAG_OFFSET) klass.type
    let m4 := if gc._need_zeroing then ObjectHeader.zero_fields od m3 object else m3
    (.ok object, { gc with _heap_pos := heap_pos, mem := m4 })

/-- A finite sequence of `allocate` calls, one per class descriptor of the
list, each on the state the previous one left. -/
def ZeroGC.allocate_seq (od : ObjectDesc) : ZeroGC → List Klass → ZeroGC
  | gc, [] => gc
  | gc, k :: ks => ZeroGC.allocate_seq od (ZeroGC.allocate od gc k).2 ks

/-! ## StackRecord (gc-common.cpp, lines 4-17; gc.hpp, lines 273-345) -/

/-- The data members of a `StackRecord`: pointers are addresses, the vector
`_objects` is a list. -/
structure StackRecord where
  _parent : Nat
  _objects : List Nat
  _gc : Nat
deriving DecidableEq, Repr

/-- The part of the program state that the scope operations touch: the member
`_current_scope` of the collector at each address and the `StackRecord` at each
address. -/
structure Scopes where
  current_scope : Nat → Nat
  records : Nat → StackRecord

/-- Assignment to one entry of a table indexed by addresses. -/
def update {α : Type} (f : Nat → α) (a : Nat) (v : α) : Nat → α :=
  fun x => if x = a then v else f x

/-- The constructor `StackRecord::StackRecord(GC *gc)` run on the object at
address `this`. -/
def StackRecord.ctor_gc (w : Scopes) (this gc : Nat) : Scopes :=
  { records := update w.records this { _gc := gc, _parent := NULL, _objects := [] },
    current_scope := update w.current_scope gc this }

/-- The constructor `StackRecord::StackRecord(StackRecord *parent)` run on the
object at address `this`: it delegates to the constructor above with
`parent->_gc` and then assigns `_parent`. -/
def StackRecord.ctor_parent (w : Scopes) (this parent : Nat) : Scopes :=
  let w1 := StackRecord.ctor_gc w this (w.records parent)._gc
  { w1 with records := update w1.records this { w1.records this with _parent := parent } }

/-- The destructor `StackRecord::~StackRecord()` run on the object at address
`this`. -/
def StackRecord.dtor (w : Scopes) (this : Nat) : Scopes :=
  { w with
    current_scope := update w.current_scope (w.records this)._gc (w.records this)._parent }

/-- The accessor `sr->parent()`. -/
def StackRecord.parent (records : Nat → StackRecord) (sr : Nat) : Nat := (records sr)._parent

/-- The scopes met by following `parent()` from `sr` until `NULL`, in that
order; `none` when `NULL` is not reached within `fuel` steps. -/
def scope_chain (records : Nat → StackRecord) : Nat → Nat → Option (List Nat)
  | 0, sr => if sr = NULL then some [] else none
  | fuel + 1, sr =>
    if sr = NULL then some []
    else (scope_chain records fuel (StackRecord.parent records sr)).map (fun ch => sr :: ch)

/-! ## Marker (gc-common.cpp, lines 117-165) -/

namespace Marker

/-- The marker state that the loops thread through: the memory and the stack
`_worklist`, its top first. -/
abbrev State := Mem × List Nat

/-- The body of `for (j = 0; j < fields_cnt; j++)` of `Marker::mark` run for the
indices `js` in order; `fields` is `hdr->fields_base()`. -/
def mark_fields (od : ObjectDesc) (fields : Nat) : List Nat → State → State
  | [], st => st
  | j :: js, (m, worklist) =>
    let child := m (fields + od.WORD_SIZE * j)
    if child ≠ NULL ∧ ObjectHeader.is_marked od m child = false then
      mark_fields od fields js (ObjectHeader.set_marked od m child, child :: worklist)
    else
      mark_fields od fields js (m, worklist)

/-- The method `Marker::mark()`: the loop `while (!_worklist.empty())`, at most
`fuel` iterations of it; `none` when the worklist is not empty by then. -/
def mark (od : ObjectDesc) : Nat → State → Option State
  | _, (m, []) => some (m, [])
  | 0, (_, _ :: _) => none
  | fuel + 1, (m, hdr :: worklist) =>
    if ObjectHeader.has_special_type od m hdr then
      mark od fuel (m, worklist)
    else
      let fields_cnt := ObjectHeader.field_cnt od m hdr
      let fields := ObjectHeader.fields_base od hdr
      mark od fuel (mark_fields od fields (List.range fields_cnt) (m, worklist))

/-- The loop `for (address obj : sr->roots_unsafe())` of
`Marker::mark_from_roots` over the roots of one scope. -/
def mark_roots (od : ObjectDesc) (fuel : Nat) : List Nat → State → Option State
  | [], st => some st
  | obj :: rest, (m, worklist) =>
    if obj ≠ NULL ∧ ObjectHeader.is_marked od m obj = false then
      match mark od fuel (ObjectHeader.set_marked od m obj, obj :: worklist) with
      | none => none
      | some st => mark_roots od fuel rest st
    else
      mark_roots od fuel rest (m, worklist)

/-- The loop `while (sr)` of `Marker::mark_from_roots`, at most `n` scopes. -/
def mark_scopes (od : ObjectDesc) (records : Nat → StackRecord) (fuel : Nat) :
    Nat → Nat → State → Option State
  | 0, sr, st => if sr = NULL then some st else none
  | n + 1, sr, st =>
    if sr = NULL then some st
    else
      match mark_roots od fuel (records sr)._objects st with
      | none => none
      | some st1 => mark_scopes od records fuel n (StackRecord.parent records sr) st1

/-- How a run of `mark_from_roots` ends: it returns, the `guarantee` aborts
the process, or the fuel of the model is used up. -/
inductive Outcome where
  | returned (st : State)
  | aborted
  | out_of_fuel

/-- The method `Marker::mark_from_roots(sr)`.  Every loop of it gets `fuel`
iterations. -/
def mark_from_roots (od : ObjectDesc) (records : Nat → StackRecord) (fuel : Nat) (sr : Nat)
    (st : State) : Outcome :=
  if st.2 ≠ [] then Outcome.aborted
  else
    match mark_scopes od records fuel fuel sr st with
    | none => Outcome.out_of_fuel
    | some st1 => Outcome.returned st1

end Marker

/-! ## Heap well-formedness and reachability -/

/-- The root slots that `mark_from_roots` enumerates: the roots of the scopes
of a chain, in the order of the chain. -/
def chain_roots (records : Nat → StackRecord) (chain : List Nat) : List Nat :=
  chain.flatMap (fun sr => (records sr)._objects)

/-- The objects at the addresses `objs` are laid out well in `m`: each holds
its header and, unless it is special, its `field_cnt` slots within its `_size`
bytes, and two of them do not overlap. -/
def objects_ok (od : ObjectDesc) (m : Mem) (objs : List Nat) : Prop :=
  (∀ o ∈ objs, od.HEADER_SIZE ≤ ObjectHeader._size od m o ∧
    (ObjectHeader.has_special_type od m o = false →
      od.HEADER_SIZE + od.WORD_SIZE * ObjectHeader.field_cnt od m o ≤ ObjectHeader._size od m o)) ∧
  (∀ o ∈ objs, ∀ p ∈ objs, o ≠ p →
    o + ObjectHeader._size od m o ≤ p ∨ p + ObjectHeader._size od m p ≤ o)

/-- Every non-null reference field of an object of `objs` points to an object
of `objs`. -/
def fields_ok (od : ObjectDesc) (m : Mem) (objs : List Nat) : Prop :=
  ∀ o ∈ objs, ObjectHeader.has_special_type od m o = false →
    ∀ j < ObjectHeader.field_cnt od m o,
      m (ObjectHeader.fields_base od o + od.WORD_SIZE * j) ≠ NULL →
        m (ObjectHeader.fields_base od o + od.WORD_SIZE * j) ∈ objs

/-- Every non-null root slot points to an object of `objs`. -/
def roots_ok (roots objs : List Nat) : Prop := ∀ r ∈ roots, r ≠ NULL → r ∈ objs

instance (od : ObjectDesc) (m : Mem) (objs : List Nat) : Decidable (objects_ok od m objs) := by
  unfold objects_ok; infer_instance

instance (od : ObjectDesc) (m : Mem) (objs : List Nat) : Decidable (fields_ok od m objs) := by
  unfold fields_ok; infer_instance

instance (roots objs : List Nat) : Decidable (roots_ok roots objs) := by
  unfold roots_ok; infer_instance

/-- Reachability from the roots: a non-null root is reachable, and so is the
non-null value of one of the first `field_cnt` field slots of a reachable
object that is not special. -/
inductive Reachable (od : ObjectDesc) (m : Mem) (roots : List Nat) : Nat → Prop where
  | root (r : Nat) : r ∈ roots → r ≠ NULL → Reachable od m roots r
  | field (o j : Nat) : Reachable od m roots o →
      ObjectHeader.has_special_type od m o = false →
      j < ObjectHeader.field_cnt od m o →
      m (ObjectHeader.fields_base od o + od.WORD_SIZE * j) ≠ NULL →
      Reachable od m roots (m (ObjectHeader.fields_base od o + od.WORD_SIZE * j))

/-! ## Invariants of the marker -/

/-- The heap that the marker works on: the layout of the header is sound, the
objects of `objs` are laid out well and their reference fields point to objects
of `objs`. -/
structure heap_ok (od : ObjectDesc) (m : Mem) (objs : List Nat) : Prop where
  layout : od.layout_ok
  objects : objects_ok od m objs
  fields : fields_ok od m objs

instance (od : ObjectDesc) (m : Mem) (objs : List Nat) : Decidable (heap_ok od m objs) :=
  decidable_of_iff (od.layout_ok ∧ objects_ok od m objs ∧ fields_ok od m objs)
    ⟨fun h => ⟨h.1, h.2.1, h.2.2⟩, fun h => ⟨h.1, h.2, h.3⟩⟩

/-- The number of objects of `objs` that are unmarked in `m`. -/
def unmarked_count (od : ObjectDesc) (m : Mem) (objs : List Nat) : Nat :=
  objs.countP (fun o => !ObjectHeader.is_marked od m o)

/-- The memory `m` differs from `m0` at most in mark cells of objects of `objs`,
which then hold 1. -/
def only_marks (od : ObjectDesc) (objs : List Nat) (m0 m : Mem) : Prop :=
  ∀ a, m a = m0 a ∨ (m a = 1 ∧ ∃ c ∈ objs, a = c + od.MARK_OFFSET)

/-- What holds of the memory and the worklist all through a run of the marker
that started in `m0`: only mark bits were set, the worklist holds marked
reachable objects, and what is marked was marked in `m0` or is reachable. -/
structure mark_inv (od : ObjectDesc) (m0 : Mem) (objs roots : List Nat) (m : Mem)
    (worklist : List Nat) : Prop where
  frame : only_marks od objs m0 m
  pending : ∀ x ∈ worklist,
    x ∈ objs ∧ ObjectHeader.is_marked od m x = true ∧ Reachable od m0 roots x
  sound : ∀ o, ObjectHeader.is_marked od m o = true →
    ObjectHeader.is_marked od m0 o = true ∨ Reachable od m0 roots o

/-- The marked objects that are not on the worklist, `hdr` apart when given,
have all their non-null reference fields marked. -/
def closed_except (od : ObjectDesc) (m0 : Mem) (objs : List Nat) (hdr : Option Nat) (m : Mem)
    (worklist : List Nat) : Prop :=
  ∀ o ∈ objs, ObjectHeader.is_marked od m o = true → o ∉ worklist → some o ≠ hdr →
    ObjectHeader.has_special_type od m0 o = false →
    ∀ j < ObjectHeader.field_cnt od m0 o,
      m0 (ObjectHeader.fields_base od o + od.WORD_SIZE * j) ≠ NULL →
      ObjectHeader.is_marked od m (m0 (ObjectHeader.fields_base od o + od.WORD_SIZE * j)) = true

/-! ## An example heap -/

/-- A layout with a 24-byte header and 8-byte slots; class 1 is an ordinary
class with two reference fields and 40-byte instances, every other class is
special with 32-byte instances. -/
def example_od : ObjectDesc :=
  { HEADER_SIZE := 24, MARK_OFFSET := 0, SIZE_OFFSET := 8, TAG_OFFSET := 16, WORD_SIZE := 8,
    klass_of := fun t => (if t = 1 then ⟨1, 40, false, 2⟩ else ⟨t, 32, true, 1⟩) }

/-- Four unmarked objects: 1000 (class 1, fields 1040 and null), 1040 (class 1,
fields 1000 and 1080), 1080 (special, its slot holds 1112) and 1112 (class 1,
fields null). -/
def example_mem : Mem := fun a =>
  if a = 1008 then 40 else if a = 1016 then 1 else if a = 1024 then 1040 else
  if a = 1048 then 40 else if a = 1056 then 1 else if a = 1064 then 1000 else
  if a = 1072 then 1080 else
  if a = 1088 then 32 else if a = 1096 then 2 else if a = 1104 then 1112 else
  if a = 1120 then 40 else if a = 1128 then 1 else 0

/-- The addresses of the objects of the example heap. -/
def example_objs : List Nat := [1000, 1040, 1080, 1112]

/-- Two scopes: 10, with the roots null and 1000 and the parent 20, and 20,
with the root 1000 and no parent. -/
def example_records : Nat → StackRecord := fun a =>
  if a = 10 then ⟨20, [0, 1000], 1⟩ else if a = 20 then ⟨0, [1000], 1⟩ else ⟨0, [], 0⟩

end gc

/-! ## The runtime collector of the compiler (GC.cpp, lines 7-22) -/

namespace runtime

/-- The collaborators of `GC::allocate` that are not in GC.cpp, over a state
`σ` of the collector: the method `_allocator->allocate`, which returns an
object pointer (`0` for `NULL`) and the state it leaves, and the virtual method
`collect`. -/
structure Collector (σ : Type) where
  allocator_allocate : σ → Int → Nat → Nat → Nat × σ
  collect : σ → σ

/-- The calls that `GC::allocate` makes, as they are made. -/
inductive Call where
  | allocator_allocate (tag : Int) (size disp_tab : Nat)
  | collect
  | exit_with_error (msg : String)
deriving DecidableEq, Repr

/-- The result of `GC::allocate`: the returned object, or the fatal exit of
the process through `exit_with_error`. -/
inductive Result where
  | object (obj : Nat)
  | fatal_exit
deriving DecidableEq, Repr

/-- The method `GC::allocate(tag, size, disp_tab)`: its result, the state it
leaves and the calls it made in order. -/
def GC.allocate {σ : Type} (c : Collector σ) (s : σ) (tag : Int) (size disp_tab : Nat) :
    Result × σ × List Call :=
  let r1 := c.allocator_allocate s tag size disp_tab
  let calls1 := [Call.allocator_allocate tag size disp_tab]
  let r2 : Nat × σ × List Call :=
    if r1.1 = gc.NULL then
      let s2 := c.collect r1.2
      let r := c.allocator_allocate s2 tag size disp_tab
      (r.1, r.2, calls1 ++ [Call.collect, Call.allocator_allocate tag size disp_tab])
    else (r1.1, r1.2, calls1)
  if r2.1 = gc.NULL then
    (Result.fatal_exit, r2.2.1,
      r2.2.2 ++ [Call.exit_with_error "cannot allocate memory for object!"])
  else (Result.object r2.1, r2.2.1, r2.2.2)

end runtime

/-! ## Root registration and collect (gc.hpp, lines 262-264 and 309-324) -/

namespace gc

/-- The conversion of a `size_t` value to `int`: the value modulo `2 ^ 32`, read
as a signed number of 32 bits. -/
def int_of_size_t (n : Nat) : Int :=
  if n % 2 ^ 32 < 2 ^ 31 then ((n % 2 ^ 32 : Nat) : Int) else ((n % 2 ^ 32 : Nat) : Int) - 2 ^ 32

/-- The conversion of an `int` value to `size_t`: the value modulo `2 ^ 64`. -/
def size_t_of_int (i : Int) : Nat := (i % 2 ^ 64).toNat

/-- The method `StackRecord::reg_root(obj)` (gc.hpp, lines 309-313): the
returned `int` and the record after `push_back`. -/
def StackRecord.reg_root (sr : StackRecord) (obj : Nat) : Int × StackRecord :=
  let objects := sr._objects ++ [obj]
  (int_of_size_t ((objects.length - 1) % 2 ^ 64), { sr with _objects := objects })

/-- The method `StackRecord::root(i)` (gc.hpp, lines 320-324); `none` when the
assertion `i < _objects.size()`, which compares as `size_t`, fails. -/
def StackRecord.root (sr : StackRecord) (i : Int) : Option Nat :=
  if size_t_of_int i < sr._objects.length then sr._objects[size_t_of_int i]? else none

/-- The method `ZeroGC::collect()` (gc.hpp, lines 262-264), whose body is
empty, on the collector and the scopes. -/
def ZeroGC.collect (gc : ZeroGC) (w : Scopes) : ZeroGC × Scopes := (gc, w)

end gc

/-! ## The runtime collector: marker bounds, init and copy (Marker.hpp, GC.cpp) -/

namespace runtime

/-- The data members of `gc::Marker` (Marker.hpp, lines 14-38). -/
structure Marker where
  _heap_start : Nat
  _heap_end : Nat
deriving DecidableEq, Repr

/-- The method `Marker::is_heap_addr(addr)` (Marker.hpp, lines 21-24). -/
def Marker.is_heap_addr (mk : Marker) (addr : Nat) : Bool :=
  decide (addr ≥ mk._heap_start) && decide (addr ≤ mk._heap_end)

/-- Modelled from the spec: the class `Allocator`, which is not among the
sources, as far as the constructor of `ZeroGC` reads it: the bounds `start()` and
`end()` (here `end_`) of the region it owns. -/
structure Allocator where
  start : Nat
  end_ : Nat
deriving DecidableEq, Repr

/-- The data members of the runtime `ZeroGC` that its constructor sets. -/
structure ZeroGC where
  _allocator : Allocator
  _heap_start : Nat
  _heap_end : Nat
  _marker : Marker
deriving DecidableEq, Repr

/-- The constructor `ZeroGC::ZeroGC(size)` (GC.cpp, lines 47-56);
`new_allocator size` is the object that `new Allocator(size)` gives. -/
def ZeroGC.ctor (new_allocator : Nat → Allocator) (size : Nat) : ZeroGC :=
  let _allocator := new_allocator size
  let _heap_start := _allocator.start
  let _heap_end := _allocator.end_
  { _allocator := _allocator, _heap_start := _heap_start, _heap_end := _heap_end,
    _marker := ⟨_heap_start, _heap_end⟩ }

/-- Modelled from the spec: the enumeration `GcType` of GC.hpp, which is not
among the sources; the spec names the variants ZeroGC, MarkSweepGC and Copy,
and GC.cpp names `ZEROGC`. -/
inductive GcType where
  | ZEROGC
  | MARKSWEEPGC
  | COPY
deriving DecidableEq, Repr

/-- How `GC::init` ends: it returns with the value of `GC::Gc`, or it reaches
`assert(false)`. -/
inductive InitResult where
  | installed (Gc : Option ZeroGC)
  | assertion_failed
deriving DecidableEq, Repr

/-- The function `GC::init(type, heap_size)` (GC.cpp, lines 35-45). -/
def GC.init (new_allocator : Nat → Allocator) (type : GcType) (heap_size : Nat) : InitResult :=
  match type with
  | GcType.ZEROGC => InitResult.installed (some (ZeroGC.ctor new_allocator heap_size))
  | _ => InitResult.assertion_failed

/-- Modelled from the spec: the layout of `ObjectLayout` (ObjectLayout.hpp is
not among the sources): the size of the header, `Allocator::HEADER_SIZE`, after
which `fields_base()` starts, and the offsets of `_tag`, `_size` and
`_dispatch_table` in it. -/
structure ObjectLayout where
  HEADER_SIZE : Nat
  TAG_OFFSET : Nat
  SIZE_OFFSET : Nat
  DISPATCH_OFFSET : Nat

/-- The collector state that `GC::copy` works on: the memory and the private
state of the allocator and the collector. -/
structure Heap (α : Type) where
  mem : gc.Mem
  priv : α

/-- The call `memcpy(dst, src, n)` for regions that do not overlap. -/
def memcpy (m : gc.Mem) (dst src n : Nat) : gc.Mem :=
  fun x => if dst ≤ x ∧ x < dst + n then m (src + (x - dst)) else m x

/-- The method `GC::copy(obj)` (GC.cpp, lines 24-33): its result, the state it
leaves and the calls that `allocate` made.  A failing `assert(new_obj)` ends
the process. -/
def GC.copy {α : Type} (L : ObjectLayout) (c : Collector (Heap α)) (s : Heap α) (obj : Nat) :
    Result × Heap α × List Call :=
  let r := GC.allocate c s ((s.mem (obj + L.TAG_OFFSET) : Nat) : Int)
    (s.mem (obj + L.SIZE_OFFSET)) (s.mem (obj + L.DISPATCH_OFFSET))
  match r.1 with
  | Result.fatal_exit => r
  | Result.object new_obj =>
    if new_obj = gc.NULL then (Result.fatal_exit, r.2)
    else
      let m := r.2.1.mem
      let size := min (m (obj + L.SIZE_OFFSET)) (m (new_obj + L.SIZE_OFFSET)) - L.HEADER_SIZE
      (Result.object new_obj,
        { r.2.1 with mem := memcpy m (new_obj + L.HEADER_SIZE) (obj + L.HEADER_SIZE) size },
        r.2.2)

/-- Modelled from the spec: what `Allocator::allocate`, which is not among the
sources, guarantees of the object `new_obj` it returns for the request
`(tag, size, disp_tab)` (header fields set to the requested tag, size and
dispatch table, in a freshly allocated slot), seen from an object `obj` of
`size` bytes that is live in `m0`: the slot does not overlap `obj`, and `obj` is
in the memory `m1` after the allocation as it was in `m0`. -/
structure allocated_ok (L : ObjectLayout) (m0 m1 : gc.Mem) (obj new_obj : Nat) (tag : Int)
    (size disp_tab : Nat) : Prop where
  tag_set : ((m1 (new_obj + L.TAG_OFFSET) : Nat) : Int) = tag
  size_set : m1 (new_obj + L.SIZE_OFFSET) = size
  dispatch_set : m1 (new_obj + L.DISPATCH_OFFSET) = disp_tab
  fresh : new_obj + size ≤ obj ∨ obj + size ≤ new_obj
  kept : ∀ a, obj ≤ a → a < obj + size → m1 a = m0 a

/-- An allocator for the examples: it bumps a position kept as private state,
writes the tag, the size and the dispatch table at the offsets 8, 16 and 24 and
returns null when the request would pass the address 2000. -/
def example_collector : Collector (Heap Nat) :=
  { allocator_allocate := fun s tag size disp_tab =>
      (if s.priv + size > 2000 then (gc.NULL, s)
       else (s.priv,
        { mem := gc.store (gc.store (gc.store s.mem (s.priv + 8) tag.toNat) (s.priv + 16) size)
            (s.priv + 24) disp_tab,
          priv := s.priv + size })),
    collect := fun s => s }

/-- A memory for the examples: at 1000 an object with tag 5, size 48,
dispatch table 77 and the fields 11 and 22. -/
def example_heap : Heap Nat :=
  { mem := fun a =>
      (if a = 1008 then 5 else if a = 1016 then 48 else if a = 1024 then 77 else
       if a = 1032 then 11 else if a = 1040 then 22 else 0),
    priv := 1048 }

end runtime

/-! ## The marker with its pushes recorded -/

namespace gc

namespace Marker

/-- The loop over the fields of `Marker::mark`, as `mark_fields`, with every
`_worklist.push(child)` recorded in the log, the latest first. -/
def mark_fields_log (od : ObjectDesc) (fields : Nat) : List Nat → State × List Nat → State × List Nat
  | [], s => s
  | j :: js, ((m, worklist), log) =>
    let child := m (fields + od.WORD_SIZE * j)
    if child ≠ NULL ∧ ObjectHeader.is_marked od m child = false then
      mark_fields_log od fields js
        ((ObjectHeader.set_marked od m child, child :: worklist), child :: log)
    else
      mark_fields_log od fields js ((m, worklist), log)

/-- The method `Marker::mark()`, as `mark`, with the pushes recorded. -/
def mark_log (od : ObjectDesc) : Nat → State × List Nat → Option (State × List Nat)
  | _, ((m, []), log) => some ((m, []), log)
  | 0, ((_, _ :: _), _) => none
  | fuel + 1, ((m, hdr :: worklist), log) =>
    if ObjectHeader.has_special_type od m hdr then
      mark_log od fuel ((m, worklist), log)
    else
      let fields_cnt := ObjectHeader.field_cnt od m hdr
      let fields := ObjectHeader.fields_base od hdr
      mark_log od fuel (mark_fields_log od fields (List.range fields_cnt) ((m, worklist), log))

/-- The loop over the roots of one scope, as `mark_roots`, with every
`_worklist.push(hdr)` recorded. -/
def mark_roots_log (od : ObjectDesc) (fuel : Nat) :
    List Nat → State × List Nat → Option (State × List Nat)
  | [], s => some s
  | obj :: rest, ((m, worklist), log) =>
    if obj ≠ NULL ∧ ObjectHeader.is_marked od m obj = false then
      match mark_log od fuel ((ObjectHeader.set_marked od m obj, obj :: worklist), obj :: log) with
      | none => none
      | some s => mark_roots_log od fuel rest s
    else
      mark_roots_log od fuel rest ((m, worklist), log)

/-- The loop `while (sr)`, as `mark_scopes`, with the pushes recorded. -/
def mark_scopes_log (od : ObjectDesc) (records : Nat → StackRecord) (fuel : Nat) :
    Nat → Nat → State × List Nat → Option (State × List Nat)
  | 0, sr, s => if sr = NULL then some s else none
  | n + 1, sr, s =>
    if sr = NULL then some s
    else
      match mark_roots_log od fuel (records sr)._objects s with
      | none => none
      | some s1 => mark_scopes_log od records fuel n (StackRecord.parent records sr) s1

/-- The method `Marker::mark_from_roots(sr)` with the pushes of the call
recorded, the latest first; `none` when the call does not return. -/
def mark_from_roots_log (od : ObjectDesc) (records : Nat → StackRecord) (fuel : Nat) (sr : Nat)
    (st : State) : Option (State × List Nat) :=
  if st.2 ≠ [] then none
  else mark_scopes_log od records fuel fuel sr (st, [])

end Marker

/-- What holds of the memory and of the log of pushes all through a run of the
marker that started in `m0`: a cell that changed is the mark cell of a pushed
object, held 0 and holds 1; no object is in the log twice; and the log holds
the objects whose mark went from unset to set. -/
structure push_inv (od : ObjectDesc) (m0 m : Mem) (log : List Nat) : Prop where
  cells : ∀ a, m a = m0 a ∨ (m0 a = 0 ∧ m a = 1 ∧ ∃ c ∈ log, a = c + od.MARK_OFFSET)
  nodup : log.Nodup
  logged : ∀ x, x ∈ log ↔
    (ObjectHeader.is_marked od m0 x = false ∧ ObjectHeader.is_marked od m x = true)

end gc

/-! ## The objects of a sequence of allocations -/

namespace gc

/-- Every call of the sequence returns an object. -/
def ZeroGC.all_succeed (od : ObjectDesc) : ZeroGC → List Klass → Bool
  | _, [] => true
  | gc, k :: ks =>
    (match (ZeroGC.allocate od gc k).1 with
      | .ok _ => true
      | .error _ => false) && ZeroGC.all_succeed od (ZeroGC.allocate od gc k).2 ks

/-- The addresses that the calls of the sequence return, in the order of the
calls. -/
def ZeroGC.allocate_results (od : ObjectDesc) : ZeroGC → List Klass → List Nat
  | _, [] => []
  | gc, k :: ks =>
    match (ZeroGC.allocate od gc k).1 with
    | .ok object => object :: ZeroGC.allocate_results od (ZeroGC.allocate od gc k).2 ks
    | .error _ => ZeroGC.allocate_results od (ZeroGC.allocate od gc k).2 ks

/-- The tiling of a region from `pos` by objects of the given classes: the
start and the size of each, every object starting where the one before ends. -/
def object_extents (pos : Nat) : List Klass → List (Nat × Nat)
  | [] => []
  | k :: ks => (pos, k.size) :: object_extents (pos + k.size) ks

/-- Modelled from the spec: the linear walk of the heap (`size` is the
authoritative stride for walking the heap linearly), for which the sources have
no function: the objects met from `pos` by stepping by the `_size` of each
header until `heap_pos` is hit; `none` when the walk steps over `heap_pos` or
takes more than `fuel` steps. -/
def heap_walk (od : ObjectDesc) (m : Mem) (heap_pos : Nat) : Nat → Nat → Option (List Nat)
  | 0, pos => if pos = heap_pos then some [] else none
  | fuel + 1, pos =>
    if pos = heap_pos then some []
    else if pos < heap_pos then
      (heap_walk od m heap_pos fuel (pos + ObjectHeader._size od m pos)).map (fun l => pos :: l)
    else none

end gc

/-! ## Timing statistics (gc-common.cpp, lines 40-55; gc.hpp, lines 59-150) -/

namespace gc

/-- The class `GCStatistics`: the time gathered, in milliseconds (the count of
`std::chrono::milliseconds`, a signed integer that clock readings do not
overflow). -/
structure GCStatistics where
  _time : Int
deriving DecidableEq, Repr

/-- The method `GCStatistics::add_time(time)`. -/
def GCStatistics.add_time (stat : GCStatistics) (time : Int) : GCStatistics :=
  { _time := stat._time + time }

/-- The method `GCStatistics::time()`. -/
def GCStatistics.time (stat : GCStatistics) : Int := stat._time

/-- The class `GCStatisticsScope`: the member `_start`; the bucket that `_stat`
points to is passed to every method. -/
structure GCStatisticsScope where
  _start : Int
deriving DecidableEq, Repr

/-- The constructor `GCStatisticsScope(stat)`; `now` is the reading of the
clock, cast to milliseconds. -/
def GCStatisticsScope.ctor (now : Int) : GCStatisticsScope := { _start := now }

/-- The method `GCStatisticsScope::flush()` at the clock reading `now`: the
scope and the bucket after the call. -/
def GCStatisticsScope.flush (scope : GCStatisticsScope) (stat : GCStatistics) (now : Int) :
    GCStatisticsScope × GCStatistics :=
  ({ _start := now }, stat.add_time (now - scope._start))

/-- The destructor `~GCStatisticsScope()` at the clock reading `now`: the bucket
after the call. -/
def GCStatisticsScope.dtor (scope : GCStatisticsScope) (stat : GCStatistics) (now : Int) :
    GCStatistics :=
  stat.add_time (now - scope._start)

/-- A sequence of `flush()` calls at the clock readings of the list. -/
def GCStatisticsScope.flushes :
    GCStatisticsScope → GCStatistics → List Int → GCStatisticsScope × GCStatistics
  | scope, stat, [] => (scope, stat)
  | scope, stat, now :: rest =>
    GCStatisticsScope.flushes (GCStatisticsScope.flush scope stat now).1
      (GCStatisticsScope.flush scope stat now).2 rest

/-- The life of a scope on the bucket `stat`: constructed at the reading `t0`,
flushed at the readings `ts`, destroyed at the reading `t_end`. -/
def GCStatisticsScope.lifetime (stat : GCStatistics) (t0 : Int) (ts : List Int) (t_end : Int) :
    GCStatistics :=
  GCStatisticsScope.dtor (GCStatisticsScope.flushes (GCStatisticsScope.ctor t0) stat ts).1
    (GCStatisticsScope.flushes (GCStatisticsScope.ctor t0) stat ts).2 t_end

end gc

/-! ## The shadow-stack walker (StackWalker.cpp, lines 9-26) -/

namespace runtime

/-- The size of `address`, a pointer of the 64-bit target for which the stack
maps are built (StackMap.cpp asserts location sizes of 8). -/
def sizeof_address : Nat := 8

/-- A call of the visitor: `(*visitor)(obj, root, meta)`. -/
structure VisitorCall where
  obj : Nat
  root : Nat
  meta : Nat
deriving DecidableEq, Repr

/-- How a walk of the stack ends: it returns, an `assert` fails, or the fuel
of the model is used up. -/
inductive WalkOutcome (α : Type) where
  | returned (a : α)
  | assertion_failed
  | out_of_fuel

/-- The frame map that `_map` of a shadow-stack entry points to, as far as the
walker reads it (the declaration is not among the sources). -/
structure FrameMap where
  _num_roots : Int
  _num_meta : Int
deriving DecidableEq, Repr

/-- A shadow-stack entry, as far as the walker reads it (the declaration is not
among the sources): `_next`, the frame map behind `_map`, and the address of
the array `_roots`. -/
structure StackEntry where
  _next : Nat
  _map : FrameMap
  _roots : Nat
deriving DecidableEq, Repr

/-- The loop `for (int i = 0; i < num_roots; i++)` of
`ShadowStackWalker::process_roots` for the indices of the list; the state `σ` is
what the visitor works on, and every call is recorded. -/
def ShadowStackWalker.visit_roots {σ : Type} (visitor : σ → VisitorCall → σ) (obj roots : Nat) :
    List Nat → σ × List VisitorCall → σ × List VisitorCall
  | [], st => st
  | i :: rest, (s, calls) =>
    ShadowStackWalker.visit_roots visitor obj roots rest
      (visitor s ⟨obj, roots + sizeof_address * i, gc.NULL⟩,
        calls ++ [⟨obj, roots + sizeof_address * i, gc.NULL⟩])

/-- The loop `while (r)` of `ShadowStackWalker::process_roots`, at most `fuel`
entries. -/
def ShadowStackWalker.walk {σ : Type} (entries : Nat → StackEntry) (visitor : σ → VisitorCall → σ)
    (obj : Nat) : Nat → Nat → σ × List VisitorCall → WalkOutcome (σ × List VisitorCall)
  | 0, r, st => if r = gc.NULL then WalkOutcome.returned st else WalkOutcome.out_of_fuel
  | fuel + 1, r, st =>
    if r = gc.NULL then WalkOutcome.returned st
    else if (entries r)._map._num_meta ≠ 0 then WalkOutcome.assertion_failed
    else
      let num_roots := (entries r)._map._num_roots
      ShadowStackWalker.walk entries visitor obj fuel (entries r)._next
        (ShadowStackWalker.visit_roots visitor obj (entries r)._roots
          (List.range num_roots.toNat) st)

/-- The method `ShadowStackWalker::process_roots(obj, visitor,
records_derived_ptrs)`: the state the visitor leaves and its calls in order;
`llvm_gc_root_chain` is the head of the chain. -/
def ShadowStackWalker.process_roots {σ : Type} (entries : Nat → StackEntry)
    (llvm_gc_root_chain : Nat) (fuel : Nat) (s : σ) (obj : Nat) (visitor : σ → VisitorCall → σ)
    (_records_derived_ptrs : Bool) : WalkOutcome (σ × List VisitorCall) :=
  ShadowStackWalker.walk entries visitor obj fuel llvm_gc_root_chain (s, [])

/-- The entries met by following `_next` from `r` until null, in that order;
`none` when null is not reached within `fuel` steps. -/
def shadow_chain (entries : Nat → StackEntry) : Nat → Nat → Option (List Nat)
  | 0, r => if r = gc.NULL then some [] else none
  | fuel + 1, r =>
    if r = gc.NULL then some []
    else (shadow_chain entries fuel (entries r)._next).map (fun ch => r :: ch)

/-- The calls that the claim describes for one entry: one for each of its
`_num_roots` root slots, in index order, with a null `meta`. -/
def entry_calls (entries : Nat → StackEntry) (obj r : Nat) : List VisitorCall :=
  (List.range (entries r)._map._num_roots.toNat).map
    (fun i => ⟨obj, (entries r)._roots + sizeof_address * i, gc.NULL⟩)

/-- Two shadow-stack entries for the examples: 100, with two roots at 108 and
the next entry 200, and 200, with one root at 208 and no next entry. -/
def example_entries : Nat → StackEntry := fun a =>
  if a = 100 then ⟨200, ⟨2, 0⟩, 108⟩ else if a = 200 then ⟨0, ⟨1, 0⟩, 208⟩ else ⟨0, ⟨0, 0⟩, 0⟩

end runtime

/-! ## The stack-map walker (StackWalker.cpp, lines 59-131) -/

namespace runtime

/-- The structure `LocInfo` of a stack-map entry, as StackMap.cpp fills it: the
offset of the slot of the base pointer and the offset of the slot of the
pointer itself from the top of the frame, both `int`. -/
structure LocInfo where
  _base_offset : Int
  _offset : Int
deriving DecidableEq, Repr

/-- The structure `AddrInfo` of a safepoint, as StackMap.cpp fills it: the size
of the frame and the offsets of the slots that hold references. -/
structure AddrInfo where
  _stack_size : Nat
  _offsets : List LocInfo
deriving DecidableEq, Repr

/-- An element of `_derived_ptrs`, as line 105 builds it: the two slots and the
`int` difference of their values. -/
structure DerivedPtr where
  _base_ptr_slot : Nat
  _derived_ptr_slot : Nat
  _offset : Int
deriving DecidableEq, Repr

/-- The data members of `StackMapWalker` that `process_roots` and
`fix_derived_pointers` use. -/
structure StackMapWalker where
  _stack_pointer : Nat
  _derived_ptrs : List DerivedPtr
deriving DecidableEq, Repr

/-- The pointer `(address)stacktop + offset` for an `int` offset, an address of
64 bits. -/
def slot_at (stacktop : Nat) (offset : Int) : Nat := (((stacktop : Int) + offset) % 2 ^ 64).toNat

/-- The value `(int)(derived - base)` of line 105: the difference of two
addresses of 64 bits, cut to an `int`. -/
def int_of_diff (derived base : Nat) : Int :=
  gc.int_of_size_t ((((derived : Int) - (base : Int)) % 2 ^ 64).toNat)

/-- The value `base + offset` of line 129 for an `int` offset, an address of 64
bits. -/
def address_plus (base : Nat) (offset : Int) : Nat := (((base : Int) + offset) % 2 ^ 64).toNat

/-- The address of `stacktop[-1]`, the slot that holds the return address of
the frame at `stacktop`. -/
def return_address_slot (stacktop : Nat) : Nat := slot_at stacktop (-(sizeof_address : Int))

/-- The pointer `(address)stacktop + stackinfo->_stack_size + sizeof(address)`
of line 120, an address of 64 bits. -/
def next_stacktop (stacktop : Nat) (stackinfo : AddrInfo) : Nat :=
  (stacktop + stackinfo._stack_size + sizeof_address) % 2 ^ 64

/-- What the walk threads through: the memory, which the visitor may write,
the calls of the visitor so far and `_derived_ptrs`. -/
structure WalkState where
  mem : gc.Mem
  calls : List VisitorCall
  derived : List DerivedPtr

/-- The loop `for (const auto &offset : stackinfo->_offsets)` of
`StackMapWalker::process_roots` for the frame at `stacktop`. -/
def StackMapWalker.process_offsets (visitor : gc.Mem → VisitorCall → gc.Mem) (obj : Nat)
    (records_derived_ptrs : Bool) (stacktop : Nat) : List LocInfo → WalkState → WalkState
  | [], st => st
  | offset :: rest, st =>
    let base_ptr_slot := slot_at stacktop offset._base_offset
    let derived_ptr_slot := slot_at stacktop offset._offset
    if base_ptr_slot = derived_ptr_slot then
      StackMapWalker.process_offsets visitor obj records_derived_ptrs stacktop rest
        ⟨visitor st.mem ⟨obj, base_ptr_slot, gc.NULL⟩,
          st.calls ++ [⟨obj, base_ptr_slot, gc.NULL⟩], st.derived⟩
    else if records_derived_ptrs then
      StackMapWalker.process_offsets visitor obj records_derived_ptrs stacktop rest
        ⟨st.mem, st.calls,
          st.derived ++ [⟨base_ptr_slot, derived_ptr_slot,
            int_of_diff (st.mem derived_ptr_slot) (st.mem base_ptr_slot)⟩]⟩
    else
      StackMapWalker.process_offsets visitor obj records_derived_ptrs stacktop rest st

/-- The loop `while (stackinfo)` of `StackMapWalker::process_roots`, at most
`fuel` frames; `stackmap` is `StackMap::info` of the stack map. -/
def StackMapWalker.walk (stackmap : Nat → Option AddrInfo)
    (visitor : gc.Mem → VisitorCall → gc.Mem) (obj : Nat) (records_derived_ptrs : Bool) :
    Nat → Nat → Option AddrInfo → WalkState → WalkOutcome WalkState
  | _, _, none, st => WalkOutcome.returned st
  | 0, _, some _, _ => WalkOutcome.out_of_fuel
  | fuel + 1, stacktop, some stackinfo, st =>
    let st1 := StackMapWalker.process_offsets visitor obj records_derived_ptrs stacktop
      stackinfo._offsets st
    let stacktop1 := next_stacktop stacktop stackinfo
    StackMapWalker.walk stackmap visitor obj records_derived_ptrs fuel stacktop1
      (stackmap (st1.mem (return_address_slot stacktop1))) st1

/-- The method `StackMapWalker::process_roots(obj, visitor,
records_derived_ptrs)` on the memory `m`; `map` is `StackMap::map()`, absent
when the pointer is null.  It gives the walker with its new `_derived_ptrs`,
the memory and the calls of the visitor in order. -/
def StackMapWalker.process_roots (map : Option (Nat → Option AddrInfo)) (w : StackMapWalker)
    (m : gc.Mem) (fuel : Nat) (obj : Nat) (visitor : gc.Mem → VisitorCall → gc.Mem)
    (records_derived_ptrs : Bool) : WalkOutcome (StackMapWalker × gc.Mem × List VisitorCall) :=
  let derived_ptrs := if records_derived_ptrs then [] else w._derived_ptrs
  let stacktop := w._stack_pointer
  if stacktop = gc.NULL then WalkOutcome.assertion_failed
  else
    match map with
    | none => WalkOutcome.assertion_failed
    | some stackmap =>
      match stackmap (m (return_address_slot stacktop)) with
      | none => WalkOutcome.assertion_failed
      | some stackinfo =>
        match StackMapWalker.walk stackmap visitor obj records_derived_ptrs fuel stacktop
            (some stackinfo) ⟨m, [], derived_ptrs⟩ with
        | WalkOutcome.returned st =>
          WalkOutcome.returned (⟨w._stack_pointer, st.derived⟩, st.mem, st.calls)
        | WalkOutcome.assertion_failed => WalkOutcome.assertion_failed
        | WalkOutcome.out_of_fuel => WalkOutcome.out_of_fuel

/-- The body of the loop of `StackMapWalker::fix_derived_pointers` for one
element of `_derived_ptrs`. -/
def StackMapWalker.fix_one (m : gc.Mem) (reloc : DerivedPtr) : gc.Mem :=
  gc.store m reloc._derived_ptr_slot (address_plus (m reloc._base_ptr_slot) reloc._offset)

/-- The method `StackMapWalker::fix_derived_pointers()` on the memory `m`. -/
def StackMapWalker.fix_derived_pointers (w : StackMapWalker) (m : gc.Mem) : gc.Mem :=
  w._derived_ptrs.foldl StackMapWalker.fix_one m

/-- The frames that the claim describes: from `stacktop`, as long as the return
address in the slot below the top is a safepoint of the map, the frame and the
top of the next, `_stack_size` and one word further; `none` when more than
`fuel` frames are met. -/
def stack_frames (stackmap : Nat → Option AddrInfo) (m : gc.Mem) :
    Nat → Nat → Option (List (Nat × AddrInfo))
  | 0, stacktop =>
    match stackmap (m (return_address_slot stacktop)) with
    | none => some []
    | some _ => none
  | fuel + 1, stacktop =>
    match stackmap (m (return_address_slot stacktop)) with
    | none => some []
    | some info =>
      (stack_frames stackmap m fuel (next_stacktop stacktop info)).map
        (fun frames => (stacktop, info) :: frames)

/-- The calls that the claim describes for one frame: one for each entry whose
base offset is its offset, on the slot at that offset, with a null `meta`. -/
def frame_calls (obj : Nat) (frame : Nat × AddrInfo) : List VisitorCall :=
  (frame.2._offsets.filter (fun e => decide (e._base_offset = e._offset))).map
    (fun e => ⟨obj, slot_at frame.1 e._offset, gc.NULL⟩)

/-- The triples that the claim describes for one frame: one for each entry
whose base offset is not its offset. -/
def frame_derived (m : gc.Mem) (frame : Nat × AddrInfo) : List DerivedPtr :=
  (frame.2._offsets.filter (fun e => decide (e._base_offset ≠ e._offset))).map
    (fun e => ⟨slot_at frame.1 e._base_offset, slot_at frame.1 e._offset,
      int_of_diff (m (slot_at frame.1 e._offset)) (m (slot_at frame.1 e._base_offset))⟩)

/-- The offsets of an entry are values of `int`. -/
def LocInfo.in_range (e : LocInfo) : Prop :=
  -(2 ^ 31) ≤ e._base_offset ∧ e._base_offset < 2 ^ 31 ∧ -(2 ^ 31) ≤ e._offset ∧ e._offset < 2 ^ 31

instance (e : LocInfo) : Decidable e.in_range := by
  unfold LocInfo.in_range; infer_instance

/-- A stack map for the examples: the safepoint 5000 of a function with frames
of 32 bytes, with a root at offset 8 and a pointer at offset 24 derived from
the one at offset 16, and the safepoint 6000 of a function with frames of 16
bytes, with a root at offset 0. -/
def example_stackmap : Nat → Option AddrInfo := fun ret =>
  if ret = 5000 then some ⟨32, [⟨8, 8⟩, ⟨16, 16⟩, ⟨16, 24⟩]⟩
  else if ret = 6000 then some ⟨16, [⟨0, 0⟩]⟩
  else none

/-- A stack for the examples: the top of the first frame is 10000 with the
return address 5000 below it, its slots at 10008, 10016 and 10024 hold 70, 300
and 308; the next frame, at 10040, has the return address 6000 below it and the
slot 10040 holds 80; the frame after that has the return address 1, which is no
safepoint. -/
def example_stack : gc.Mem := fun a =>
  if a = 9992 then 5000 else if a = 10008 then 70 else if a = 10016 then 300 else
  if a = 10024 then 308 else if a = 10032 then 6000 else if a = 10040 then 80 else
  if a = 10056 then 1 else 0

/-- The frames of the example stack from the top 10000. -/
def example_frames : List (Nat × AddrInfo) :=
  [(10000, ⟨32, [⟨8, 8⟩, ⟨16, 16⟩, ⟨16, 24⟩]⟩), (10040, ⟨16, [⟨0, 0⟩]⟩)]

/-- A visitor for the examples: it counts its calls in the cell `obj`. -/
def example_visitor : gc.Mem → VisitorCall → gc.Mem :=
  fun m c => gc.store m c.obj (m c.obj + 1)

end runtime

/-! ## The stack map (StackMap.cpp, lines 9-122) -/

namespace runtime

/-- The layout of the structures of the stack-map section that the constructor
reads, and the enumerators it compares with; the header that declares them is
not among the sources, so the sizes, the offsets of the fields and the
enumerators are parameters. -/
structure StackMapLayout where
  sizeof_Header : Nat
  Header_version : Nat
  Header_reserved0 : Nat
  Header_reserved1 : Nat
  Header_num_functions : Nat
  Header_num_constants : Nat
  sizeof_StkSizeRecord : Nat
  StkSizeRecord_func_address : Nat
  StkSizeRecord_stack_size : Nat
  StkSizeRecord_record_count : Nat
  sizeof_StkMapRecord : Nat
  StkMapRecord_instruction_offset : Nat
  StkMapRecord_reserved : Nat
  StkMapRecord_num_locations : Nat
  sizeof_Location : Nat
  Location_type : Nat
  Location_reserved1 : Nat
  Location_location_size : Nat
  Location_dwarf_reg_num : Nat
  Location_offset_or_small_constant : Nat
  sizeof_StkMapRecordTail : Nat
  StkMapRecordTail_num_live_outs : Nat
  LocationType_Constant : Nat
  LocationType_Indirect : Nat
  DWARFRegNum_SP : Nat

/-- The value `(address)(((uint64_t)recrds + 0x7) & ~0x7)` of lines 84 and 90. -/
def align8 (recrds : Nat) : Nat := (recrds + 7) % 2 ^ 64 / 8 * 8

/-- The reference `_stack_maps[key]` of line 32: the entry of the key, a new
one without offsets when the map has none. -/
def StackMap.entry (_stack_maps : Nat → Option AddrInfo) (key : Nat) : AddrInfo :=
  match _stack_maps key with
  | some info => info
  | none => ⟨0, []⟩

/-- The map `_stack_maps` with the entry of `key` set to `info`. -/
def StackMap.insert (_stack_maps : Nat → Option AddrInfo) (key : Nat) (info : AddrInfo) :
    Nat → Option AddrInfo :=
  fun a => if a = key then some info else _stack_maps a

/-- The loop of lines 37-46 over `count` locations from `recrds`: the pointer
after them, `none` when an `assert` fails. -/
def StackMap.parse_constants (lay : StackMapLayout) (m : gc.Mem) : Nat → Nat → Option Nat
  | 0, recrds => some recrds
  | count + 1, recrds =>
    let lock := recrds
    if m (lock + lay.Location_reserved1) = 0 ∧
        m (lock + lay.Location_type) = lay.LocationType_Constant ∧
        gc.int_of_size_t (m (lock + lay.Location_offset_or_small_constant)) = 0 then
      StackMap.parse_constants lay m count (recrds + lay.sizeof_Location)
    else none

/-- The loop of lines 49-82, `count` iterations from `recrds` with the offsets
of the entry so far: the pointer after the locations and the offsets, `none`
when an `assert` fails. -/
def StackMap.parse_pairs (lay : StackMapLayout) (m : gc.Mem) :
    Nat → Nat → List LocInfo → Option (Nat × List LocInfo)
  | 0, recrds, offsets => some (recrds, offsets)
  | count + 1, recrds, offsets =>
    let lock1 := recrds
    let lock2 := recrds + lay.sizeof_Location
    if m (lock1 + lay.Location_reserved1) = 0 ∧
        m (lock1 + lay.Location_type) = lay.LocationType_Indirect ∧
        m (lock1 + lay.Location_dwarf_reg_num) = lay.DWARFRegNum_SP ∧
        m (lock1 + lay.Location_location_size) = 8 ∧
        m (lock2 + lay.Location_reserved1) = 0 ∧
        m (lock2 + lay.Location_type) = lay.LocationType_Indirect ∧
        m (lock2 + lay.Location_dwarf_reg_num) = lay.DWARFRegNum_SP ∧
        m (lock2 + lay.Location_location_size) = 8 then
      let offset1 := gc.int_of_size_t (m (lock1 + lay.Location_offset_or_small_constant))
      let offset2 := gc.int_of_size_t (m (lock2 + lay.Location_offset_or_small_constant))
      let offsets1 := offsets ++ [⟨offset1, offset1⟩]
      let offsets2 := if offset1 ≠ offset2 then offsets1 ++ [⟨offset1, offset2⟩] else offsets1
      StackMap.parse_pairs lay m count (recrds + 2 * lay.sizeof_Location) offsets2
    else none

/-- The body of the loop over the records of a function (lines 27-90) for the
function at `func` and the record at `recrds`: the pointer after the record
and the map, `none` when an `assert` fails.  The loop of line 49 runs once for
every second `k` from 3 below `_num_locations`. -/
def StackMap.parse_record (lay : StackMapLayout) (m : gc.Mem) (func recrds : Nat)
    (_stack_maps : Nat → Option AddrInfo) : Option (Nat × (Nat → Option AddrInfo)) :=
  let stkmap := recrds
  if m (stkmap + lay.StkMapRecord_reserved) ≠ 0 then none
  else
    let recrds1 := recrds + lay.sizeof_StkMapRecord
    let key := (m (func + lay.StkSizeRecord_func_address) +
      m (stkmap + lay.StkMapRecord_instruction_offset)) % 2 ^ 64
    let info := StackMap.entry _stack_maps key
    let _stack_size := m (func + lay.StkSizeRecord_stack_size)
    let _num_locations := m (stkmap + lay.StkMapRecord_num_locations)
    if _num_locations < 3 then none
    else
      match StackMap.parse_constants lay m 3 recrds1 with
      | none => none
      | some recrds2 =>
        if (_num_locations - 3) % 2 ≠ 0 then none
        else
          match StackMap.parse_pairs lay m ((_num_locations - 3 + 1) / 2) recrds2
              info._offsets with
          | none => none
          | some (recrds3, _offsets) =>
            let recrds4 := align8 recrds3
            let tail := recrds4
            if m (tail + lay.StkMapRecordTail_num_live_outs) ≠ 0 then none
            else
              some (align8 (recrds4 + lay.sizeof_StkMapRecordTail),
                StackMap.insert _stack_maps key ⟨_stack_size, _offsets⟩)

/-- The loop `for (int j = 0; j < func._record_count; j++)` of line 25, `count`
iterations. -/
def StackMap.parse_records (lay : StackMapLayout) (m : gc.Mem) (func : Nat) :
    Nat → Nat → (Nat → Option AddrInfo) → Option (Nat × (Nat → Option AddrInfo))
  | 0, recrds, _stack_maps => some (recrds, _stack_maps)
  | count + 1, recrds, _stack_maps =>
    match StackMap.parse_record lay m func recrds _stack_maps with
    | none => none
    | some (recrds1, _stack_maps1) =>
      StackMap.parse_records lay m func count recrds1 _stack_maps1

/-- The loop `for (int i = 0; i < hdr->_num_functions; i++)` of line 21, `count`
iterations from the index `i`. -/
def StackMap.parse_functions (lay : StackMapLayout) (m : gc.Mem) (funcs : Nat) :
    Nat → Nat → Nat → (Nat → Option AddrInfo) → Option (Nat × (Nat → Option AddrInfo))
  | 0, _, recrds, _stack_maps => some (recrds, _stack_maps)
  | count + 1, i, recrds, _stack_maps =>
    let func := funcs + i * lay.sizeof_StkSizeRecord
    match StackMap.parse_records lay m func (m (func + lay.StkSizeRecord_record_count)) recrds
        _stack_maps with
    | none => none
    | some (recrds1, _stack_maps1) =>
      StackMap.parse_functions lay m funcs count (i + 1) recrds1 _stack_maps1

/-- The constructor `StackMap::StackMap()` for the section at the address
`LLVM_StackMaps` of the memory `m`: the map `_stack_maps` it builds, `none`
when an `assert` fails. -/
def StackMap.ctor (lay : StackMapLayout) (m : gc.Mem) (LLVM_StackMaps : Nat) :
    Option (Nat → Option AddrInfo) :=
  let hdr := LLVM_StackMaps
  if m (hdr + lay.Header_version) = 3 ∧ m (hdr + lay.Header_num_constants) = 0 ∧
      m (hdr + lay.Header_reserved0) = 0 ∧ m (hdr + lay.Header_reserved1) = 0 then
    let funcs := LLVM_StackMaps + lay.sizeof_Header
    let recrds := funcs + m (hdr + lay.Header_num_functions) * lay.sizeof_StkSizeRecord
    (StackMap.parse_functions lay m funcs (m (hdr + lay.Header_num_functions)) 0 recrds
      (fun _ => none)).map Prod.snd
  else none

/-- The method `StackMap::info(ret)`: the entry of `ret`, `none` for
`nullptr`. -/
def StackMap.info (_stack_maps : Nat → Option AddrInfo) (ret : Nat) : Option AddrInfo :=
  _stack_maps ret

/-! ### Well-formed sections -/

/-- A record of a well-formed section: the offset of the safepoint in its
function and the offsets of its location pairs `(l1, l2)`, after the three
constant locations. -/
structure RecordSpec where
  instruction_offset : Nat
  pairs : List (Int × Int)
deriving DecidableEq, Repr

/-- A function of a well-formed section. -/
structure FunctionSpec where
  func_address : Nat
  stack_size : Nat
  records : List RecordSpec
deriving DecidableEq, Repr

/-- The offsets list that the claim describes for the location pairs of a
record: for each pair in order the entry of `l1` alone and, when the offsets
differ, the entry of `l2` with the base `l1`. -/
def expected_offsets (pairs : List (Int × Int)) : List LocInfo :=
  pairs.flatMap (fun p => if p.1 ≠ p.2 then [⟨p.1, p.1⟩, ⟨p.1, p.2⟩] else [⟨p.1, p.1⟩])

/-- The safepoints of a function with the entries that the claim describes. -/
def function_safepoints (f : FunctionSpec) : List (Nat × AddrInfo) :=
  f.records.map (fun r =>
    (f.func_address + r.instruction_offset, ⟨f.stack_size, expected_offsets r.pairs⟩))

/-- The safepoints of a section with the entries that the claim describes. -/
def safepoints (funcs : List FunctionSpec) : List (Nat × AddrInfo) :=
  funcs.flatMap function_safepoints

/-- The location at `lock` is one of the three leading constants, zero. -/
def constant_encoded (lay : StackMapLayout) (m : gc.Mem) (lock : Nat) : Bool :=
  decide (m (lock + lay.Location_reserved1) = 0) &&
  decide (m (lock + lay.Location_type) = lay.LocationType_Constant) &&
  decide (gc.int_of_size_t (m (lock + lay.Location_offset_or_small_constant)) = 0)

/-- The location at `lock` is a slot of 8 bytes at `offset` from the stack
pointer. -/
def indirect_encoded (lay : StackMapLayout) (m : gc.Mem) (lock : Nat) (offset : Int) : Bool :=
  decide (m (lock + lay.Location_reserved1) = 0) &&
  decide (m (lock + lay.Location_type) = lay.LocationType_Indirect) &&
  decide (m (lock + lay.Location_dwarf_reg_num) = lay.DWARFRegNum_SP) &&
  decide (m (lock + lay.Location_location_size) = 8) &&
  decide (gc.int_of_size_t (m (lock + lay.Location_offset_or_small_constant)) = offset)

/-- The location pairs are laid out one after the other from `recrds`. -/
def pairs_encoded (lay : StackMapLayout) (m : gc.Mem) : List (Int × Int) → Nat → Bool
  | [], _ => true
  | p :: rest, recrds =>
    indirect_encoded lay m recrds p.1 &&
    indirect_encoded lay m (recrds + lay.sizeof_Location) p.2 &&
    pairs_encoded lay m rest (recrds + 2 * lay.sizeof_Location)

/-- The address after the locations of the record at `recrds`. -/
def locations_end (lay : StackMapLayout) (recrds : Nat) (r : RecordSpec) : Nat :=
  recrds + lay.sizeof_StkMapRecord + 3 * lay.sizeof_Location +
    r.pairs.length * (2 * lay.sizeof_Location)

/-- The address after the record at `recrds`: the tail is aligned to 8 bytes
and so is the next record. -/
def record_end (lay : StackMapLayout) (recrds : Nat) (r : RecordSpec) : Nat :=
  align8 (align8 (locations_end lay recrds r) + lay.sizeof_StkMapRecordTail)

/-- The record `r` is laid out at `recrds`: the record header with
`3 + 2 * pairs` locations, the three constants, the pairs and a tail without
live-outs. -/
def record_encoded (lay : StackMapLayout) (m : gc.Mem) (recrds : Nat) (r : RecordSpec) : Bool :=
  decide (m (recrds + lay.StkMapRecord_reserved) = 0) &&
  decide (m (recrds + lay.StkMapRecord_instruction_offset) = r.instruction_offset) &&
  decide (m (recrds + lay.StkMapRecord_num_locations) = 3 + 2 * r.pairs.length) &&
  decide (3 + 2 * r.pairs.length < 2 ^ 16) &&
  constant_encoded lay m (recrds + lay.sizeof_StkMapRecord) &&
  constant_encoded lay m (recrds + lay.sizeof_StkMapRecord + lay.sizeof_Location) &&
  constant_encoded lay m (recrds + lay.sizeof_StkMapRecord + lay.sizeof_Location +
    lay.sizeof_Location) &&
  pairs_encoded lay m r.pairs (recrds + lay.sizeof_StkMapRecord + 3 * lay.sizeof_Location) &&
  decide (m (align8 (locations_end lay recrds r) + lay.StkMapRecordTail_num_live_outs) = 0)

/-- The records are laid out one after the other from `recrds`. -/
def records_encoded (lay : StackMapLayout) (m : gc.Mem) : List RecordSpec → Nat → Bool
  | [], _ => true
  | r :: rest, recrds =>
    record_encoded lay m recrds r && records_encoded lay m rest (record_end lay recrds r)

/-- The address after the records laid out from `recrds`. -/
def records_end (lay : StackMapLayout) : List RecordSpec → Nat → Nat
  | [], recrds => recrds
  | r :: rest, recrds => records_end lay rest (record_end lay recrds r)

/-- The functions are laid out in the array at `funcs` from the index `i`, and
their records one function after the other from `recrds`; the counts are
values of `int` and the safepoint addresses are addresses of 64 bits. -/
def functions_encoded (lay : StackMapLayout) (m : gc.Mem) (funcs : Nat) :
    List FunctionSpec → Nat → Nat → Bool
  | [], _, _ => true
  | f :: rest, i, recrds =>
    decide (m (funcs + i * lay.sizeof_StkSizeRecord + lay.StkSizeRecord_func_address) =
      f.func_address) &&
    decide (m (funcs + i * lay.sizeof_StkSizeRecord + lay.StkSizeRecord_stack_size) =
      f.stack_size) &&
    decide (m (funcs + i * lay.sizeof_StkSizeRecord + lay.StkSizeRecord_record_count) =
      f.records.length) &&
    decide (f.records.length < 2 ^ 31) &&
    f.records.all (fun r => decide (f.func_address + r.instruction_offset < 2 ^ 64)) &&
    records_encoded lay m f.records recrds &&
    functions_encoded lay m funcs rest (i + 1) (records_end lay f.records recrds)

/-- The section at `LLVM_StackMaps` is well-formed and holds the functions
`fs`: a header of version 3 without constants, the array of the functions and
their records. -/
def section_encoded (lay : StackMapLayout) (m : gc.Mem) (LLVM_StackMaps : Nat)
    (fs : List FunctionSpec) : Bool :=
  decide (m (LLVM_StackMaps + lay.Header_version) = 3) &&
  decide (m (LLVM_StackMaps + lay.Header_num_constants) = 0) &&
  decide (m (LLVM_StackMaps + lay.Header_reserved0) = 0) &&
  decide (m (LLVM_StackMaps + lay.Header_reserved1) = 0) &&
  decide (m (LLVM_StackMaps + lay.Header_num_functions) = fs.length) &&
  decide (fs.length < 2 ^ 31) &&
  functions_encoded lay m (LLVM_StackMaps + lay.sizeof_Header) fs 0
    (LLVM_StackMaps + lay.sizeof_Header + fs.length * lay.sizeof_StkSizeRecord)

/-- The map after the records of the safepoints `sp` are added in order, each
as lines 32-33 and 69-78 do: the stack size is set and the offsets are
appended to those of the entry. -/
def StackMap.add_all (sp : List (Nat × AddrInfo)) (_stack_maps : Nat → Option AddrInfo) :
    Nat → Option AddrInfo :=
  sp.foldl (fun maps s => StackMap.insert maps s.1
    ⟨s.2._stack_size, (StackMap.entry maps s.1)._offsets ++ s.2._offsets⟩) _stack_maps

/-- The layout of the stack-map section of version 3 on x86-64. -/
def example_layout : StackMapLayout :=
  { sizeof_Header := 16,
    Header_version := 0,
    Header_reserved0 := 1,
    Header_reserved1 := 2,
    Header_num_functions := 4,
    Header_num_constants := 8,
    sizeof_StkSizeRecord := 24,
    StkSizeRecord_func_address := 0,
    StkSizeRecord_stack_size := 8,
    StkSizeRecord_record_count := 16,
    sizeof_StkMapRecord := 16,
    StkMapRecord_instruction_offset := 8,
    StkMapRecord_reserved := 12,
    StkMapRecord_num_locations := 14,
    sizeof_Location := 12,
    Location_type := 0,
    Location_reserved1 := 6,
    Location_location_size := 2,
    Location_dwarf_reg_num := 4,
    Location_offset_or_small_constant := 8,
    sizeof_StkMapRecordTail := 4,
    StkMapRecordTail_num_live_outs := 2,
    LocationType_Constant := 4,
    LocationType_Indirect := 3,
    DWARFRegNum_SP := 7 }

/-- A memory with the cells of the list and zero elsewhere. -/
def mem_of_cells (cells : List (Nat × Nat)) : gc.Mem :=
  fun a => match cells.lookup a with
    | some v => v
    | none => 0

/-- A section for the examples at the address 1024: the function at 4000 with
frames of 32 bytes and one safepoint at the offset 1000 with the pairs (8, 8)
and (16, 24), and the function at 5990 with frames of 16 bytes and one
safepoint at the offset 10 with the pair (0, 0). -/
def example_section : gc.Mem :=
  mem_of_cells [(1024, 3), (1028, 2), (1036, 2),
    (1040, 4000), (1048, 32), (1056, 1), (1064, 5990), (1072, 16), (1080, 1),
    (1096, 1000), (1102, 7),
    (1104, 4), (1116, 4), (1128, 4),
    (1140, 3), (1142, 8), (1144, 7), (1148, 8),
    (1152, 3), (1154, 8), (1156, 7), (1160, 8),
    (1164, 3), (1166, 8), (1168, 7), (1172, 16),
    (1176, 3), (1178, 8), (1180, 7), (1184, 24),
    (1208, 10), (1214, 5),
    (1216, 4), (1228, 4), (1240, 4),
    (1252, 3), (1254, 8), (1256, 7),
    (1264, 3), (1266, 8), (1268, 7)]

/-- The functions of the example section. -/
def example_functions : List FunctionSpec :=
  [⟨4000, 32, [⟨1000, [(8, 8), (16, 24)]⟩]⟩, ⟨5990, 16, [⟨10, [(0, 0)]⟩]⟩]

end runtime

/-! # Theorems -/

namespace gc

/-! ## Memory and header lemmas -/

theorem store_same (m : Mem) (a v : Nat) : store m a v a = v := by
  simp [store]

theorem store_other (m : Mem) (a v x : Nat) (h : x ≠ a) : store m a v x = m x := by
  simp [store, h]

theorem fill_inside (m : Mem) (lo hi v x : Nat) (h1 : lo ≤ x) (h2 : x < hi) :
    fill m lo hi v x = v := by
  simp [fill, h1, h2]

theorem fill_outside (m : Mem) (lo hi v x : Nat) (h : x < lo ∨ hi ≤ x) :
    fill m lo hi v x = m x := by
  have : ¬ (lo ≤ x ∧ x < hi) := by omega
  simp [fill, this]

/-! ## ZeroGC.allocate -/

/-- A call that throws leaves the collector as it was. -/
theorem ZeroGC.allocate_error_state (od : ObjectDesc) (gc : ZeroGC) (klass : Klass)
    (h : (gc._heap_pos + klass.size) % 2 ^ 64 ≥ gc._heap_start + gc._heap_size) :
    ZeroGC.allocate od gc klass = (.error .bad_alloc, gc) := by
  unfold ZeroGC.allocate
  simp only [if_pos h]

/-- A request that ends below the end of the heap passes the guard of line 93:
the sum of 64 bits is at most the sum. -/
theorem ZeroGC.fits_guard (gc : ZeroGC) (klass : Klass)
    (h : gc._heap_pos + klass.size < gc._heap_start + gc._heap_size) :
    (gc._heap_pos + klass.size) % 2 ^ 64 < gc._heap_start + gc._heap_size :=
  lt_of_le_of_lt (Nat.mod_le _ _) h

/-- The state after a call that does not throw. -/
theorem ZeroGC.allocate_ok (od : ObjectDesc) (gc : ZeroGC) (klass : Klass)
    (h : (gc._heap_pos + klass.size) % 2 ^ 64 < gc._heap_start + gc._heap_size) :
    ZeroGC.allocate od gc klass =
      (.ok gc._heap_pos,
        { gc with
          _heap_pos := (gc._heap_pos + klass.size) % 2 ^ 64,
          mem :=
            if gc._need_zeroing then
              ObjectHeader.zero_fields od
                (store (store (store gc.mem (gc._heap_pos + od.MARK_OFFSET) 0)
                  (gc._heap_pos + od.SIZE_OFFSET) klass.size)
                  (gc._heap_pos + od.TAG_OFFSET) klass.type) gc._heap_pos
            else
              store (store (store gc.mem (gc._heap_pos + od.MARK_OFFSET) 0)
                (gc._heap_pos + od.SIZE_OFFSET) klass.size)
                (gc._heap_pos + od.TAG_OFFSET) klass.type }) := by
  unfold ZeroGC.allocate
  have h' : ¬ ((gc._heap_pos + klass.size) % 2 ^ 64 ≥ gc._heap_start + gc._heap_size) := by
    omega
  simp only [if_neg h']

/-- The call throws exactly when the guard of line 93 holds, with the sum of 64
bits. -/
theorem ZeroGC.allocate_error_iff (od : ObjectDesc) (gc : ZeroGC) (klass : Klass) :
    (ZeroGC.allocate od gc klass).1 = .error .bad_alloc ↔
      (gc._heap_pos + klass.size) % 2 ^ 64 ≥ gc._heap_start + gc._heap_size := by
  by_cases h : (gc._heap_pos + klass.size) % 2 ^ 64 ≥ gc._heap_start + gc._heap_size
  · rw [ZeroGC.allocate_error_state od gc klass h]
    exact ⟨fun _ => h, fun _ => rfl⟩
  · rw [ZeroGC.allocate_ok od gc klass (by omega)]
    constructor
    · intro e
      simp at e
    · intro h2
      exact absurd h2 h

/-- The bounds of the heap never change. -/
theorem ZeroGC.allocate_bounds (od : ObjectDesc) (gc : ZeroGC) (klass : Klass) :
    (ZeroGC.allocate od gc klass).2._heap_start = gc._heap_start ∧
    (ZeroGC.allocate od gc klass).2._heap_size = gc._heap_size ∧
    (ZeroGC.allocate od gc klass).2._need_zeroing = gc._need_zeroing := by
  by_cases h : (gc._heap_pos + klass.size) % 2 ^ 64 ≥ gc._heap_start + gc._heap_size
  · rw [ZeroGC.allocate_error_state od gc klass h]
    exact ⟨rfl, rfl, rfl⟩
  · rw [ZeroGC.allocate_ok od gc klass (by omega)]
    exact ⟨rfl, rfl, rfl⟩

/-- A call writes no cell below the bump pointer. -/
theorem ZeroGC.allocate_mem_below (od : ObjectDesc) (gc : ZeroGC) (klass : Klass) :
    ∀ a, a < gc._heap_pos → (ZeroGC.allocate od gc klass).2.mem a = gc.mem a := by
  by_cases h : (gc._heap_pos + klass.size) % 2 ^ 64 ≥ gc._heap_start + gc._heap_size
  · rw [ZeroGC.allocate_error_state od gc klass h]
    simp
  · rw [ZeroGC.allocate_ok od gc klass (by omega)]
    intro a ha
    have e1 : a ≠ gc._heap_pos + od.MARK_OFFSET := by omega
    have e2 : a ≠ gc._heap_pos + od.SIZE_OFFSET := by omega
    have e3 : a ≠ gc._heap_pos + od.TAG_OFFSET := by omega
    cases hz : gc._need_zeroing
    · simp [store, e1, e2, e3]
    · simp only [if_true, ObjectHeader.zero_fields, ObjectHeader.fields_base]
      rw [fill_outside _ _ _ _ _ (by omega)]
      simp [store, e1, e2, e3]

/-- The bump pointer after a call whose sum does not wrap: it has not moved
down, and it is the old one or the end of the request. -/
theorem ZeroGC.allocate_pos (od : ObjectDesc) (gc : ZeroGC) (klass : Klass)
    (hnw : gc._heap_pos + klass.size < 2 ^ 64) :
    gc._heap_pos ≤ (ZeroGC.allocate od gc klass).2._heap_pos ∧
    ((ZeroGC.allocate od gc klass).1 = .error .bad_alloc ↔
      gc._heap_pos + klass.size ≥ gc._heap_start + gc._heap_size) ∧
    (gc._heap_pos + klass.size < gc._heap_start + gc._heap_size →
      (ZeroGC.allocate od gc klass).2._heap_pos = gc._heap_pos + klass.size) ∧
    (gc._heap_pos + klass.size ≥ gc._heap_start + gc._heap_size →
      ZeroGC.allocate od gc klass = (.error .bad_alloc, gc)) := by
  have hmod : (gc._heap_pos + klass.size) % 2 ^ 64 = gc._heap_pos + klass.size :=
    Nat.mod_eq_of_lt hnw
  refine ⟨?_, ?_, ?_, ?_⟩
  · by_cases h : (gc._heap_pos + klass.size) % 2 ^ 64 ≥ gc._heap_start + gc._heap_size
    · rw [ZeroGC.allocate_error_state od gc klass h]
    · rw [ZeroGC.allocate_ok od gc klass (by omega)]
      simp only [hmod]
      omega
  · rw [ZeroGC.allocate_error_iff, hmod]
  · intro h
    rw [ZeroGC.allocate_ok od gc klass (by omega)]
    simp only [hmod]
  · intro h
    exact ZeroGC.allocate_error_state od gc klass (by omega)

/-- A sequence of calls whose sums do not wrap never moves the bump pointer
down and writes no cell below the bump pointer it starts from. -/
theorem ZeroGC.allocate_seq_below (od : ObjectDesc) (ks : List Klass) :
    ∀ gc : ZeroGC, gc._heap_pos ≤ gc._heap_start + gc._heap_size →
      (∀ k ∈ ks, gc._heap_start + gc._heap_size + k.size < 2 ^ 64) →
      gc._heap_pos ≤ (ZeroGC.allocate_seq od gc ks)._heap_pos ∧
      ∀ a, a < gc._heap_pos → (ZeroGC.allocate_seq od gc ks).mem a = gc.mem a := by
  induction ks with
  | nil => intro gc _ _; simp [ZeroGC.allocate_seq]
  | cons k ks ih =>
    intro gc hb hnw
    have hk := hnw k (List.mem_cons_self _ _)
    obtain ⟨h1, _, p3, p4⟩ := ZeroGC.allocate_pos od gc k (by omega)
    have h2 := ZeroGC.allocate_mem_below od gc k
    obtain ⟨b1, b2, _⟩ := ZeroGC.allocate_bounds od gc k
    have hb1 : (ZeroGC.allocate od gc k).2._heap_pos ≤
        (ZeroGC.allocate od gc k).2._heap_start + (ZeroGC.allocate od gc k).2._heap_size := by
      rw [b1, b2]
      by_cases hg : gc._heap_pos + k.size < gc._heap_start + gc._heap_size
      · rw [p3 hg]; omega
      · rw [p4 (by omega)]; exact hb
    obtain ⟨h3, h4⟩ := ih (ZeroGC.allocate od gc k).2 hb1
      (by rw [b1, b2]; exact fun k1 hk1 => hnw k1 (List.mem_cons_of_mem _ hk1))
    simp only [ZeroGC.allocate_seq]
    refine ⟨le_trans h1 h3, ?_⟩
    intro a ha
    rw [h4 a (by omega), h2 a ha]

/-- The header cells that `allocate` wrote, read back from the memory it left;
`zero_fields` does not reach them. -/
theorem ZeroGC.allocate_mem_header (od : ObjectDesc) (gc : ZeroGC) (klass : Klass)
    (hl : od.layout_ok)
    (hfit : (gc._heap_pos + klass.size) % 2 ^ 64 < gc._heap_start + gc._heap_size) :
    (ZeroGC.allocate od gc klass).2.mem (gc._heap_pos + od.MARK_OFFSET) = 0 ∧
    (ZeroGC.allocate od gc klass).2.mem (gc._heap_pos + od.SIZE_OFFSET) = klass.size ∧
    (ZeroGC.allocate od gc klass).2.mem (gc._heap_pos + od.TAG_OFFSET) = klass.type := by
  obtain ⟨h1, h2, h3, h4, h5, h6, _⟩ := hl
  have hs : ∀ x, x < gc._heap_pos + od.HEADER_SIZE →
      (ZeroGC.allocate od gc klass).2.mem x =
        store (store (store gc.mem (gc._heap_pos + od.MARK_OFFSET) 0)
          (gc._heap_pos + od.SIZE_OFFSET) klass.size)
          (gc._heap_pos + od.TAG_OFFSET) klass.type x := by
    intro x hx
    rw [ZeroGC.allocate_ok od gc klass hfit]
    cases hz : gc._need_zeroing
    · simp
    · simp only [if_true, ObjectHeader.zero_fields, ObjectHeader.fields_base]
      rw [fill_outside _ _ _ _ _ (by omega)]
  refine ⟨?_, ?_, ?_⟩
  · rw [hs _ (by omega), store_other _ _ _ _ (by omega), store_other _ _ _ _ (by omega),
      store_same]
  · rw [hs _ (by omega), store_other _ _ _ _ (by omega), store_same]
  · rw [hs _ (by omega), store_same]

/-- C3. When the request fits, `ZeroGC::allocate(klass)` returns an object whose
header has `_mark = 0`, `_size = klass.size()` and `_tag = klass.type()`, and,
when `_need_zeroing` is set, every cell of its field region, so every field
slot, holds the null sentinel. -/
theorem ZeroGC_allocate_initialises_header (od : ObjectDesc) (gc : ZeroGC) (klass : Klass)
    (hl : od.layout_ok)
    (hfit : gc._heap_pos + klass.size < gc._heap_start + gc._heap_size) :
    (ZeroGC.allocate od gc klass).1 = .ok gc._heap_pos ∧
    ObjectHeader._mark od (ZeroGC.allocate od gc klass).2.mem gc._heap_pos = 0 ∧
    ObjectHeader._size od (ZeroGC.allocate od gc klass).2.mem gc._heap_pos = klass.size ∧
    ObjectHeader._tag od (ZeroGC.allocate od gc klass).2.mem gc._heap_pos = klass.type ∧
    (gc._need_zeroing = true →
      (∀ a, ObjectHeader.fields_base od gc._heap_pos ≤ a → a < gc._heap_pos + klass.size →
        (ZeroGC.allocate od gc klass).2.mem a = NULL) ∧
      (∀ j, od.HEADER_SIZE + od.WORD_SIZE * j < klass.size →
        (ZeroGC.allocate od gc klass).2.mem
          (ObjectHeader.fields_base od gc._heap_pos + od.WORD_SIZE * j) = NULL)) := by
  have hguard := ZeroGC.fits_guard gc klass hfit
  obtain ⟨hm, hs, ht⟩ := ZeroGC.allocate_mem_header od gc klass hl hguard
  refine ⟨?_, hm, hs, ht, ?_⟩
  · rw [ZeroGC.allocate_ok od gc klass hguard]
  · intro hz
    have key : ∀ a, ObjectHeader.fields_base od gc._heap_pos ≤ a →
        a < gc._heap_pos + klass.size → (ZeroGC.allocate od gc klass).2.mem a = NULL := by
      intro a h1 h2
      obtain ⟨_, _, _, _, _, h6, _⟩ := hl
      rw [ZeroGC.allocate_ok od gc klass hguard]
      simp only [hz, if_true, ObjectHeader.zero_fields]
      apply fill_inside _ _ _ _ _ h1
      have hsz : ObjectHeader._size od
          (store (store (store gc.mem (gc._heap_pos + od.MARK_OFFSET) 0)
            (gc._heap_pos + od.SIZE_OFFSET) klass.size)
            (gc._heap_pos + od.TAG_OFFSET) klass.type) gc._heap_pos = klass.size := by
        simp [ObjectHeader._size, store]
        omega
      rw [hsz]
      unfold ObjectHeader.fields_base at h1 ⊢
      omega
    refine ⟨key, ?_⟩
    intro j hj
    apply key
    · omega
    · unfold ObjectHeader.fields_base
      omega

/-- Witness of C3: a 40-byte object with a 24-byte header in a 100-byte heap
that zeroes fields. -/
theorem ZeroGC_allocate_initialises_header_witness :
    (ZeroGC.allocate ⟨24, 0, 8, 16, 8, fun t => ⟨t, 40, false, 2⟩⟩
        ⟨100, true, 1000, 1000, fun _ => 7⟩ ⟨1, 40, false, 2⟩).1 = .ok 1000 ∧
    (ZeroGC.allocate ⟨24, 0, 8, 16, 8, fun t => ⟨t, 40, false, 2⟩⟩
        ⟨100, true, 1000, 1000, fun _ => 7⟩ ⟨1, 40, false, 2⟩).2.mem 1032 = 0 :=
  ⟨(ZeroGC_allocate_initialises_header ⟨24, 0, 8, 16, 8, fun t => ⟨t, 40, false, 2⟩⟩
      ⟨100, true, 1000, 1000, fun _ => 7⟩ ⟨1, 40, false, 2⟩ (by decide) (by decide)).1,
   ((ZeroGC_allocate_initialises_header ⟨24, 0, 8, 16, 8, fun t => ⟨t, 40, false, 2⟩⟩
      ⟨100, true, 1000, 1000, fun _ => 7⟩ ⟨1, 40, false, 2⟩ (by decide) (by decide)).2.2.2.2
      rfl).1 1032 (by decide) (by decide)⟩

/-- C4. When the request fits, `ZeroGC::allocate(klass)` returns the value that
`_heap_pos` had before the call and leaves `_heap_pos` advanced by
`klass.size()`: the sum is the one of 64 bits, which is `_heap_pos` plus
`klass.size()` for every heap that lies in the address space. -/
theorem ZeroGC_allocate_bumps_heap_pos (od : ObjectDesc) (gc : ZeroGC) (klass : Klass)
    (hfit : gc._heap_pos + klass.size < gc._heap_start + gc._heap_size) :
    (ZeroGC.allocate od gc klass).1 = .ok gc._heap_pos ∧
    (ZeroGC.allocate od gc klass).2._heap_pos = (gc._heap_pos + klass.size) % 2 ^ 64 ∧
    (gc._heap_start + gc._heap_size ≤ 2 ^ 64 →
      (ZeroGC.allocate od gc klass).2._heap_pos = gc._heap_pos + klass.size) := by
  rw [ZeroGC.allocate_ok od gc klass (ZeroGC.fits_guard gc klass hfit)]
  refine ⟨rfl, rfl, ?_⟩
  intro haddr
  exact Nat.mod_eq_of_lt (by omega)

/-- Witness of C4: a 40-byte object at the start of a 100-byte heap. -/
theorem ZeroGC_allocate_bumps_heap_pos_witness :
    (1000 + 40 < 1000 + 100) ∧
    (ZeroGC.allocate ⟨24, 0, 8, 16, 8, fun t => ⟨t, 40, false, 2⟩⟩
        ⟨100, true, 1000, 1000, fun _ => 7⟩ ⟨1, 40, false, 2⟩).1 = .ok 1000 ∧
    (ZeroGC.allocate ⟨24, 0, 8, 16, 8, fun t => ⟨t, 40, false, 2⟩⟩
        ⟨100, true, 1000, 1000, fun _ => 7⟩ ⟨1, 40, false, 2⟩).2._heap_pos = 1000 + 40 :=
  ⟨by decide,
    (ZeroGC_allocate_bumps_heap_pos ⟨24, 0, 8, 16, 8, fun t => ⟨t, 40, false, 2⟩⟩
      ⟨100, true, 1000, 1000, fun _ => 7⟩ ⟨1, 40, false, 2⟩ (by decide)).1,
    (ZeroGC_allocate_bumps_heap_pos ⟨24, 0, 8, 16, 8, fun t => ⟨t, 40, false, 2⟩⟩
      ⟨100, true, 1000, 1000, fun _ => 7⟩ ⟨1, 40, false, 2⟩ (by decide)).2.2 (by decide)⟩

/-- C5, the code at the failing input.  The constructor gives a fresh 64-byte
heap at address 1000; the first 32-byte object is allocated at 1000 and moves
`_heap_pos` to 1032; the second request ends exactly at the end of the heap
(1032 + 32 = 1000 + 64, so it is not beyond it) and the call throws `bad_alloc`,
with `_heap_pos` still 1032. -/
theorem ZeroGC_allocate_exact_fit_throws :
    ZeroGC.mk_heap 1000 (fun _ => 0) 64 true = .ok ⟨64, true, 1000, 1000, fun _ => 0⟩ ∧
    (ZeroGC.allocate ⟨24, 0, 8, 16, 8, fun t => ⟨t, 32, false, 1⟩⟩
      ⟨64, true, 1000, 1000, fun _ => 0⟩ ⟨1, 32, false, 1⟩).1 = .ok 1000 ∧
    (ZeroGC.allocate ⟨24, 0, 8, 16, 8, fun t => ⟨t, 32, false, 1⟩⟩
      ⟨64, true, 1000, 1000, fun _ => 0⟩ ⟨1, 32, false, 1⟩).2._heap_pos = 1032 ∧
    ¬ (1032 + 32 > 1000 + 64) ∧
    (ZeroGC.allocate ⟨24, 0, 8, 16, 8, fun t => ⟨t, 32, false, 1⟩⟩
      (ZeroGC.allocate ⟨24, 0, 8, 16, 8, fun t => ⟨t, 32, false, 1⟩⟩
        ⟨64, true, 1000, 1000, fun _ => 0⟩ ⟨1, 32, false, 1⟩).2 ⟨1, 32, false, 1⟩).1
      = .error .bad_alloc ∧
    (ZeroGC.allocate ⟨24, 0, 8, 16, 8, fun t => ⟨t, 32, false, 1⟩⟩
      (ZeroGC.allocate ⟨24, 0, 8, 16, 8, fun t => ⟨t, 32, false, 1⟩⟩
        ⟨64, true, 1000, 1000, fun _ => 0⟩ ⟨1, 32, false, 1⟩).2 ⟨1, 32, false, 1⟩).2._heap_pos
      = 1032 :=
  ⟨rfl, rfl, rfl, by decide, rfl, rfl⟩


/-- One call whose sum does not wrap keeps `_heap_pos` between the bounds of the
heap. -/
theorem ZeroGC.allocate_keeps_bounds (od : ObjectDesc) (gc : ZeroGC) (klass : Klass)
    (h : gc._heap_start ≤ gc._heap_pos ∧ gc._heap_pos ≤ gc._heap_start + gc._heap_size)
    (hnw : gc._heap_start + gc._heap_size + klass.size < 2 ^ 64) :
    (ZeroGC.allocate od gc klass).2._heap_start ≤ (ZeroGC.allocate od gc klass).2._heap_pos ∧
    (ZeroGC.allocate od gc klass).2._heap_pos ≤
      (ZeroGC.allocate od gc klass).2._heap_start + (ZeroGC.allocate od gc klass).2._heap_size := by
  obtain ⟨p1, _, p3, p4⟩ := ZeroGC.allocate_pos od gc klass (by omega)
  obtain ⟨b1, b2, _⟩ := ZeroGC.allocate_bounds od gc klass
  rw [b1, b2]
  refine ⟨by omega, ?_⟩
  by_cases hg : gc._heap_pos + klass.size < gc._heap_start + gc._heap_size
  · rw [p3 hg]; omega
  · rw [p4 (by omega)]; exact h.2

/-- A sequence of calls whose sums do not wrap keeps `_heap_pos` between the
bounds of the heap, and the bounds themselves. -/
theorem ZeroGC.allocate_seq_keeps_bounds (od : ObjectDesc) (ks : List Klass) :
    ∀ gc : ZeroGC,
      gc._heap_start ≤ gc._heap_pos ∧ gc._heap_pos ≤ gc._heap_start + gc._heap_size →
      (∀ k ∈ ks, gc._heap_start + gc._heap_size + k.size < 2 ^ 64) →
      (ZeroGC.allocate_seq od gc ks)._heap_start = gc._heap_start ∧
      (ZeroGC.allocate_seq od gc ks)._heap_size = gc._heap_size ∧
      gc._heap_start ≤ (ZeroGC.allocate_seq od gc ks)._heap_pos ∧
      (ZeroGC.allocate_seq od gc ks)._heap_pos ≤ gc._heap_start + gc._heap_size := by
  induction ks with
  | nil => intro gc h _; exact ⟨rfl, rfl, h.1, h.2⟩
  | cons k ks ih =>
    intro gc h hnw
    obtain ⟨b1, b2, _⟩ := ZeroGC.allocate_bounds od gc k
    obtain ⟨i1, i2, i3, i4⟩ := ih (ZeroGC.allocate od gc k).2
      (ZeroGC.allocate_keeps_bounds od gc k h (hnw k (List.mem_cons_self _ _)))
      (by rw [b1, b2]; exact fun k1 hk1 => hnw k1 (List.mem_cons_of_mem _ hk1))
    simp only [ZeroGC.allocate_seq]
    rw [b1] at i1 i3 i4
    rw [b2] at i2 i4
    exact ⟨i1, i2, i3, i4⟩

/-- The heap bound invariant for class sizes whose sums do not wrap: from a
freshly constructed `ZeroGC`, after every finite sequence of `allocate` calls
for classes with `_heap_start + _heap_size + size < 2 ^ 64`, returning or
throwing, `_heap_start <= _heap_pos <= _heap_start + _heap_size`. -/
theorem ZeroGC.heap_pos_within_bounds (od : ObjectDesc) (malloc_result : Nat) (mem : Mem)
    (heap_size : Nat) (need_zeroing : Bool) (gc0 : ZeroGC)
    (hnew : ZeroGC.mk_heap malloc_result mem heap_size need_zeroing = .ok gc0)
    (ks : List Klass) (hnw : ∀ k ∈ ks, malloc_result + heap_size + k.size < 2 ^ 64) :
    gc0._heap_pos = gc0._heap_start ∧
    (ZeroGC.allocate_seq od gc0 ks)._heap_start = malloc_result ∧
    (ZeroGC.allocate_seq od gc0 ks)._heap_size = heap_size ∧
    (ZeroGC.allocate_seq od gc0 ks)._heap_start ≤ (ZeroGC.allocate_seq od gc0 ks)._heap_pos ∧
    (ZeroGC.allocate_seq od gc0 ks)._heap_pos ≤
      (ZeroGC.allocate_seq od gc0 ks)._heap_start + (ZeroGC.allocate_seq od gc0 ks)._heap_size := by
  unfold ZeroGC.mk_heap at hnew
  by_cases hp : malloc_result = NULL
  · simp [hp] at hnew
  · simp only [hp, if_false, Except.ok.injEq] at hnew
    subst hnew
    obtain ⟨i1, i2, i3, i4⟩ := ZeroGC.allocate_seq_keeps_bounds od ks
      { _heap_size := heap_size, _need_zeroing := need_zeroing, _heap_start := malloc_result,
        _heap_pos := malloc_result, mem := mem } ⟨le_refl _, Nat.le_add_right _ _⟩ hnw
    simp only at i1 i2 i3 i4
    refine ⟨rfl, i1, i2, ?_, ?_⟩
    · rw [i1]; exact i3
    · rw [i1, i2]; exact i4

/-- C7, the code at the failing input.  The constructor gives a fresh 64-byte
heap at address 1000; a request for a class of `2 ^ 64 - 16` bytes does not fit,
but the sum of line 93 wraps to 984, which is below the end of the heap 1064:
the call does not throw, it returns the object 1000 and leaves `_heap_pos` at
984, below `_heap_start`. -/
theorem ZeroGC_allocate_wraps_below_heap_start :
    ZeroGC.mk_heap 1000 (fun _ => 0) 64 false = .ok ⟨64, false, 1000, 1000, fun _ => 0⟩ ∧
    1000 + (2 ^ 64 - 16) > 1000 + 64 ∧
    (1000 + (2 ^ 64 - 16)) % 2 ^ 64 = 984 ∧
    (ZeroGC.allocate ⟨24, 0, 8, 16, 8, fun t => ⟨t, 2 ^ 64 - 16, false, 1⟩⟩
      ⟨64, false, 1000, 1000, fun _ => 0⟩ ⟨1, 2 ^ 64 - 16, false, 1⟩).1 = .ok 1000 ∧
    (ZeroGC.allocate_seq ⟨24, 0, 8, 16, 8, fun t => ⟨t, 2 ^ 64 - 16, false, 1⟩⟩
      ⟨64, false, 1000, 1000, fun _ => 0⟩ [⟨1, 2 ^ 64 - 16, false, 1⟩])._heap_pos = 984 ∧
    (ZeroGC.allocate_seq ⟨24, 0, 8, 16, 8, fun t => ⟨t, 2 ^ 64 - 16, false, 1⟩⟩
      ⟨64, false, 1000, 1000, fun _ => 0⟩ [⟨1, 2 ^ 64 - 16, false, 1⟩])._heap_start = 1000 ∧
    ¬ ((ZeroGC.allocate_seq ⟨24, 0, 8, 16, 8, fun t => ⟨t, 2 ^ 64 - 16, false, 1⟩⟩
        ⟨64, false, 1000, 1000, fun _ => 0⟩ [⟨1, 2 ^ 64 - 16, false, 1⟩])._heap_start ≤
      (ZeroGC.allocate_seq ⟨24, 0, 8, 16, 8, fun t => ⟨t, 2 ^ 64 - 16, false, 1⟩⟩
        ⟨64, false, 1000, 1000, fun _ => 0⟩ [⟨1, 2 ^ 64 - 16, false, 1⟩])._heap_pos) := by
  refine ⟨rfl, by decide, by decide, rfl, by decide, by decide, by decide⟩

/-- A call writes only inside `[old _heap_pos, old _heap_pos + klass.size())`,
for a class whose instances hold their header. -/
theorem ZeroGC.allocate_writes_inside (od : ObjectDesc) (gc : ZeroGC) (klass : Klass)
    (hl : od.layout_ok) (hk : od.HEADER_SIZE ≤ klass.size) :
    ∀ a, a < gc._heap_pos ∨ gc._heap_pos + klass.size ≤ a →
      (ZeroGC.allocate od gc klass).2.mem a = gc.mem a := by
  intro a ha
  rcases ha with ha | ha
  · exact ZeroGC.allocate_mem_below od gc klass a ha
  · by_cases hg : (gc._heap_pos + klass.size) % 2 ^ 64 ≥ gc._heap_start + gc._heap_size
    · rw [ZeroGC.allocate_error_state od gc klass hg]
    · obtain ⟨h1, h2, h3, h4, h5, h6, _⟩ := hl
      rw [ZeroGC.allocate_ok od gc klass (by omega)]
      have e1 : a ≠ gc._heap_pos + od.MARK_OFFSET := by omega
      have e2 : a ≠ gc._heap_pos + od.SIZE_OFFSET := by omega
      have e3 : a ≠ gc._heap_pos + od.TAG_OFFSET := by omega
      have hsz : ObjectHeader._size od
          (store (store (store gc.mem (gc._heap_pos + od.MARK_OFFSET) 0)
            (gc._heap_pos + od.SIZE_OFFSET) klass.size)
            (gc._heap_pos + od.TAG_OFFSET) klass.type) gc._heap_pos = klass.size := by
        unfold ObjectHeader._size
        rw [store_other _ _ _ _ (by omega), store_same]
      cases hz : gc._need_zeroing
      · simp [store, e1, e2, e3]
      · simp only [if_true, ObjectHeader.zero_fields, ObjectHeader.fields_base, hsz]
        rw [fill_outside _ _ _ _ _ (by omega)]
        simp [store, e1, e2, e3]

/-- The frame of later calls whose sums do not wrap: the object that a call
returned for a request that fits keeps every cell of its extent, its `_mark`,
`_size` and `_tag`, through every finite sequence of later `allocate` calls for
classes with `_heap_start + _heap_size + size < 2 ^ 64`. -/
theorem ZeroGC.allocate_frame (od : ObjectDesc) (gc : ZeroGC) (klass : Klass)
    (hl : od.layout_ok) (hk : od.HEADER_SIZE ≤ klass.size)
    (hfit : gc._heap_pos + klass.size < gc._heap_start + gc._heap_size)
    (haddr : gc._heap_start + gc._heap_size ≤ 2 ^ 64)
    (ks : List Klass) (hnw : ∀ k ∈ ks, gc._heap_start + gc._heap_size + k.size < 2 ^ 64) :
    (∀ a, gc._heap_pos ≤ a → a < gc._heap_pos + klass.size →
      (ZeroGC.allocate_seq od (ZeroGC.allocate od gc klass).2 ks).mem a =
        (ZeroGC.allocate od gc klass).2.mem a) ∧
    ObjectHeader._mark od (ZeroGC.allocate_seq od (ZeroGC.allocate od gc klass).2 ks).mem
        gc._heap_pos = 0 ∧
    ObjectHeader._size od (ZeroGC.allocate_seq od (ZeroGC.allocate od gc klass).2 ks).mem
        gc._heap_pos = klass.size ∧
    ObjectHeader._tag od (ZeroGC.allocate_seq od (ZeroGC.allocate od gc klass).2 ks).mem
        gc._heap_pos = klass.type := by
  have hguard := ZeroGC.fits_guard gc klass hfit
  have hpos : (ZeroGC.allocate od gc klass).2._heap_pos = gc._heap_pos + klass.size := by
    rw [ZeroGC.allocate_ok od gc klass hguard]
    exact Nat.mod_eq_of_lt (by omega)
  obtain ⟨b1, b2, _⟩ := ZeroGC.allocate_bounds od gc klass
  have hseq := (ZeroGC.allocate_seq_below od ks (ZeroGC.allocate od gc klass).2
    (by rw [hpos, b1, b2]; omega) (by rw [b1, b2]; exact hnw)).2
  rw [hpos] at hseq
  obtain ⟨hm, hs, ht⟩ := ZeroGC.allocate_mem_header od gc klass hl hguard
  obtain ⟨h1, h2, h3, _⟩ := hl
  refine ⟨fun a _ ha => hseq a ha, ?_, ?_, ?_⟩
  · unfold ObjectHeader._mark
    rw [hseq _ (by omega), hm]
  · unfold ObjectHeader._size
    rw [hseq _ (by omega), hs]
  · unfold ObjectHeader._tag
    rw [hseq _ (by omega), ht]

/-- C8, the code at the failing input.  In a fresh 64-byte heap at address 1000
that does not zero fields, three calls for classes of 32, `2 ^ 64 - 32` and 32
bytes all return: the objects 1000, 1032 and again 1000, since the second sum
wraps and moves `_heap_pos` back to 1000.  The first object has the tag 1 after
its call and after the second call; the third call, a later returning call,
writes the tag 9 into its header. -/
theorem ZeroGC_allocate_overwrites_earlier_object :
    (ZeroGC.allocate example_od ⟨64, false, 1000, 1000, fun _ => 0⟩ ⟨1, 32, false, 1⟩).1 =
      .ok 1000 ∧
    ObjectHeader._tag example_od
      (ZeroGC.allocate example_od ⟨64, false, 1000, 1000, fun _ => 0⟩ ⟨1, 32, false, 1⟩).2.mem
      1000 = 1 ∧
    (ZeroGC.allocate example_od
      (ZeroGC.allocate example_od ⟨64, false, 1000, 1000, fun _ => 0⟩ ⟨1, 32, false, 1⟩).2
      ⟨2, 2 ^ 64 - 32, false, 1⟩).1 = .ok 1032 ∧
    (ZeroGC.allocate_seq example_od ⟨64, false, 1000, 1000, fun _ => 0⟩
      [⟨1, 32, false, 1⟩, ⟨2, 2 ^ 64 - 32, false, 1⟩])._heap_pos = 1000 ∧
    ObjectHeader._tag example_od
      (ZeroGC.allocate_seq example_od ⟨64, false, 1000, 1000, fun _ => 0⟩
        [⟨1, 32, false, 1⟩, ⟨2, 2 ^ 64 - 32, false, 1⟩]).mem 1000 = 1 ∧
    (ZeroGC.allocate example_od
      (ZeroGC.allocate_seq example_od ⟨64, false, 1000, 1000, fun _ => 0⟩
        [⟨1, 32, false, 1⟩, ⟨2, 2 ^ 64 - 32, false, 1⟩]) ⟨9, 32, false, 1⟩).1 = .ok 1000 ∧
    ObjectHeader._tag example_od
      (ZeroGC.allocate_seq example_od ⟨64, false, 1000, 1000, fun _ => 0⟩
        [⟨1, 32, false, 1⟩, ⟨2, 2 ^ 64 - 32, false, 1⟩, ⟨9, 32, false, 1⟩]).mem 1000 = 9 := by
  refine ⟨rfl, by decide, rfl, by decide, by decide, rfl, by decide⟩

end gc

namespace runtime

/-- C6. `GC::allocate(tag, size, disp_tab)` calls `collect()` exactly when the
first `_allocator->allocate` returns null, once, and then repeats the same
request once; it returns the first non-null result of the allocator, and it
takes the `exit_with_error` path exactly when the attempt before and the
attempt after the collection both return null. -/
theorem GC_allocate_collects_once_then_retries {σ : Type} (c : Collector σ) (s : σ) (tag : Int)
    (size disp_tab : Nat) :
    ((c.allocator_allocate s tag size disp_tab).1 ≠ gc.NULL →
      GC.allocate c s tag size disp_tab =
        (Result.object (c.allocator_allocate s tag size disp_tab).1,
          (c.allocator_allocate s tag size disp_tab).2,
          [Call.allocator_allocate tag size disp_tab])) ∧
    ((c.allocator_allocate s tag size disp_tab).1 = gc.NULL →
      (c.allocator_allocate (c.collect (c.allocator_allocate s tag size disp_tab).2)
        tag size disp_tab).1 ≠ gc.NULL →
      GC.allocate c s tag size disp_tab =
        (Result.object (c.allocator_allocate
            (c.collect (c.allocator_allocate s tag size disp_tab).2) tag size disp_tab).1,
          (c.allocator_allocate
            (c.collect (c.allocator_allocate s tag size disp_tab).2) tag size disp_tab).2,
          [Call.allocator_allocate tag size disp_tab, Call.collect,
            Call.allocator_allocate tag size disp_tab])) ∧
    ((c.allocator_allocate s tag size disp_tab).1 = gc.NULL →
      (c.allocator_allocate (c.collect (c.allocator_allocate s tag size disp_tab).2)
        tag size disp_tab).1 = gc.NULL →
      GC.allocate c s tag size disp_tab =
        (Result.fatal_exit,
          (c.allocator_allocate
            (c.collect (c.allocator_allocate s tag size disp_tab).2) tag size disp_tab).2,
          [Call.allocator_allocate tag size disp_tab, Call.collect,
            Call.allocator_allocate tag size disp_tab,
            Call.exit_with_error "cannot allocate memory for object!"])) ∧
    (Call.collect ∈ (GC.allocate c s tag size disp_tab).2.2 ↔
      (c.allocator_allocate s tag size disp_tab).1 = gc.NULL) ∧
    (GC.allocate c s tag size disp_tab).2.2.count Call.collect ≤ 1 ∧
    ((GC.allocate c s tag size disp_tab).1 = Result.fatal_exit ↔
      (c.allocator_allocate s tag size disp_tab).1 = gc.NULL ∧
      (c.allocator_allocate (c.collect (c.allocator_allocate s tag size disp_tab).2)
        tag size disp_tab).1 = gc.NULL) := by
  by_cases h1 : (c.allocator_allocate s tag size disp_tab).1 = gc.NULL
  · by_cases h2 : (c.allocator_allocate (c.collect (c.allocator_allocate s tag size disp_tab).2)
        tag size disp_tab).1 = gc.NULL
    · simp [GC.allocate, h1, h2]
    · simp [GC.allocate, h1, h2]
  · simp [GC.allocate, h1]

end runtime

namespace gc

/-! ## StackRecord -/

theorem update_same {α : Type} (f : Nat → α) (a : Nat) (v : α) : update f a v a = v := by
  simp [update]

theorem update_other {α : Type} (f : Nat → α) (a : Nat) (v : α) (x : Nat) (h : x ≠ a) :
    update f a v x = f x := by
  simp [update, h]

/-- C9. Constructing a child `StackRecord(p)` at address `this` makes the child
the current scope of the collector of `p`, with `parent()` equal to `p`, and
destroying that child sets the current scope of that collector back to `p`; in
any state, the destructor sets the current scope of the collector of the record
to the parent of the record. -/
theorem StackRecord_child_push_pop (w : Scopes) (this p : Nat) :
    (StackRecord.ctor_parent w this p).current_scope (w.records p)._gc = this ∧
    StackRecord.parent (StackRecord.ctor_parent w this p).records this = p ∧
    ((StackRecord.ctor_parent w this p).records this)._gc = (w.records p)._gc ∧
    (StackRecord.dtor (StackRecord.ctor_parent w this p) this).current_scope
      (w.records p)._gc = p ∧
    (StackRecord.dtor w this).current_scope (w.records this)._gc = (w.records this)._parent := by
  simp [StackRecord.ctor_parent, StackRecord.ctor_gc, StackRecord.dtor, StackRecord.parent,
    update]

/-- Writing the record at an address that is not on a chain keeps the chain. -/
theorem scope_chain_update (records : Nat → StackRecord) (this : Nat) (v : StackRecord) :
    ∀ (n sr : Nat) (ch : List Nat), this ∉ ch → scope_chain records n sr = some ch →
      scope_chain (update records this v) n sr = some ch := by
  intro n
  induction n with
  | zero =>
    intro sr ch _ h
    simpa [scope_chain] using h
  | succ n ih =>
    intro sr ch hfresh h
    unfold scope_chain at h ⊢
    by_cases hsr : sr = NULL
    · simpa [hsr] using h
    · simp only [hsr, if_false, Option.map_eq_some'] at h ⊢
      obtain ⟨ch1, h1, rfl⟩ := h
      have hne : sr ≠ this := by
        intro e
        exact hfresh (by simp [e])
      have hch1 : this ∉ ch1 := fun hm => hfresh (List.mem_cons_of_mem _ hm)
      refine ⟨ch1, ?_, rfl⟩
      have hp : StackRecord.parent (update records this v) sr = StackRecord.parent records sr := by
        simp [StackRecord.parent, update, hne]
      rw [hp]
      exact ih _ _ hch1 h1

/-- C10 as stated fails for `StackRecord(GC *)`.  The collector at address 1 has
the current scope 10 with the root 100; constructing `StackRecord(gc)` at
address 20 leaves the chain of the new current scope with the new scope alone:
scope 10 and its root are no longer on it. -/
theorem StackRecord_ctor_gc_replaces_chain :
    scope_chain (fun a => if a = 10 then ⟨0, [100], 1⟩ else ⟨0, [], 0⟩) 2
      ((fun g => if g = 1 then 10 else 0) 1) = some [10] ∧
    scope_chain
      (StackRecord.ctor_gc
        ⟨fun g => if g = 1 then 10 else 0, fun a => if a = 10 then ⟨0, [100], 1⟩ else ⟨0, [], 0⟩⟩
        20 1).records 2
      ((StackRecord.ctor_gc
        ⟨fun g => if g = 1 then 10 else 0, fun a => if a = 10 then ⟨0, [100], 1⟩ else ⟨0, [], 0⟩⟩
        20 1).current_scope 1) = some [20] ∧
    10 ∉ [20] ∧
    chain_roots
      (StackRecord.ctor_gc
        ⟨fun g => if g = 1 then 10 else 0, fun a => if a = 10 then ⟨0, [100], 1⟩ else ⟨0, [], 0⟩⟩
        20 1).records [20] = [] := by
  refine ⟨by decide, by decide, by decide, by decide⟩

/-- C10, amended.  `StackRecord(StackRecord *parent)` run at a fresh non-null
address `this` makes `this` the current scope of the collector of `parent`, and
the chain that `parent()` gives from it is `this` followed by the chain of
`parent`, whose records are unchanged: when `parent` is the previous current
scope, the chain is extended.  `StackRecord(GC *gc)` makes the chain of the new
current scope the new scope alone. -/
theorem StackRecord_ctor_chain (w : Scopes) (this parent gc n : Nat) (ch : List Nat)
    (hthis : this ≠ NULL) (hfresh : this ∉ ch)
    (hch : scope_chain w.records n parent = some ch) :
    (StackRecord.ctor_parent w this parent).current_scope (w.records parent)._gc = this ∧
    scope_chain (StackRecord.ctor_parent w this parent).records (n + 1) this
      = some (this :: ch) ∧
    (∀ s ∈ ch, (StackRecord.ctor_parent w this parent).records s = w.records s) ∧
    (w.current_scope (w.records parent)._gc = parent →
      scope_chain w.records n (w.current_scope (w.records parent)._gc) = some ch) ∧
    (StackRecord.ctor_gc w this gc).current_scope gc = this ∧
    scope_chain (StackRecord.ctor_gc w this gc).records (n + 1) this = some [this] := by
  have hrec : (StackRecord.ctor_parent w this parent).records =
      update w.records this ⟨parent, [], (w.records parent)._gc⟩ := by
    funext x
    by_cases hx : x = this
    · simp [StackRecord.ctor_parent, StackRecord.ctor_gc, update, hx]
    · simp [StackRecord.ctor_parent, StackRecord.ctor_gc, update, hx]
  refine ⟨?_, ?_, ?_, ?_, ?_, ?_⟩
  · simp [StackRecord.ctor_parent, StackRecord.ctor_gc, update]
  · rw [hrec]
    unfold scope_chain
    simp only [hthis, if_false, Option.map_eq_some']
    refine ⟨ch, ?_, rfl⟩
    have hp : StackRecord.parent (update w.records this ⟨parent, [], (w.records parent)._gc⟩) this
        = parent := by
      simp [StackRecord.parent, update]
    rw [hp]
    exact scope_chain_update _ _ _ _ _ _ hfresh hch
  · intro s hs
    rw [hrec]
    apply update_other
    intro e
    exact hfresh (e ▸ hs)
  · intro hcur
    rw [hcur]
    exact hch
  · simp [StackRecord.ctor_gc, update]
  · unfold scope_chain
    simp only [hthis, if_false, Option.map_eq_some']
    refine ⟨[], ?_, rfl⟩
    have hp : StackRecord.parent (StackRecord.ctor_gc w this gc).records this = NULL := by
      simp [StackRecord.parent, StackRecord.ctor_gc, update]
    rw [hp]
    cases n <;> simp [scope_chain]

/-- Witness of C10, amended: a child scope at address 20 of the scope 10. -/
theorem StackRecord_ctor_chain_witness :
    scope_chain
      (StackRecord.ctor_parent
        ⟨fun g => if g = 1 then 10 else 0, fun a => if a = 10 then ⟨0, [100], 1⟩ else ⟨0, [], 0⟩⟩
        20 10).records (1 + 1) 20 = some [20, 10] :=
  (StackRecord_ctor_chain
    ⟨fun g => if g = 1 then 10 else 0, fun a => if a = 10 then ⟨0, [100], 1⟩ else ⟨0, [], 0⟩⟩
    20 10 1 1 [10] (by decide) (by decide) (by decide)).2.1


/-! ## Marker: the heap is changed in mark cells only -/

/-- The tag cell of an object is not the mark cell of an object. -/
theorem tag_cell_ne_mark_cell (od : ObjectDesc) (m0 : Mem) (objs : List Nat)
    (hw : heap_ok od m0 objs) (o c : Nat) (ho : o ∈ objs) (hc : c ∈ objs) :
    o + od.TAG_OFFSET ≠ c + od.MARK_OFFSET := by
  obtain ⟨h1, h2, h3, h4, h5, h6, _⟩ := hw.layout
  by_cases e : o = c
  · subst e; omega
  · have s1 := (hw.objects.1 o ho).1
    have s2 := (hw.objects.1 c hc).1
    rcases hw.objects.2 o ho c hc e with d | d <;> omega

/-- A reference slot of an object is not the mark cell of an object. -/
theorem field_cell_ne_mark_cell (od : ObjectDesc) (m0 : Mem) (objs : List Nat)
    (hw : heap_ok od m0 objs) (o c j : Nat) (ho : o ∈ objs) (hc : c ∈ objs)
    (hs : ObjectHeader.has_special_type od m0 o = false)
    (hj : j < ObjectHeader.field_cnt od m0 o) :
    ObjectHeader.fields_base od o + od.WORD_SIZE * j ≠ c + od.MARK_OFFSET := by
  obtain ⟨h1, h2, h3, h4, h5, h6, h7⟩ := hw.layout
  have hmul : od.WORD_SIZE * j < od.WORD_SIZE * ObjectHeader.field_cnt od m0 o :=
    (Nat.mul_lt_mul_left h7).mpr hj
  unfold ObjectHeader.fields_base
  by_cases e : o = c
  · subst e; omega
  · have s1 := (hw.objects.1 o ho).2 hs
    have s2 := (hw.objects.1 c hc).1
    rcases hw.objects.2 o ho c hc e with d | d <;> omega

/-- A memory that differs from `m0` in mark cells only gives every object the
tag it has in `m0`. -/
theorem only_marks_tag (od : ObjectDesc) (m0 m : Mem) (objs : List Nat)
    (hw : heap_ok od m0 objs) (hf : only_marks od objs m0 m) (o : Nat) (ho : o ∈ objs) :
    ObjectHeader._tag od m o = ObjectHeader._tag od m0 o := by
  unfold ObjectHeader._tag
  rcases hf (o + od.TAG_OFFSET) with h | ⟨_, c, hc, e⟩
  · exact h
  · exact absurd e (tag_cell_ne_mark_cell od m0 objs hw o c ho hc)

theorem only_marks_special (od : ObjectDesc) (m0 m : Mem) (objs : List Nat)
    (hw : heap_ok od m0 objs) (hf : only_marks od objs m0 m) (o : Nat) (ho : o ∈ objs) :
    ObjectHeader.has_special_type od m o = ObjectHeader.has_special_type od m0 o := by
  unfold ObjectHeader.has_special_type
  rw [only_marks_tag od m0 m objs hw hf o ho]

theorem only_marks_field_cnt (od : ObjectDesc) (m0 m : Mem) (objs : List Nat)
    (hw : heap_ok od m0 objs) (hf : only_marks od objs m0 m) (o : Nat) (ho : o ∈ objs) :
    ObjectHeader.field_cnt od m o = ObjectHeader.field_cnt od m0 o := by
  unfold ObjectHeader.field_cnt
  rw [only_marks_tag od m0 m objs hw hf o ho]

/-- A memory that differs from `m0` in mark cells only gives every reference
slot the value it has in `m0`. -/
theorem only_marks_field (od : ObjectDesc) (m0 m : Mem) (objs : List Nat)
    (hw : heap_ok od m0 objs) (hf : only_marks od objs m0 m) (o j : Nat) (ho : o ∈ objs)
    (hs : ObjectHeader.has_special_type od m0 o = false)
    (hj : j < ObjectHeader.field_cnt od m0 o) :
    m (ObjectHeader.fields_base od o + od.WORD_SIZE * j) =
      m0 (ObjectHeader.fields_base od o + od.WORD_SIZE * j) := by
  rcases hf (ObjectHeader.fields_base od o + od.WORD_SIZE * j) with h | ⟨_, c, hc, e⟩
  · exact h
  · exact absurd e (field_cell_ne_mark_cell od m0 objs hw o c j ho hc hs hj)

theorem only_marks_refl (od : ObjectDesc) (objs : List Nat) (m : Mem) : only_marks od objs m m :=
  fun _ => Or.inl rfl

/-- Marks are never cleared. -/
theorem only_marks_is_marked (od : ObjectDesc) (objs : List Nat) (m0 m : Mem)
    (hf : only_marks od objs m0 m) (o : Nat) (h : ObjectHeader.is_marked od m0 o = true) :
    ObjectHeader.is_marked od m o = true := by
  unfold ObjectHeader.is_marked ObjectHeader._mark at h ⊢
  rcases hf (o + od.MARK_OFFSET) with e | ⟨e, _⟩
  · rw [e]; exact h
  · rw [e]; decide

theorem is_marked_set_marked (od : ObjectDesc) (m : Mem) (c x : Nat) :
    ObjectHeader.is_marked od (ObjectHeader.set_marked od m c) x =
      (decide (x = c) || ObjectHeader.is_marked od m x) := by
  unfold ObjectHeader.is_marked ObjectHeader._mark ObjectHeader.set_marked store
  by_cases e : x = c
  · simp [e]
  · have : x + od.MARK_OFFSET ≠ c + od.MARK_OFFSET := by omega
    simp [e, this]

theorem only_marks_set_marked (od : ObjectDesc) (objs : List Nat) (m0 m : Mem) (c : Nat)
    (hc : c ∈ objs) (hf : only_marks od objs m0 m) :
    only_marks od objs m0 (ObjectHeader.set_marked od m c) := by
  intro a
  unfold ObjectHeader.set_marked store
  by_cases e : a = c + od.MARK_OFFSET
  · right
    simp only [e, if_true]
    exact ⟨trivial, c, hc, rfl⟩
  · simp only [e, if_false]
    exact hf a

/-- Counting with a stronger predicate that fails at a counted element of the
list counts less. -/
theorem countP_lt_of_imp (p q : Nat → Bool) (c : Nat) (hpc : p c = true) (hqc : q c = false)
    (himp : ∀ x, q x = true → p x = true) :
    ∀ l : List Nat, c ∈ l → List.countP q l < List.countP p l := by
  intro l
  induction l with
  | nil => intro h; simp at h
  | cons o os ih =>
    intro hc
    have hmono : List.countP q os ≤ List.countP p os :=
      List.countP_mono_left (fun x _ hx => himp x hx)
    rw [List.countP_cons, List.countP_cons]
    by_cases e : o = c
    · subst e
      simp only [hpc, hqc, if_true]
      simp
      omega
    · have hc' : c ∈ os := by
        rcases List.mem_cons.mp hc with h | h
        · exact absurd h.symm e
        · exact h
      have h1 := ih hc'
      cases hq : q o
      · simp
        omega
      · simp [himp o hq]
        omega

/-- Marking an unmarked object of `objs` lowers the number of unmarked ones. -/
theorem unmarked_count_set_marked (od : ObjectDesc) (objs : List Nat) (m : Mem) (c : Nat)
    (hc : c ∈ objs) (hu : ObjectHeader.is_marked od m c = false) :
    unmarked_count od (ObjectHeader.set_marked od m c) objs < unmarked_count od m objs := by
  unfold unmarked_count
  apply countP_lt_of_imp _ _ c _ _ _ objs hc
  · simp [hu]
  · simp [is_marked_set_marked]
  · intro x hx
    rw [is_marked_set_marked] at hx
    simp only [Bool.not_eq_true', Bool.or_eq_false_iff] at hx ⊢
    exact hx.2

theorem unmarked_count_le (od : ObjectDesc) (objs : List Nat) (m : Mem) :
    unmarked_count od m objs ≤ objs.length :=
  List.countP_le_length _


/-! ## Marker: one push -/

/-- Marking a reachable object of `objs` and pushing it keeps the invariant. -/
theorem mark_inv_push (od : ObjectDesc) (m0 : Mem) (objs roots : List Nat) (m : Mem)
    (wl : List Nat) (c : Nat) (hc : c ∈ objs) (hr : Reachable od m0 roots c)
    (hi : mark_inv od m0 objs roots m wl) :
    mark_inv od m0 objs roots (ObjectHeader.set_marked od m c) (c :: wl) where
  frame := only_marks_set_marked od objs m0 m c hc hi.frame
  pending := by
    intro x hx
    rcases List.mem_cons.mp hx with e | hx
    · subst e
      exact ⟨hc, by simp [is_marked_set_marked], hr⟩
    · obtain ⟨h1, h2, h3⟩ := hi.pending x hx
      exact ⟨h1, by simp [is_marked_set_marked, h2], h3⟩
  sound := by
    intro o ho
    rw [is_marked_set_marked] at ho
    by_cases e : o = c
    · subst e; exact Or.inr hr
    · simp only [e, decide_False, Bool.false_or] at ho
      exact hi.sound o ho

/-- Marking an object and pushing it keeps the marked objects off the worklist
closed. -/
theorem closed_except_push (od : ObjectDesc) (m0 : Mem) (objs : List Nat) (hdr : Option Nat)
    (m : Mem) (wl : List Nat) (c : Nat) (hcl : closed_except od m0 objs hdr m wl) :
    closed_except od m0 objs hdr (ObjectHeader.set_marked od m c) (c :: wl) := by
  intro o ho hm hnw hne hs j hj hnz
  rw [is_marked_set_marked] at hm ⊢
  have hoc : o ≠ c := fun e => hnw (by simp [e])
  have hnw' : o ∉ wl := fun h => hnw (List.mem_cons_of_mem _ h)
  simp only [hoc, decide_False, Bool.false_or] at hm
  simp [hcl o ho hm hnw' hne hs j hj hnz]

/-! ## Marker: the loop over the fields of one object -/

/-- The loop over the fields of a popped object `hdr`: the invariant is kept,
no mark is cleared, the non-null fields of the indices run over are marked
afterwards, and every push is paid by an object that was unmarked. -/
theorem mark_fields_spec (od : ObjectDesc) (m0 : Mem) (objs roots : List Nat)
    (hw : heap_ok od m0 objs) (hdr : Nat) (hh : hdr ∈ objs)
    (hs : ObjectHeader.has_special_type od m0 hdr = false)
    (hr : Reachable od m0 roots hdr) :
    ∀ (js : List Nat) (m : Mem) (wl : List Nat),
      (∀ j ∈ js, j < ObjectHeader.field_cnt od m0 hdr) →
      mark_inv od m0 objs roots m wl →
      mark_inv od m0 objs roots
        (Marker.mark_fields od (ObjectHeader.fields_base od hdr) js (m, wl)).1
        (Marker.mark_fields od (ObjectHeader.fields_base od hdr) js (m, wl)).2 ∧
      (closed_except od m0 objs (some hdr) m wl →
        closed_except od m0 objs (some hdr)
          (Marker.mark_fields od (ObjectHeader.fields_base od hdr) js (m, wl)).1
          (Marker.mark_fields od (ObjectHeader.fields_base od hdr) js (m, wl)).2) ∧
      (∀ x, ObjectHeader.is_marked od m x = true →
        ObjectHeader.is_marked od
          (Marker.mark_fields od (ObjectHeader.fields_base od hdr) js (m, wl)).1 x = true) ∧
      (∀ j ∈ js, m0 (ObjectHeader.fields_base od hdr + od.WORD_SIZE * j) ≠ NULL →
        ObjectHeader.is_marked od
          (Marker.mark_fields od (ObjectHeader.fields_base od hdr) js (m, wl)).1
          (m0 (ObjectHeader.fields_base od hdr + od.WORD_SIZE * j)) = true) ∧
      unmarked_count od
          (Marker.mark_fields od (ObjectHeader.fields_base od hdr) js (m, wl)).1 objs +
        (Marker.mark_fields od (ObjectHeader.fields_base od hdr) js (m, wl)).2.length ≤
        unmarked_count od m objs + wl.length := by
  intro js
  induction js with
  | nil =>
    intro m wl _ hi
    simp only [Marker.mark_fields]
    exact ⟨hi, fun h => h, fun _ h => h, fun j hj => absurd hj (List.not_mem_nil j), le_refl _⟩
  | cons j js ih =>
    intro m wl hjs hi
    have hj : j < ObjectHeader.field_cnt od m0 hdr := hjs j (List.mem_cons_self _ _)
    have hjs' : ∀ i ∈ js, i < ObjectHeader.field_cnt od m0 hdr :=
      fun i hi' => hjs i (List.mem_cons_of_mem _ hi')
    have hfld : m (ObjectHeader.fields_base od hdr + od.WORD_SIZE * j) =
        m0 (ObjectHeader.fields_base od hdr + od.WORD_SIZE * j) :=
      only_marks_field od m0 m objs hw hi.frame hdr j hh hs hj
    simp only [Marker.mark_fields, hfld]
    by_cases hcond : m0 (ObjectHeader.fields_base od hdr + od.WORD_SIZE * j) ≠ NULL ∧
        ObjectHeader.is_marked od m
          (m0 (ObjectHeader.fields_base od hdr + od.WORD_SIZE * j)) = false
    · rw [if_pos hcond]
      obtain ⟨hnz, hum⟩ := hcond
      have hco : m0 (ObjectHeader.fields_base od hdr + od.WORD_SIZE * j) ∈ objs :=
        hw.fields hdr hh hs j hj hnz
      have hcr : Reachable od m0 roots (m0 (ObjectHeader.fields_base od hdr + od.WORD_SIZE * j)) :=
        Reachable.field hdr j hr hs hj hnz
      obtain ⟨a1, a2, a3, a4, a5⟩ := ih _ _ hjs' (mark_inv_push od m0 objs roots m wl _ hco hcr hi)
      refine ⟨a1, fun h => a2 (closed_except_push od m0 objs _ m wl _ h), ?_, ?_, ?_⟩
      · intro x hx
        exact a3 x (by simp [is_marked_set_marked, hx])
      · intro i hi' hnz'
        rcases List.mem_cons.mp hi' with e | hi'
        · subst e
          exact a3 _ (by simp [is_marked_set_marked])
        · exact a4 i hi' hnz'
      · have := unmarked_count_set_marked od objs m _ hco hum
        simp only [List.length_cons] at a5
        omega
    · rw [if_neg hcond]
      obtain ⟨a1, a2, a3, a4, a5⟩ := ih m wl hjs' hi
      refine ⟨a1, a2, a3, ?_, a5⟩
      intro i hi' hnz'
      rcases List.mem_cons.mp hi' with e | hi'
      · subst e
        apply a3
        by_contra hc
        exact hcond ⟨hnz', by simpa using hc⟩
      · exact a4 i hi' hnz'


/-! ## Marker: draining the worklist -/

/-- The loop of `Marker::mark` ends with an empty worklist when it is given as
many iterations as there are unmarked objects and worklist entries; it keeps
the invariant, clears no mark, and closes the marked objects under their
reference fields if those off the worklist were closed. -/
theorem mark_spec (od : ObjectDesc) (m0 : Mem) (objs roots : List Nat)
    (hw : heap_ok od m0 objs) :
    ∀ (fuel : Nat) (m : Mem) (wl : List Nat),
      unmarked_count od m objs + wl.length ≤ fuel →
      mark_inv od m0 objs roots m wl →
      ∃ m1, Marker.mark od fuel (m, wl) = some (m1, []) ∧
        mark_inv od m0 objs roots m1 [] ∧
        (closed_except od m0 objs none m wl → closed_except od m0 objs none m1 []) ∧
        (∀ x, ObjectHeader.is_marked od m x = true → ObjectHeader.is_marked od m1 x = true) := by
  intro fuel
  induction fuel with
  | zero =>
    intro m wl hfuel hi
    have : wl = [] := by
      cases wl with
      | nil => rfl
      | cons a l => simp at hfuel
    subst this
    exact ⟨m, by simp [Marker.mark], hi, fun h => h, fun _ h => h⟩
  | succ fuel ih =>
    intro m wl hfuel hi
    cases wl with
    | nil => exact ⟨m, by simp [Marker.mark], hi, fun h => h, fun _ h => h⟩
    | cons hdr wl =>
      obtain ⟨hh, hhm, hhr⟩ := hi.pending hdr (List.mem_cons_self _ _)
      have hi' : mark_inv od m0 objs roots m wl :=
        ⟨hi.frame, fun x hx => hi.pending x (List.mem_cons_of_mem _ hx), hi.sound⟩
      have hsp := only_marks_special od m0 m objs hw hi.frame hdr hh
      have hcn := only_marks_field_cnt od m0 m objs hw hi.frame hdr hh
      simp only [List.length_cons] at hfuel
      cases hs : ObjectHeader.has_special_type od m0 hdr
      · -- the fields of `hdr` are references
        have hjs : ∀ j ∈ List.range (ObjectHeader.field_cnt od m0 hdr),
            j < ObjectHeader.field_cnt od m0 hdr := fun j hj => List.mem_range.mp hj
        obtain ⟨a1, a2, a3, a4, a5⟩ := mark_fields_spec od m0 objs roots hw hdr hh hs hhr
          (List.range (ObjectHeader.field_cnt od m0 hdr)) m wl hjs hi'
        obtain ⟨m1, b1, b2, b3, b4⟩ := ih _ _ (by omega) a1
        refine ⟨m1, ?_, b2, ?_, fun x hx => b4 x (a3 x hx)⟩
        · simp only [Marker.mark, hsp, hs, hcn]
          simpa using b1
        · intro hcl
          apply b3
          have hcl' : closed_except od m0 objs (some hdr) m wl := by
            intro o ho hm hnw hne hso j hj hnz
            have hoh : o ≠ hdr := fun e => hne (by rw [e])
            have : o ∉ hdr :: wl := by
              intro h
              rcases List.mem_cons.mp h with e | h
              · exact hoh e
              · exact hnw h
            exact hcl o ho hm this (by simp) hso j hj hnz
          have hcl2 := a2 hcl'
          intro o ho hm hnw _ hso j hj hnz
          by_cases e : o = hdr
          · subst e
            exact a4 j (List.mem_range.mpr hj) hnz
          · exact hcl2 o ho hm hnw (by simpa using e) hso j hj hnz
      · -- the fields of `hdr` are not heap pointers
        obtain ⟨m1, b1, b2, b3, b4⟩ := ih m wl (by omega) hi'
        refine ⟨m1, ?_, b2, ?_, b4⟩
        · simp only [Marker.mark, hsp, hs]
          simpa using b1
        · intro hcl
          apply b3
          intro o ho hm hnw hne hso j hj hnz
          have hoh : o ≠ hdr := by
            intro e
            rw [e, hs] at hso
            exact absurd hso (by decide)
          have : o ∉ hdr :: wl := by
            intro h
            rcases List.mem_cons.mp h with e | h
            · exact hoh e
            · exact hnw h
          exact hcl o ho hm this hne hso j hj hnz

/-! ## Marker: the roots of one scope and the chain of scopes -/

/-- The loop over the roots of one scope, entered with an empty worklist. -/
theorem mark_roots_spec (od : ObjectDesc) (m0 : Mem) (objs roots : List Nat)
    (hw : heap_ok od m0 objs) (hro : roots_ok roots objs) (fuel : Nat)
    (hfuel : objs.length ≤ fuel) :
    ∀ (rs : List Nat) (m : Mem), (∀ r ∈ rs, r ∈ roots) →
      mark_inv od m0 objs roots m [] →
      ∃ m1, Marker.mark_roots od fuel rs (m, []) = some (m1, []) ∧
        mark_inv od m0 objs roots m1 [] ∧
        (closed_except od m0 objs none m [] → closed_except od m0 objs none m1 []) ∧
        (∀ x, ObjectHeader.is_marked od m x = true → ObjectHeader.is_marked od m1 x = true) ∧
        (∀ r ∈ rs, r ≠ NULL → ObjectHeader.is_marked od m1 r = true) := by
  intro rs
  induction rs with
  | nil =>
    intro m _ hi
    exact ⟨m, by simp [Marker.mark_roots], hi, fun h => h, fun _ h => h,
      fun r hr => absurd hr (List.not_mem_nil r)⟩
  | cons obj rest ih =>
    intro m hrs hi
    have hrest : ∀ r ∈ rest, r ∈ roots := fun r hr => hrs r (List.mem_cons_of_mem _ hr)
    by_cases hcond : obj ≠ NULL ∧ ObjectHeader.is_marked od m obj = false
    · obtain ⟨hnz, hum⟩ := hcond
      have hroot : obj ∈ roots := hrs obj (List.mem_cons_self _ _)
      have ho : obj ∈ objs := hro obj hroot hnz
      have hi1 := mark_inv_push od m0 objs roots m [] obj ho (Reachable.root obj hroot hnz) hi
      have hcount := unmarked_count_set_marked od objs m obj ho hum
      have hle := unmarked_count_le od objs m
      obtain ⟨m1, a1, a2, a3, a4⟩ := mark_spec od m0 objs roots hw fuel
        (ObjectHeader.set_marked od m obj) [obj] (by simp only [List.length_singleton]; omega) hi1
      obtain ⟨m2, b1, b2, b3, b4, b5⟩ := ih m1 hrest a2
      refine ⟨m2, ?_, b2, ?_, ?_, ?_⟩
      · simp only [Marker.mark_roots, hnz, hum, ne_eq, not_false_eq_true, and_self, if_true, a1]
        exact b1
      · intro hcl
        exact b3 (a3 (closed_except_push od m0 objs none m [] obj hcl))
      · intro x hx
        exact b4 x (a4 x (by simp [is_marked_set_marked, hx]))
      · intro r hr hrnz
        rcases List.mem_cons.mp hr with e | hr
        · subst e
          exact b4 _ (a4 _ (by simp [is_marked_set_marked]))
        · exact b5 r hr hrnz
    · obtain ⟨m2, b1, b2, b3, b4, b5⟩ := ih m hrest hi
      refine ⟨m2, ?_, b2, b3, b4, ?_⟩
      · simp only [Marker.mark_roots, hcond, if_false]
        exact b1
      · intro r hr hrnz
        rcases List.mem_cons.mp hr with e | hr
        · subst e
          apply b4
          by_contra hc
          exact hcond ⟨hrnz, by simpa using hc⟩
        · exact b5 r hr hrnz

/-- The loop over the chain of scopes, entered with an empty worklist. -/
theorem mark_scopes_spec (od : ObjectDesc) (records : Nat → StackRecord) (m0 : Mem)
    (objs roots : List Nat) (hw : heap_ok od m0 objs) (hro : roots_ok roots objs) (fuel : Nat)
    (hfuel : objs.length ≤ fuel) :
    ∀ (n k sr : Nat) (ch : List Nat) (m : Mem),
      scope_chain records n sr = some ch → ch.length ≤ k →
      (∀ s ∈ ch, ∀ r ∈ (records s)._objects, r ∈ roots) →
      mark_inv od m0 objs roots m [] →
      ∃ m1, Marker.mark_scopes od records fuel k sr (m, []) = some (m1, []) ∧
        mark_inv od m0 objs roots m1 [] ∧
        (closed_except od m0 objs none m [] → closed_except od m0 objs none m1 []) ∧
        (∀ x, ObjectHeader.is_marked od m x = true → ObjectHeader.is_marked od m1 x = true) ∧
        (∀ s ∈ ch, ∀ r ∈ (records s)._objects, r ≠ NULL →
          ObjectHeader.is_marked od m1 r = true) := by
  intro n
  induction n with
  | zero =>
    intro k sr ch m hch _ _ hi
    unfold scope_chain at hch
    by_cases hsr : sr = NULL
    · simp only [hsr, if_true, Option.some.injEq] at hch
      subst hch
      refine ⟨m, ?_, hi, fun h => h, fun _ h => h, fun s hs => absurd hs (List.not_mem_nil s)⟩
      cases k <;> simp [Marker.mark_scopes, hsr]
    · simp [hsr] at hch
  | succ n ih =>
    intro k sr ch m hch hk hsub hi
    unfold scope_chain at hch
    by_cases hsr : sr = NULL
    · simp only [hsr, if_true, Option.some.injEq] at hch
      subst hch
      refine ⟨m, ?_, hi, fun h => h, fun _ h => h, fun s hs => absurd hs (List.not_mem_nil s)⟩
      cases k <;> simp [Marker.mark_scopes, hsr]
    · simp only [hsr, if_false, Option.map_eq_some'] at hch
      obtain ⟨ch1, hch1, rfl⟩ := hch
      cases k with
      | zero => simp at hk
      | succ k =>
        simp only [List.length_cons, Nat.add_le_add_iff_right] at hk
        obtain ⟨m1, a1, a2, a3, a4, a5⟩ := mark_roots_spec od m0 objs roots hw hro fuel hfuel
          (records sr)._objects m (hsub sr (List.mem_cons_self _ _)) hi
        obtain ⟨m2, b1, b2, b3, b4, b5⟩ := ih k (StackRecord.parent records sr) ch1 m1 hch1 hk
          (fun s hs => hsub s (List.mem_cons_of_mem _ hs)) a2
        refine ⟨m2, ?_, b2, fun h => b3 (a3 h), fun x hx => b4 x (a4 x hx), ?_⟩
        · simp only [Marker.mark_scopes, hsr, if_false, a1]
          exact b1
        · intro s hs r hr hrnz
          rcases List.mem_cons.mp hs with e | hs
          · subst e
            exact b4 r (a5 r hr hrnz)
          · exact b5 s hs r hr hrnz

/-- A reachable address is an object of `objs`. -/
theorem reachable_mem_objs (od : ObjectDesc) (m0 : Mem) (objs roots : List Nat)
    (hw : heap_ok od m0 objs) (hro : roots_ok roots objs) (o : Nat)
    (h : Reachable od m0 roots o) : o ∈ objs := by
  induction h with
  | root r hr hnz => exact hro r hr hnz
  | field o j _ hs hj hnz ih => exact hw.fields o ih hs j hj hnz

/-- The run of `mark_from_roots` from an empty worklist in a well-formed heap:
it returns with an empty worklist, the invariant holds, the roots are marked
and the marked objects are closed under reference fields if they were. -/
theorem mark_from_roots_spec (od : ObjectDesc) (records : Nat → StackRecord) (m0 : Mem)
    (objs : List Nat) (n sr : Nat) (ch : List Nat) (fuel : Nat)
    (hw : heap_ok od m0 objs) (hch : scope_chain records n sr = some ch)
    (hro : roots_ok (chain_roots records ch) objs)
    (hfuel : objs.length + ch.length ≤ fuel) :
    ∃ m1, Marker.mark_from_roots od records fuel sr (m0, []) = Marker.Outcome.returned (m1, []) ∧
      mark_inv od m0 objs (chain_roots records ch) m1 [] ∧
      (closed_except od m0 objs none m0 [] → closed_except od m0 objs none m1 []) ∧
      (∀ r ∈ chain_roots records ch, r ≠ NULL → ObjectHeader.is_marked od m1 r = true) := by
  have hsub : ∀ s ∈ ch, ∀ r ∈ (records s)._objects, r ∈ chain_roots records ch := by
    intro s hs r hr
    unfold chain_roots
    exact List.mem_flatMap.mpr ⟨s, hs, hr⟩
  have hi0 : mark_inv od m0 objs (chain_roots records ch) m0 [] :=
    ⟨only_marks_refl od objs m0, fun x hx => absurd hx (List.not_mem_nil x), fun o h => Or.inl h⟩
  obtain ⟨m1, a1, a2, a3, _, a5⟩ := mark_scopes_spec od records m0 objs (chain_roots records ch)
    hw hro fuel (by omega) n fuel sr ch m0 hch (by omega) hsub hi0
  refine ⟨m1, ?_, a2, a3, ?_⟩
  · simp [Marker.mark_from_roots, a1]
  · intro r hr hnz
    unfold chain_roots at hr
    obtain ⟨s, hs, hrs⟩ := List.mem_flatMap.mp hr
    exact a5 s hs r hrs hnz


/-! ## Marker: completeness and soundness -/

/-- C1. Marker completeness: in a well-formed heap in which every object is
unmarked, `mark_from_roots(sr)` entered with an empty worklist returns, and
then every object that is reachable from a non-null root of a scope of the
chain of `sr`, through the first `field_cnt` slots of objects that are not
special, is marked. -/
theorem Marker_mark_from_roots_complete (od : ObjectDesc) (records : Nat → StackRecord)
    (m : Mem) (objs : List Nat) (n sr : Nat) (ch : List Nat) (fuel : Nat)
    (hw : heap_ok od m objs) (hch : scope_chain records n sr = some ch)
    (hro : roots_ok (chain_roots records ch) objs)
    (hum : ∀ o ∈ objs, ObjectHeader.is_marked od m o = false)
    (hfuel : objs.length + ch.length ≤ fuel) :
    ∃ m1, Marker.mark_from_roots od records fuel sr (m, []) = Marker.Outcome.returned (m1, []) ∧
      ∀ o, Reachable od m (chain_roots records ch) o → ObjectHeader.is_marked od m1 o = true := by
  obtain ⟨m1, h1, h2, h3, h4⟩ := mark_from_roots_spec od records m objs n sr ch fuel hw hch hro hfuel
  refine ⟨m1, h1, ?_⟩
  have hcl0 : closed_except od m objs none m [] := by
    intro o ho hm
    rw [hum o ho] at hm
    exact absurd hm (by decide)
  have hcl := h3 hcl0
  intro o hr
  induction hr with
  | root r hr hnz => exact h4 r hr hnz
  | field o j hreach hs hj hnz ih =>
    exact hcl o (reachable_mem_objs od m objs _ hw hro o hreach) ih (List.not_mem_nil o)
      (by simp) hs j hj hnz

/-- Witness of C1: the example heap, marked from scope 10. -/
theorem Marker_mark_from_roots_complete_witness :
    heap_ok example_od example_mem example_objs ∧
    scope_chain example_records 2 10 = some [10, 20] ∧
    ∃ m1, Marker.mark_from_roots example_od example_records 6 10 (example_mem, [])
        = Marker.Outcome.returned (m1, []) ∧
      ∀ o, Reachable example_od example_mem (chain_roots example_records [10, 20]) o →
        ObjectHeader.is_marked example_od m1 o = true :=
  ⟨by decide, by decide,
    Marker_mark_from_roots_complete example_od example_records example_mem example_objs 2 10
      [10, 20] 6 (by decide) (by decide) (by decide) (by decide) (by decide)⟩

/-- C2. Marker soundness: in a well-formed heap, `mark_from_roots(sr)` entered
with an empty worklist returns, and every object that is marked then was marked
before the call or is reachable from a non-null root of the chain of `sr`
through reference fields of objects that are not special; so an object that was
unmarked and is not reachable stays unmarked, in particular one that is no root
and that only slots of special objects refer to. -/
theorem Marker_mark_from_roots_sound (od : ObjectDesc) (records : Nat → StackRecord)
    (m : Mem) (objs : List Nat) (n sr : Nat) (ch : List Nat) (fuel : Nat)
    (hw : heap_ok od m objs) (hch : scope_chain records n sr = some ch)
    (hro : roots_ok (chain_roots records ch) objs)
    (hfuel : objs.length + ch.length ≤ fuel) :
    ∃ m1, Marker.mark_from_roots od records fuel sr (m, []) = Marker.Outcome.returned (m1, []) ∧
      (∀ o, ObjectHeader.is_marked od m1 o = true →
        ObjectHeader.is_marked od m o = true ∨ Reachable od m (chain_roots records ch) o) ∧
      (∀ o, ObjectHeader.is_marked od m o = false →
        ¬ Reachable od m (chain_roots records ch) o → ObjectHeader.is_marked od m1 o = false) ∧
      (∀ o, ObjectHeader.is_marked od m o = false → o ∉ chain_roots records ch →
        (∀ p ∈ objs, ObjectHeader.has_special_type od m p = false →
          ∀ j < ObjectHeader.field_cnt od m p,
            m (ObjectHeader.fields_base od p + od.WORD_SIZE * j) ≠ o) →
        ObjectHeader.is_marked od m1 o = false) := by
  obtain ⟨m1, h1, h2, _, _⟩ := mark_from_roots_spec od records m objs n sr ch fuel hw hch hro hfuel
  have key : ∀ o, ObjectHeader.is_marked od m o = false →
      ¬ Reachable od m (chain_roots records ch) o → ObjectHeader.is_marked od m1 o = false := by
    intro o hum hnr
    cases hm : ObjectHeader.is_marked od m1 o
    · rfl
    · rcases h2.sound o hm with h | h
      · rw [hum] at h
        exact absurd h (by decide)
      · exact absurd h hnr
  refine ⟨m1, h1, h2.sound, key, ?_⟩
  intro o hum hnroot href
  apply key o hum
  intro hr
  cases hr with
  | root r hr hnz => exact hnroot hr
  | field p j hreach hs hj hnz =>
    exact href p (reachable_mem_objs od m objs _ hw hro p hreach) hs j hj rfl

/-- Witness of C2: in the example heap only a slot of the special object 1080
refers to the object 1112, and 1112 is not marked by the run from scope 10. -/
theorem Marker_mark_from_roots_sound_witness :
    heap_ok example_od example_mem example_objs ∧
    scope_chain example_records 2 10 = some [10, 20] ∧
    ObjectHeader.has_special_type example_od example_mem 1080 = true ∧
    example_mem (ObjectHeader.fields_base example_od 1080) = 1112 ∧
    ∃ m1, Marker.mark_from_roots example_od example_records 6 10 (example_mem, [])
        = Marker.Outcome.returned (m1, []) ∧
      ObjectHeader.is_marked example_od m1 1112 = false := by
  refine ⟨by decide, by decide, by decide, by decide, ?_⟩
  obtain ⟨m1, h1, _, _, h4⟩ :=
    Marker_mark_from_roots_sound example_od example_records example_mem example_objs 2 10
      [10, 20] 6 (by decide) (by decide) (by decide) (by decide)
  exact ⟨m1, h1, h4 1112 (by decide) (by decide) (by decide)⟩

end gc

namespace gc

/-! ## Root registration -/

theorem int_of_size_t_small (n : Nat) (h : n < 2 ^ 31) : int_of_size_t n = (n : Int) := by
  unfold int_of_size_t
  have h1 : n % 2 ^ 32 = n := Nat.mod_eq_of_lt (by omega)
  rw [h1, if_pos h]

theorem size_t_of_int_small (n : Nat) (h : n < 2 ^ 64) : size_t_of_int (n : Int) = n := by
  unfold size_t_of_int
  have h1 : ((n : Int) % 2 ^ 64) = (n : Int) := Int.emod_eq_of_lt (by omega) (by omega)
  rw [h1]
  simp

/-- Reading a registered root: `root(j)` for an index below the number of
roots returns the root at that position. -/
theorem StackRecord.root_lt (sr : StackRecord) (j : Nat) (hj : j < sr._objects.length)
    (hlen : sr._objects.length < 2 ^ 64) :
    StackRecord.root sr (j : Int) = sr._objects[j]? := by
  unfold StackRecord.root
  rw [size_t_of_int_small j (by omega)]
  simp [hj]

/-- C11. For a `StackRecord` with the root sequence `rs` (of fewer than `2 ^ 31`
roots, the range of the returned `int`), `reg_root(obj)` returns the length of
`rs` and leaves the root sequence `rs` followed by `obj`; so
`root(reg_root(obj))` is `obj` and `root(j)` is unchanged for every `j` below
the length of `rs`. -/
theorem StackRecord_reg_root_appends (sr : StackRecord) (obj : Nat)
    (hlen : sr._objects.length < 2 ^ 31) :
    (StackRecord.reg_root sr obj).1 = (sr._objects.length : Int) ∧
    (StackRecord.reg_root sr obj).2._objects = sr._objects ++ [obj] ∧
    (StackRecord.reg_root sr obj).2._parent = sr._parent ∧
    (StackRecord.reg_root sr obj).2._gc = sr._gc ∧
    StackRecord.root (StackRecord.reg_root sr obj).2 (StackRecord.reg_root sr obj).1 = some obj ∧
    ∀ j : Nat, j < sr._objects.length →
      StackRecord.root (StackRecord.reg_root sr obj).2 (j : Int) = StackRecord.root sr (j : Int) ∧
      StackRecord.root sr (j : Int) = sr._objects[j]? := by
  have hret : (StackRecord.reg_root sr obj).1 = (sr._objects.length : Int) := by
    unfold StackRecord.reg_root
    simp only [List.length_append, List.length_singleton, Nat.add_sub_cancel]
    rw [Nat.mod_eq_of_lt (by omega), int_of_size_t_small _ hlen]
  have hobjs : (StackRecord.reg_root sr obj).2._objects = sr._objects ++ [obj] := rfl
  refine ⟨hret, hobjs, rfl, rfl, ?_, ?_⟩
  · rw [hret, StackRecord.root_lt _ _ (by rw [hobjs]; simp) (by rw [hobjs]; simp; omega), hobjs]
    simp
  · intro j hj
    rw [StackRecord.root_lt _ _ (by rw [hobjs]; simp; omega) (by rw [hobjs]; simp; omega),
      StackRecord.root_lt _ _ hj (by omega), hobjs]
    exact ⟨List.getElem?_append_left hj, rfl⟩

/-- Witness of C11: a third root registered in a scope with the roots 7 and 8. -/
theorem StackRecord_reg_root_appends_witness :
    (StackRecord.reg_root ⟨0, [7, 8], 1⟩ 9).1 = 2 ∧
    (StackRecord.reg_root ⟨0, [7, 8], 1⟩ 9).2._objects = [7, 8, 9] ∧
    StackRecord.root (StackRecord.reg_root ⟨0, [7, 8], 1⟩ 9).2
      (StackRecord.reg_root ⟨0, [7, 8], 1⟩ 9).1 = some 9 :=
  ⟨(StackRecord_reg_root_appends ⟨0, [7, 8], 1⟩ 9 (by decide)).1,
    (StackRecord_reg_root_appends ⟨0, [7, 8], 1⟩ 9 (by decide)).2.1,
    (StackRecord_reg_root_appends ⟨0, [7, 8], 1⟩ 9 (by decide)).2.2.2.2.1⟩

/-! ## ZeroGC: collect and failing requests -/

/-- C13. For `ZeroGC`, `collect()` is the identity on the collector state, with
`_heap_pos`, the heap contents, the current scopes and the roots unchanged, so a
request that `allocate` refuses before a `collect()` is refused after it. -/
theorem ZeroGC_collect_is_identity (od : ObjectDesc) (gc : ZeroGC) (w : Scopes) (klass : Klass) :
    ZeroGC.collect gc w = (gc, w) ∧
    (ZeroGC.collect gc w).1._heap_pos = gc._heap_pos ∧
    (ZeroGC.collect gc w).1.mem = gc.mem ∧
    (ZeroGC.collect gc w).2.current_scope = w.current_scope ∧
    (ZeroGC.collect gc w).2.records = w.records ∧
    ZeroGC.allocate od (ZeroGC.collect gc w).1 klass = ZeroGC.allocate od gc klass ∧
    ((ZeroGC.allocate od gc klass).1 = .error .bad_alloc →
      (ZeroGC.allocate od (ZeroGC.collect gc w).1 klass).1 = .error .bad_alloc) :=
  ⟨rfl, rfl, rfl, rfl, rfl, rfl, fun h => h⟩

/-- C20. Failure atomicity: when `ZeroGC::allocate(klass)` throws because the
request does not fit, the collector is as before the call: `_heap_pos` is not
advanced and no cell of the memory is written. -/
theorem ZeroGC_allocate_failure_atomic (od : ObjectDesc) (gc : ZeroGC) (klass : Klass)
    (hfail : (ZeroGC.allocate od gc klass).1 = .error .bad_alloc) :
    gc._heap_pos + klass.size ≥ gc._heap_start + gc._heap_size ∧
    (ZeroGC.allocate od gc klass).2 = gc ∧
    (ZeroGC.allocate od gc klass).2._heap_pos = gc._heap_pos ∧
    ∀ a, (ZeroGC.allocate od gc klass).2.mem a = gc.mem a := by
  have hg := (ZeroGC.allocate_error_iff od gc klass).mp hfail
  rw [ZeroGC.allocate_error_state od gc klass hg]
  exact ⟨le_trans hg (Nat.mod_le _ _), rfl, rfl, fun _ => rfl⟩

/-- Witness of C20: a request of 40 bytes in a heap with 32 bytes left. -/
theorem ZeroGC_allocate_failure_atomic_witness :
    (ZeroGC.allocate example_od ⟨64, true, 1000, 1032, fun _ => 7⟩ ⟨1, 40, false, 2⟩).2._heap_pos
      = 1032 ∧
    (ZeroGC.allocate example_od ⟨64, true, 1000, 1032, fun _ => 7⟩ ⟨1, 40, false, 2⟩).2.mem 1032
      = 7 :=
  ⟨(ZeroGC_allocate_failure_atomic example_od ⟨64, true, 1000, 1032, fun _ => 7⟩
      ⟨1, 40, false, 2⟩ rfl).2.2.1,
    (ZeroGC_allocate_failure_atomic example_od ⟨64, true, 1000, 1032, fun _ => 7⟩
      ⟨1, 40, false, 2⟩ rfl).2.2.2 1032⟩

end gc

namespace runtime

/-! ## Marker bounds and init -/

/-- The filter accepts exactly the addresses of the closed range from
`_heap_start` to `_heap_end`. -/
theorem Marker.is_heap_addr_iff (mk : Marker) (addr : Nat) :
    Marker.is_heap_addr mk addr = true ↔ mk._heap_start ≤ addr ∧ addr ≤ mk._heap_end := by
  simp [Marker.is_heap_addr]

/-- C14, the code at the failing input.  A `ZeroGC` over an allocator whose
region is `[1000, 1064)` gives its marker the bounds 1000 and 1064, and the
marker accepts the address 1064, which is not below `_heap_end`; it rejects
1065 and 999. -/
theorem Marker_is_heap_addr_accepts_heap_end :
    (ZeroGC.ctor (fun size => ⟨1000, 1000 + size⟩) 64)._marker = ⟨1000, 1064⟩ ∧
    Marker.is_heap_addr (ZeroGC.ctor (fun size => ⟨1000, 1000 + size⟩) 64)._marker 1064 = true ∧
    ¬ (1064 < (ZeroGC.ctor (fun size => ⟨1000, 1000 + size⟩) 64)._marker._heap_end) ∧
    Marker.is_heap_addr (ZeroGC.ctor (fun size => ⟨1000, 1000 + size⟩) 64)._marker 1065 = false ∧
    Marker.is_heap_addr (ZeroGC.ctor (fun size => ⟨1000, 1000 + size⟩) 64)._marker 999 = false := by
  refine ⟨by decide, by decide, by decide, by decide, by decide⟩

/-- C16 as stated fails for the variants other than ZeroGC: `GC::init` with the
variant MarkSweepGC, and with the variant Copy, reaches `assert(false)` and
installs no collector. -/
theorem GC_init_mark_sweep_asserts :
    GC.init (fun size => ⟨1000, 1000 + size⟩) GcType.MARKSWEEPGC 1024 = InitResult.assertion_failed ∧
    GC.init (fun size => ⟨1000, 1000 + size⟩) GcType.COPY 1024 = InitResult.assertion_failed := by
  refine ⟨by decide, by decide⟩

/-- C16, amended.  For every heap size, `GC::init(ZEROGC, heap_size)` returns
without reaching an assertion and installs as `GC::Gc` a `ZeroGC` built for
that heap size; for every other variant it reaches `assert(false)`. -/
theorem GC_init_installs_zero_gc (new_allocator : Nat → Allocator) (heap_size : Nat) :
    GC.init new_allocator GcType.ZEROGC heap_size
      = InitResult.installed (some (ZeroGC.ctor new_allocator heap_size)) ∧
    (ZeroGC.ctor new_allocator heap_size)._allocator = new_allocator heap_size ∧
    ∀ type : GcType, type ≠ GcType.ZEROGC →
      GC.init new_allocator type heap_size = InitResult.assertion_failed := by
  refine ⟨rfl, rfl, ?_⟩
  intro type h
  cases type
  · exact absurd rfl h
  · rfl
  · rfl

end runtime

namespace runtime

/-! ## Copy -/

/-- An object that `GC::allocate` returns is not null. -/
theorem GC.allocate_object_ne_null {σ : Type} (c : Collector σ) (s : σ) (tag : Int)
    (size disp_tab obj : Nat) (h : (GC.allocate c s tag size disp_tab).1 = Result.object obj) :
    obj ≠ gc.NULL := by
  by_cases h1 : (c.allocator_allocate s tag size disp_tab).1 = gc.NULL
  · by_cases h2 : (c.allocator_allocate (c.collect (c.allocator_allocate s tag size disp_tab).2)
        tag size disp_tab).1 = gc.NULL
    · simp [GC.allocate, h1, h2] at h
    · simp only [GC.allocate, h1, h2, if_true, if_false, Result.object.injEq] at h
      rw [← h]; exact h2
  · simp only [GC.allocate, h1, if_false, Result.object.injEq] at h
    rw [← h]; exact h1

theorem memcpy_inside (m : gc.Mem) (dst src n k : Nat) (hk : k < n) :
    memcpy m dst src n (dst + k) = m (src + k) := by
  unfold memcpy
  have : dst ≤ dst + k ∧ dst + k < dst + n := by omega
  rw [if_pos this, Nat.add_sub_cancel_left]

theorem memcpy_outside (m : gc.Mem) (dst src n x : Nat) (h : x < dst ∨ dst + n ≤ x) :
    memcpy m dst src n x = m x := by
  unfold memcpy
  have : ¬ (dst ≤ x ∧ x < dst + n) := by omega
  rw [if_neg this]

/-- C12. Copy fidelity: when the allocation in `GC::copy(o)` returns an object
`new_obj` that meets the contract of the allocator for the request
`(o._tag, o._size, o._dispatch_table)`, `copy` returns `new_obj`, which is not
`o`; its header has the tag, the size and the dispatch table of `o`; all
`o._size - HEADER_SIZE` bytes of its field region equal those of `o`; and `o` is
unchanged. -/
theorem GC_copy_fidelity {α : Type} (L : ObjectLayout) (c : Collector (Heap α)) (s s1 : Heap α)
    (obj new_obj : Nat) (calls : List Call)
    (hl : L.TAG_OFFSET < L.HEADER_SIZE ∧ L.SIZE_OFFSET < L.HEADER_SIZE ∧
      L.DISPATCH_OFFSET < L.HEADER_SIZE)
    (hsz : L.HEADER_SIZE ≤ s.mem (obj + L.SIZE_OFFSET))
    (halloc : GC.allocate c s ((s.mem (obj + L.TAG_OFFSET) : Nat) : Int)
      (s.mem (obj + L.SIZE_OFFSET)) (s.mem (obj + L.DISPATCH_OFFSET))
        = (Result.object new_obj, s1, calls))
    (hok : allocated_ok L s.mem s1.mem obj new_obj ((s.mem (obj + L.TAG_OFFSET) : Nat) : Int)
      (s.mem (obj + L.SIZE_OFFSET)) (s.mem (obj + L.DISPATCH_OFFSET))) :
    (GC.copy L c s obj).1 = Result.object new_obj ∧
    new_obj ≠ obj ∧ new_obj ≠ gc.NULL ∧
    (GC.copy L c s obj).2.1.mem (new_obj + L.TAG_OFFSET) = s.mem (obj + L.TAG_OFFSET) ∧
    (GC.copy L c s obj).2.1.mem (new_obj + L.SIZE_OFFSET) = s.mem (obj + L.SIZE_OFFSET) ∧
    (GC.copy L c s obj).2.1.mem (new_obj + L.DISPATCH_OFFSET) = s.mem (obj + L.DISPATCH_OFFSET) ∧
    (∀ k, k < s.mem (obj + L.SIZE_OFFSET) - L.HEADER_SIZE →
      (GC.copy L c s obj).2.1.mem (new_obj + L.HEADER_SIZE + k) = s.mem (obj + L.HEADER_SIZE + k)) ∧
    (∀ a, obj ≤ a → a < obj + s.mem (obj + L.SIZE_OFFSET) →
      (GC.copy L c s obj).2.1.mem a = s.mem a) ∧
    (GC.copy L c s obj).2.1.priv = s1.priv ∧
    (GC.copy L c s obj).2.2 = calls := by
  obtain ⟨h1, h2, h3⟩ := hl
  have hnn : new_obj ≠ gc.NULL :=
    GC.allocate_object_ne_null c s _ _ _ new_obj (by rw [halloc])
  have hsize1 : s1.mem (obj + L.SIZE_OFFSET) = s.mem (obj + L.SIZE_OFFSET) :=
    hok.kept _ (by omega) (by omega)
  have hcopy : GC.copy L c s obj =
      (Result.object new_obj,
        ⟨memcpy s1.mem (new_obj + L.HEADER_SIZE) (obj + L.HEADER_SIZE)
          (s.mem (obj + L.SIZE_OFFSET) - L.HEADER_SIZE), s1.priv⟩,
        calls) := by
    unfold GC.copy
    rw [halloc]
    simp only [hnn, if_false, hsize1, hok.size_set, Nat.min_self]
  have hfresh := hok.fresh
  rw [hcopy]
  refine ⟨rfl, ?_, hnn, ?_, ?_, ?_, ?_, ?_, rfl, rfl⟩
  · intro e
    subst e
    omega
  · simp only
    rw [memcpy_outside _ _ _ _ _ (by omega)]
    have := hok.tag_set
    exact Int.ofNat_inj.mp this
  · simp only
    rw [memcpy_outside _ _ _ _ _ (by omega)]
    exact hok.size_set
  · simp only
    rw [memcpy_outside _ _ _ _ _ (by omega)]
    exact hok.dispatch_set
  · intro k hk
    simp only
    rw [memcpy_inside _ _ _ _ _ hk]
    exact hok.kept _ (by omega) (by omega)
  · intro a ha1 ha2
    simp only
    rw [memcpy_outside _ _ _ _ _ (by omega)]
    exact hok.kept a ha1 ha2

/-- The example allocator meets the contract for the copy of the example
object. -/
theorem example_allocated_ok :
    allocated_ok ⟨32, 8, 16, 24⟩ example_heap.mem
      (GC.allocate example_collector example_heap 5 48 77).2.1.mem 1000 1048 5 48 77 where
  tag_set := by decide
  size_set := by decide
  dispatch_set := by decide
  fresh := by decide
  kept := by
    intro a h1 h2
    have e1 : a ≠ 1048 + 8 := by omega
    have e2 : a ≠ 1048 + 16 := by omega
    have e3 : a ≠ 1048 + 24 := by omega
    simp [GC.allocate, example_collector, example_heap, gc.store, gc.NULL, e1, e2, e3]

/-- Witness of C12: the copy of the example object at 1000 is the object at
1048, with the fields 11 and 22. -/
theorem GC_copy_fidelity_witness :
    (GC.copy ⟨32, 8, 16, 24⟩ example_collector example_heap 1000).1 = Result.object 1048 ∧
    (GC.copy ⟨32, 8, 16, 24⟩ example_collector example_heap 1000).2.1.mem (1048 + 32 + 0) = 11 ∧
    (GC.copy ⟨32, 8, 16, 24⟩ example_collector example_heap 1000).2.1.mem (1048 + 32 + 8) = 22 :=
  ⟨(GC_copy_fidelity ⟨32, 8, 16, 24⟩ example_collector example_heap
      (GC.allocate example_collector example_heap 5 48 77).2.1 1000 1048
      (GC.allocate example_collector example_heap 5 48 77).2.2
      (by decide) (by decide) rfl example_allocated_ok).1,
    (GC_copy_fidelity ⟨32, 8, 16, 24⟩ example_collector example_heap
      (GC.allocate example_collector example_heap 5 48 77).2.1 1000 1048
      (GC.allocate example_collector example_heap 5 48 77).2.2
      (by decide) (by decide) rfl example_allocated_ok).2.2.2.2.2.2.1 0 (by decide),
    (GC_copy_fidelity ⟨32, 8, 16, 24⟩ example_collector example_heap
      (GC.allocate example_collector example_heap 5 48 77).2.1 1000 1048
      (GC.allocate example_collector example_heap 5 48 77).2.2
      (by decide) (by decide) rfl example_allocated_ok).2.2.2.2.2.2.1 8 (by decide)⟩

end runtime

namespace gc

/-! ## Marker: the recorded run and the run -/

theorem mark_fields_log_fst (od : ObjectDesc) (fields : Nat) :
    ∀ (js : List Nat) (st : Marker.State) (log : List Nat),
      (Marker.mark_fields_log od fields js (st, log)).1 = Marker.mark_fields od fields js st := by
  intro js
  induction js with
  | nil => intro st log; rfl
  | cons j js ih =>
    intro st log
    obtain ⟨m, wl⟩ := st
    simp only [Marker.mark_fields_log, Marker.mark_fields]
    split
    · exact ih _ _
    · exact ih _ _

theorem mark_log_fst (od : ObjectDesc) :
    ∀ (fuel : Nat) (st : Marker.State) (log : List Nat),
      (Marker.mark_log od fuel (st, log)).map Prod.fst = Marker.mark od fuel st := by
  intro fuel
  induction fuel with
  | zero =>
    intro st log
    obtain ⟨m, wl⟩ := st
    cases wl <;> simp [Marker.mark_log, Marker.mark]
  | succ fuel ih =>
    intro st log
    obtain ⟨m, wl⟩ := st
    cases wl with
    | nil => simp [Marker.mark_log, Marker.mark]
    | cons hdr wl =>
      simp only [Marker.mark_log, Marker.mark]
      split
      · exact ih _ _
      · rw [← mark_fields_log_fst od _ _ (m, wl) log]
        exact ih _ _

theorem mark_roots_log_fst (od : ObjectDesc) (fuel : Nat) :
    ∀ (rs : List Nat) (st : Marker.State) (log : List Nat),
      (Marker.mark_roots_log od fuel rs (st, log)).map Prod.fst = Marker.mark_roots od fuel rs st := by
  intro rs
  induction rs with
  | nil => intro st log; rfl
  | cons obj rest ih =>
    intro st log
    obtain ⟨m, wl⟩ := st
    simp only [Marker.mark_roots_log, Marker.mark_roots]
    split
    · have h := mark_log_fst od fuel (ObjectHeader.set_marked od m obj, obj :: wl) (obj :: log)
      cases hl : Marker.mark_log od fuel ((ObjectHeader.set_marked od m obj, obj :: wl), obj :: log) with
      | none =>
        rw [hl] at h
        simp only [Option.map_none'] at h
        rw [← h]
        rfl
      | some s =>
        rw [hl] at h
        simp only [Option.map_some'] at h
        rw [← h]
        exact ih s.1 s.2
    · exact ih _ _

theorem mark_scopes_log_fst (od : ObjectDesc) (records : Nat → StackRecord) (fuel : Nat) :
    ∀ (n sr : Nat) (st : Marker.State) (log : List Nat),
      (Marker.mark_scopes_log od records fuel n sr (st, log)).map Prod.fst =
        Marker.mark_scopes od records fuel n sr st := by
  intro n
  induction n with
  | zero =>
    intro sr st log
    simp only [Marker.mark_scopes_log, Marker.mark_scopes]
    split <;> rfl
  | succ n ih =>
    intro sr st log
    simp only [Marker.mark_scopes_log, Marker.mark_scopes]
    split
    · rfl
    · have h := mark_roots_log_fst od fuel (records sr)._objects st log
      cases hl : Marker.mark_roots_log od fuel (records sr)._objects (st, log) with
      | none =>
        rw [hl] at h
        simp only [Option.map_none'] at h
        rw [← h]
        rfl
      | some s =>
        rw [hl] at h
        simp only [Option.map_some'] at h
        rw [← h]
        exact ih _ s.1 s.2

/-- The run returns a state exactly when the recorded run returns that state
with some log. -/
theorem mark_from_roots_log_iff (od : ObjectDesc) (records : Nat → StackRecord) (fuel sr : Nat)
    (st st1 : Marker.State) :
    Marker.mark_from_roots od records fuel sr st = Marker.Outcome.returned st1 ↔
      ∃ log, Marker.mark_from_roots_log od records fuel sr st = some (st1, log) := by
  unfold Marker.mark_from_roots Marker.mark_from_roots_log
  by_cases hw : st.2 ≠ []
  · simp [hw]
  · simp only [hw, if_false]
    have h := mark_scopes_log_fst od records fuel fuel sr st []
    cases hl : Marker.mark_scopes_log od records fuel fuel sr (st, []) with
    | none =>
      rw [hl] at h
      simp only [Option.map_none'] at h
      rw [← h]
      simp
    | some s =>
      rw [hl] at h
      simp only [Option.map_some'] at h
      rw [← h]
      constructor
      · intro e
        simp only [Marker.Outcome.returned.injEq] at e
        exact ⟨s.2, by rw [← e]⟩
      · rintro ⟨log, e⟩
        simp only [Option.some.injEq] at e
        rw [e]

end gc

namespace gc

/-! ## Marker: every push sets a mark that was unset -/

theorem is_marked_false_iff (od : ObjectDesc) (m : Mem) (x : Nat) :
    ObjectHeader.is_marked od m x = false ↔ m (x + od.MARK_OFFSET) = 0 := by
  simp [ObjectHeader.is_marked, ObjectHeader._mark]

theorem push_inv_refl (od : ObjectDesc) (m : Mem) : push_inv od m m [] where
  cells := fun _ => Or.inl rfl
  nodup := List.nodup_nil
  logged := by
    intro x
    constructor
    · intro h
      exact absurd h (List.not_mem_nil x)
    · rintro ⟨h1, h2⟩
      rw [h1] at h2
      exact absurd h2 (by decide)

/-- A push of an unmarked object keeps the invariant of the log. -/
theorem push_inv_push (od : ObjectDesc) (m0 m : Mem) (log : List Nat) (c : Nat)
    (hu : ObjectHeader.is_marked od m c = false) (hi : push_inv od m0 m log) :
    push_inv od m0 (ObjectHeader.set_marked od m c) (c :: log) := by
  have hc0 : m (c + od.MARK_OFFSET) = 0 := (is_marked_false_iff od m c).mp hu
  have hc00 : m0 (c + od.MARK_OFFSET) = 0 := by
    rcases hi.cells (c + od.MARK_OFFSET) with h | ⟨h, _⟩
    · rw [← h]; exact hc0
    · exact h
  have hnotin : c ∉ log := by
    intro h
    have := ((hi.logged c).mp h).2
    rw [hu] at this
    exact absurd this (by decide)
  refine ⟨?_, List.nodup_cons.mpr ⟨hnotin, hi.nodup⟩, ?_⟩
  · intro a
    unfold ObjectHeader.set_marked store
    by_cases e : a = c + od.MARK_OFFSET
    · right
      simp only [e, if_true]
      exact ⟨hc00, trivial, c, List.mem_cons_self _ _, rfl⟩
    · simp only [e, if_false]
      rcases hi.cells a with h | ⟨h1, h2, c1, hc1, h3⟩
      · exact Or.inl h
      · exact Or.inr ⟨h1, h2, c1, List.mem_cons_of_mem _ hc1, h3⟩
  · intro x
    rw [List.mem_cons, is_marked_set_marked, hi.logged x]
    by_cases e : x = c
    · subst e
      simp [(is_marked_false_iff od m0 x).mpr hc00]
    · simp [e]

/-- The loop over the fields keeps the invariant of the log. -/
theorem mark_fields_log_inv (od : ObjectDesc) (m0 : Mem) (fields : Nat) :
    ∀ (js : List Nat) (m : Mem) (wl log : List Nat), push_inv od m0 m log →
      push_inv od m0 (Marker.mark_fields_log od fields js ((m, wl), log)).1.1
        (Marker.mark_fields_log od fields js ((m, wl), log)).2 := by
  intro js
  induction js with
  | nil => intro m wl log hi; exact hi
  | cons j js ih =>
    intro m wl log hi
    simp only [Marker.mark_fields_log]
    split
    · rename_i hc
      exact ih _ _ _ (push_inv_push od m0 m log _ hc.2 hi)
    · exact ih _ _ _ hi

/-- When the drain loop returns, the worklist is empty and the invariant of the
log holds. -/
theorem mark_log_inv (od : ObjectDesc) (m0 : Mem) :
    ∀ (fuel : Nat) (m : Mem) (wl log : List Nat) (r : Marker.State × List Nat),
      Marker.mark_log od fuel ((m, wl), log) = some r → push_inv od m0 m log →
      r.1.2 = [] ∧ push_inv od m0 r.1.1 r.2 := by
  intro fuel
  induction fuel with
  | zero =>
    intro m wl log r hr hi
    cases wl with
    | nil =>
      simp only [Marker.mark_log, Option.some.injEq] at hr
      subst hr
      exact ⟨rfl, hi⟩
    | cons hdr wl => simp [Marker.mark_log] at hr
  | succ fuel ih =>
    intro m wl log r hr hi
    cases wl with
    | nil =>
      simp only [Marker.mark_log, Option.some.injEq] at hr
      subst hr
      exact ⟨rfl, hi⟩
    | cons hdr wl =>
      simp only [Marker.mark_log] at hr
      split at hr
      · exact ih m wl log r hr hi
      · have h1 := mark_fields_log_inv od m0 (ObjectHeader.fields_base od hdr)
          (List.range (ObjectHeader.field_cnt od m hdr)) m wl log hi
        exact ih _ _ _ r hr h1

/-- When the loop over the roots of a scope, entered with an empty worklist,
returns, the worklist is empty and the invariant of the log holds. -/
theorem mark_roots_log_inv (od : ObjectDesc) (m0 : Mem) (fuel : Nat) :
    ∀ (rs : List Nat) (m : Mem) (log : List Nat) (r : Marker.State × List Nat),
      Marker.mark_roots_log od fuel rs ((m, []), log) = some r → push_inv od m0 m log →
      r.1.2 = [] ∧ push_inv od m0 r.1.1 r.2 := by
  intro rs
  induction rs with
  | nil =>
    intro m log r hr hi
    simp only [Marker.mark_roots_log, Option.some.injEq] at hr
    subst hr
    exact ⟨rfl, hi⟩
  | cons obj rest ih =>
    intro m log r hr hi
    simp only [Marker.mark_roots_log] at hr
    split at hr
    · rename_i hc
      cases hl : Marker.mark_log od fuel ((ObjectHeader.set_marked od m obj, [obj]), obj :: log) with
      | none => simp [hl] at hr
      | some s =>
        simp only [hl] at hr
        obtain ⟨e, hi1⟩ := mark_log_inv od m0 fuel _ _ _ s hl (push_inv_push od m0 m log obj hc.2 hi)
        obtain ⟨⟨m1, wl1⟩, log1⟩ := s
        simp only at e
        subst e
        exact ih m1 log1 r hr hi1
    · exact ih m log r hr hi

/-- When the loop over the scopes, entered with an empty worklist, returns, the
worklist is empty and the invariant of the log holds. -/
theorem mark_scopes_log_inv (od : ObjectDesc) (records : Nat → StackRecord) (m0 : Mem)
    (fuel : Nat) :
    ∀ (n sr : Nat) (m : Mem) (log : List Nat) (r : Marker.State × List Nat),
      Marker.mark_scopes_log od records fuel n sr ((m, []), log) = some r →
      push_inv od m0 m log → r.1.2 = [] ∧ push_inv od m0 r.1.1 r.2 := by
  intro n
  induction n with
  | zero =>
    intro sr m log r hr hi
    simp only [Marker.mark_scopes_log] at hr
    split at hr
    · simp only [Option.some.injEq] at hr
      subst hr
      exact ⟨rfl, hi⟩
    · simp at hr
  | succ n ih =>
    intro sr m log r hr hi
    simp only [Marker.mark_scopes_log] at hr
    split at hr
    · simp only [Option.some.injEq] at hr
      subst hr
      exact ⟨rfl, hi⟩
    · cases hl : Marker.mark_roots_log od fuel (records sr)._objects ((m, []), log) with
      | none => simp [hl] at hr
      | some s =>
        simp only [hl] at hr
        obtain ⟨e, hi1⟩ := mark_roots_log_inv od m0 fuel _ m log s hl hi
        obtain ⟨⟨m1, wl1⟩, log1⟩ := s
        simp only at e
        subst e
        exact ih _ m1 log1 r hr hi1

/-- When the recorded run returns, it was entered with an empty worklist, the
worklist is empty again, and the invariant of the log holds between the memory
at entry and the memory at return. -/
theorem mark_from_roots_log_inv (od : ObjectDesc) (records : Nat → StackRecord) (fuel sr : Nat)
    (st : Marker.State) (r : Marker.State × List Nat)
    (hr : Marker.mark_from_roots_log od records fuel sr st = some r) :
    st.2 = [] ∧ r.1.2 = [] ∧ push_inv od st.1 r.1.1 r.2 := by
  unfold Marker.mark_from_roots_log at hr
  by_cases hw : st.2 ≠ []
  · simp [hw] at hr
  · simp only [hw, if_false] at hr
    have hw' : st.2 = [] := by simpa using hw
    obtain ⟨m, wl⟩ := st
    simp only at hw'
    subst hw'
    obtain ⟨h1, h2⟩ := mark_scopes_log_inv od records m fuel fuel sr m [] r hr (push_inv_refl od m)
    exact ⟨rfl, h1, h2⟩

end gc

namespace gc

/-! ## Marker: worklist discipline, termination and frame -/

/-- C19. Worklist discipline: `mark_from_roots` takes the fatal `guarantee`
path exactly when the worklist is not empty on entry; whenever it returns, it
was entered with an empty worklist and the worklist is empty again; and in a
well-formed heap, entered with an empty worklist, it does return. -/
theorem Marker_mark_from_roots_worklist_discipline (od : ObjectDesc)
    (records : Nat → StackRecord) (fuel sr : Nat) (st : Marker.State) :
    (Marker.mark_from_roots od records fuel sr st = Marker.Outcome.aborted ↔ st.2 ≠ []) ∧
    (∀ st1, Marker.mark_from_roots od records fuel sr st = Marker.Outcome.returned st1 →
      st.2 = [] ∧ st1.2 = []) ∧
    (∀ (objs : List Nat) (n : Nat) (ch : List Nat), st.2 = [] → heap_ok od st.1 objs →
      scope_chain records n sr = some ch → roots_ok (chain_roots records ch) objs →
      objs.length + ch.length ≤ fuel →
      ∃ m1, Marker.mark_from_roots od records fuel sr st = Marker.Outcome.returned (m1, [])) := by
  refine ⟨?_, ?_, ?_⟩
  · unfold Marker.mark_from_roots
    by_cases hw : st.2 ≠ []
    · simp [hw]
    · simp only [hw, if_false, iff_false]
      cases Marker.mark_scopes od records fuel fuel sr st <;> simp
  · intro st1 h
    obtain ⟨log, hl⟩ := (mark_from_roots_log_iff od records fuel sr st st1).mp h
    obtain ⟨h1, h2, _⟩ := mark_from_roots_log_inv od records fuel sr st (st1, log) hl
    exact ⟨h1, h2⟩
  · intro objs n ch hwl hw hch hro hfuel
    obtain ⟨m, wl⟩ := st
    simp only at hwl
    subst hwl
    obtain ⟨m1, h1, _⟩ := mark_from_roots_spec od records m objs n sr ch fuel hw hch hro hfuel
    exact ⟨m1, h1⟩

/-- C17. Marker termination: in a well-formed heap, cyclic or not,
`mark_from_roots` entered with an empty worklist returns, and the pushes onto
the worklist during the call name no object twice: the pushed objects are the
objects whose mark bit was unset at entry and is set at return. -/
theorem Marker_mark_from_roots_terminates (od : ObjectDesc) (records : Nat → StackRecord)
    (m : Mem) (objs : List Nat) (n sr : Nat) (ch : List Nat) (fuel : Nat)
    (hw : heap_ok od m objs) (hch : scope_chain records n sr = some ch)
    (hro : roots_ok (chain_roots records ch) objs)
    (hfuel : objs.length + ch.length ≤ fuel) :
    ∃ m1 log,
      Marker.mark_from_roots od records fuel sr (m, []) = Marker.Outcome.returned (m1, []) ∧
      Marker.mark_from_roots_log od records fuel sr (m, []) = some ((m1, []), log) ∧
      log.Nodup ∧
      (∀ x, log.count x ≤ 1) ∧
      (∀ x, x ∈ log ↔
        (ObjectHeader.is_marked od m x = false ∧ ObjectHeader.is_marked od m1 x = true)) ∧
      (∀ x ∈ log, x ∈ objs) := by
  obtain ⟨m1, h1, h2, _, _⟩ := mark_from_roots_spec od records m objs n sr ch fuel hw hch hro hfuel
  obtain ⟨log, hl⟩ := (mark_from_roots_log_iff od records fuel sr (m, []) (m1, [])).mp h1
  obtain ⟨_, _, hp⟩ := mark_from_roots_log_inv od records fuel sr (m, []) ((m1, []), log) hl
  refine ⟨m1, log, h1, hl, hp.nodup, fun x => List.nodup_iff_count_le_one.mp hp.nodup x,
    hp.logged, ?_⟩
  intro x hx
  obtain ⟨hx0, hx1⟩ := (hp.logged x).mp hx
  rcases h2.sound x hx1 with h | h
  · simp only at hx0
    rw [hx0] at h
    exact absurd h (by decide)
  · exact reachable_mem_objs od m objs _ hw hro x h

/-- Witness of C17: the example heap, in which the objects 1000 and 1040 refer
to each other, marked from scope 10. -/
theorem Marker_mark_from_roots_terminates_witness :
    heap_ok example_od example_mem example_objs ∧
    example_mem (ObjectHeader.fields_base example_od 1000) = 1040 ∧
    example_mem (ObjectHeader.fields_base example_od 1040) = 1000 ∧
    ∃ m1 log,
      Marker.mark_from_roots example_od example_records 6 10 (example_mem, [])
        = Marker.Outcome.returned (m1, []) ∧
      Marker.mark_from_roots_log example_od example_records 6 10 (example_mem, [])
        = some ((m1, []), log) ∧
      log.Nodup := by
  refine ⟨by decide, by decide, by decide, ?_⟩
  obtain ⟨m1, log, h1, h2, h3, _⟩ :=
    Marker_mark_from_roots_terminates example_od example_records example_mem example_objs 2 10
      [10, 20] 6 (by decide) (by decide) (by decide) (by decide)
  exact ⟨m1, log, h1, h2, h3⟩

/-- A cell of an object other than its mark cell is not the mark cell of an
object. -/
theorem object_cell_ne_mark_cell (od : ObjectDesc) (m0 : Mem) (objs : List Nat)
    (hw : heap_ok od m0 objs) (o c a : Nat) (ho : o ∈ objs) (hc : c ∈ objs)
    (h1 : o ≤ a) (h2 : a < o + ObjectHeader._size od m0 o) (h3 : a ≠ o + od.MARK_OFFSET) :
    a ≠ c + od.MARK_OFFSET := by
  obtain ⟨l1, _⟩ := hw.layout
  by_cases e : o = c
  · subst e; exact h3
  · have s2 := (hw.objects.1 c hc).1
    rcases hw.objects.2 o ho c hc e with d | d <;> omega

/-- C15. `mark_from_roots` modifies nothing but mark bits, and those only from
unset to set.  In every heap, when the call returns, every cell that differs is
the mark cell of an address that was unmarked and is marked, and went from 0 to
1, and nothing that was marked is unmarked.  In a well-formed heap the call,
entered with an empty worklist, returns, the cells that differ are mark cells
of objects, and so the size, the tag and every other cell of every object,
special or not, are as before.  The scopes and their roots are only read: the
call has no other state than the memory and the worklist. -/
theorem Marker_mark_from_roots_frame (od : ObjectDesc) (records : Nat → StackRecord)
    (fuel sr : Nat) (st : Marker.State) :
    (∀ st1, Marker.mark_from_roots od records fuel sr st = Marker.Outcome.returned st1 →
      (∀ a, st1.1 a ≠ st.1 a → st.1 a = 0 ∧ st1.1 a = 1 ∧
        ∃ c, a = c + od.MARK_OFFSET ∧ ObjectHeader.is_marked od st.1 c = false ∧
          ObjectHeader.is_marked od st1.1 c = true) ∧
      (∀ o, ObjectHeader.is_marked od st.1 o = true →
        ObjectHeader.is_marked od st1.1 o = true)) ∧
    (∀ (objs : List Nat) (n : Nat) (ch : List Nat), st.2 = [] → heap_ok od st.1 objs →
      scope_chain records n sr = some ch → roots_ok (chain_roots records ch) objs →
      objs.length + ch.length ≤ fuel →
      ∃ m1, Marker.mark_from_roots od records fuel sr st = Marker.Outcome.returned (m1, []) ∧
        (∀ a, m1 a ≠ st.1 a → ∃ c ∈ objs, a = c + od.MARK_OFFSET) ∧
        (∀ o ∈ objs, ObjectHeader._size od m1 o = ObjectHeader._size od st.1 o ∧
          ObjectHeader._tag od m1 o = ObjectHeader._tag od st.1 o ∧
          (∀ a, o ≤ a → a < o + ObjectHeader._size od st.1 o → a ≠ o + od.MARK_OFFSET →
            m1 a = st.1 a) ∧
          (∀ j, od.HEADER_SIZE + od.WORD_SIZE * j < ObjectHeader._size od st.1 o →
            m1 (ObjectHeader.fields_base od o + od.WORD_SIZE * j) =
              st.1 (ObjectHeader.fields_base od o + od.WORD_SIZE * j)))) := by
  constructor
  · intro st1 h1
    obtain ⟨log, hl⟩ := (mark_from_roots_log_iff od records fuel sr st st1).mp h1
    obtain ⟨_, _, hp⟩ := mark_from_roots_log_inv od records fuel sr st (st1, log) hl
    simp only at hp
    constructor
    · intro a hne
      rcases hp.cells a with h | ⟨h1, h2, c, hc, h3⟩
      · exact absurd h hne
      · exact ⟨h1, h2, c, h3, (hp.logged c).mp hc⟩
    · intro o ho
      rcases hp.cells (o + od.MARK_OFFSET) with h | ⟨h1, _⟩
      · unfold ObjectHeader.is_marked ObjectHeader._mark at ho ⊢
        rw [h]; exact ho
      · rw [(is_marked_false_iff od st.1 o).mpr h1] at ho
        exact absurd ho (by decide)
  · intro objs n ch hwl hw hch hro hfuel
    obtain ⟨m, wl⟩ := st
    simp only at hwl hw ⊢
    subst hwl
    obtain ⟨m1, h1, h2, _, _⟩ := mark_from_roots_spec od records m objs n sr ch fuel hw hch hro hfuel
    have hcell : ∀ o ∈ objs, ∀ a, o ≤ a → a < o + ObjectHeader._size od m o →
        a ≠ o + od.MARK_OFFSET → m1 a = m a := by
      intro o ho a a1 a2 a3
      rcases h2.frame a with h | ⟨_, c, hc, e⟩
      · exact h
      · exact absurd e (object_cell_ne_mark_cell od m objs hw o c a ho hc a1 a2 a3)
    obtain ⟨l1, l2, l3, l4, l5, l6, l7⟩ := hw.layout
    refine ⟨m1, h1, ?_, ?_⟩
    · intro a hne
      rcases h2.frame a with h | ⟨_, c, hc, e⟩
      · exact absurd h hne
      · exact ⟨c, hc, e⟩
    · intro o ho
      have hs := (hw.objects.1 o ho).1
      refine ⟨?_, ?_, hcell o ho, ?_⟩
      · exact hcell o ho _ (by omega) (by omega) (by omega)
      · exact hcell o ho _ (by omega) (by omega) (by omega)
      · intro j hj
        unfold ObjectHeader.fields_base
        exact hcell o ho _ (by omega) (by omega) (by omega)

/-- Witness of C15: in the example heap the slot of the special object 1080,
which holds the address 1112, is unchanged by the run from scope 10. -/
theorem Marker_mark_from_roots_frame_witness :
    heap_ok example_od example_mem example_objs ∧
    ObjectHeader.has_special_type example_od example_mem 1080 = true ∧
    ∃ m1, Marker.mark_from_roots example_od example_records 6 10 (example_mem, [])
        = Marker.Outcome.returned (m1, []) ∧
      m1 (ObjectHeader.fields_base example_od 1080 + example_od.WORD_SIZE * 0) = 1112 := by
  refine ⟨by decide, by decide, ?_⟩
  obtain ⟨m1, h1, _, h3⟩ :=
    (Marker_mark_from_roots_frame example_od example_records 6 10 (example_mem, [])).2
      example_objs 2 [10, 20] rfl (by decide) (by decide) (by decide) (by decide)
  exact ⟨m1, h1, ((h3 1080 (by decide)).2.2.2 0 (by decide)).trans (by decide)⟩

end gc

namespace gc

/-! ## Heap tiling -/

/-- The extents of a tiling from `pos` lie between `pos` and the end of the
tiling, each ends where the next starts or before a later one, and every
address of the region is in one of them. -/
theorem object_extents_tile :
    ∀ (ks : List Klass) (pos : Nat),
      (∀ e ∈ object_extents pos ks, pos ≤ e.1 ∧ e.1 + e.2 ≤ pos + (ks.map Klass.size).sum) ∧
      (object_extents pos ks).Pairwise (fun e1 e2 => e1.1 + e1.2 ≤ e2.1) ∧
      (∀ a, pos ≤ a → a < pos + (ks.map Klass.size).sum →
        ∃ e ∈ object_extents pos ks, e.1 ≤ a ∧ a < e.1 + e.2) := by
  intro ks
  induction ks with
  | nil =>
    intro pos
    refine ⟨fun e he => absurd he (List.not_mem_nil e), List.Pairwise.nil, ?_⟩
    intro a h1 h2
    simp at h2
    omega
  | cons k ks ih =>
    intro pos
    obtain ⟨i1, i2, i3⟩ := ih (pos + k.size)
    simp only [object_extents, List.map_cons, List.sum_cons]
    refine ⟨?_, ?_, ?_⟩
    · intro e he
      rcases List.mem_cons.mp he with h | h
      · subst h
        simp only
        omega
      · have := i1 e h
        omega
    · refine List.Pairwise.cons ?_ i2
      intro e he
      have := i1 e he
      simp only
      omega
    · intro a h1 h2
      by_cases ha : a < pos + k.size
      · exact ⟨(pos, k.size), List.mem_cons_self _ _, h1, ha⟩
      · obtain ⟨e, he, h3⟩ := i3 a (by omega) (by omega)
        exact ⟨e, List.mem_cons_of_mem _ he, h3⟩

/-- The start of the `i`-th extent of a tiling is `pos` plus the sizes of the
objects before it. -/
theorem object_extents_get :
    ∀ (ks : List Klass) (pos i : Nat), i < ks.length →
      (object_extents pos ks)[i]? =
        (ks[i]?).map (fun k => (pos + ((ks.take i).map Klass.size).sum, k.size)) := by
  intro ks
  induction ks with
  | nil => intro pos i hi; simp at hi
  | cons k ks ih =>
    intro pos i hi
    cases i with
    | zero => simp [object_extents]
    | succ i =>
      simp only [List.length_cons, Nat.add_lt_add_iff_right] at hi
      simp only [object_extents, List.getElem?_cons_succ, List.take_succ_cons, List.map_cons,
        List.sum_cons]
      rw [ih (pos + k.size) i hi]
      cases ks[i]? with
      | none => rfl
      | some k1 => simp [Nat.add_assoc]

/-- A sequence of returning calls whose sums do not wrap hands out the starts
of the tiling from `_heap_pos`, leaves `_heap_pos` at its end, and leaves in
every header the size of the object; the walk by sizes from the old `_heap_pos`
meets these objects and stops at the new `_heap_pos`. -/
theorem ZeroGC.allocate_seq_tiles (od : ObjectDesc) (hl : od.layout_ok) :
    ∀ (ks : List Klass) (gc : ZeroGC), (∀ k ∈ ks, od.HEADER_SIZE ≤ k.size) →
      gc._heap_pos ≤ gc._heap_start + gc._heap_size →
      (∀ k ∈ ks, gc._heap_start + gc._heap_size + k.size < 2 ^ 64) →
      ZeroGC.all_succeed od gc ks = true →
      ZeroGC.allocate_results od gc ks = (object_extents gc._heap_pos ks).map Prod.fst ∧
      (ZeroGC.allocate_seq od gc ks)._heap_pos = gc._heap_pos + (ks.map Klass.size).sum ∧
      (∀ e ∈ object_extents gc._heap_pos ks,
        ObjectHeader._size od (ZeroGC.allocate_seq od gc ks).mem e.1 = e.2) ∧
      heap_walk od (ZeroGC.allocate_seq od gc ks).mem (ZeroGC.allocate_seq od gc ks)._heap_pos
        ks.length gc._heap_pos = some ((object_extents gc._heap_pos ks).map Prod.fst) := by
  intro ks
  induction ks with
  | nil =>
    intro gc _ _ _ _
    simp [ZeroGC.allocate_results, object_extents, ZeroGC.allocate_seq, heap_walk]
  | cons k ks ih =>
    intro gc hk hb hnw hall
    have hk0 : od.HEADER_SIZE ≤ k.size := hk k (List.mem_cons_self _ _)
    have hnw0 := hnw k (List.mem_cons_self _ _)
    obtain ⟨_, _, p3, p4⟩ := ZeroGC.allocate_pos od gc k (by omega)
    have hfit : gc._heap_pos + k.size < gc._heap_start + gc._heap_size := by
      by_contra hc
      simp [ZeroGC.all_succeed, p4 (by omega)] at hall
    have hguard := ZeroGC.fits_guard gc k hfit
    have hres : (ZeroGC.allocate od gc k).1 = .ok gc._heap_pos := by
      rw [ZeroGC.allocate_ok od gc k hguard]
    have hpos : (ZeroGC.allocate od gc k).2._heap_pos = gc._heap_pos + k.size := p3 hfit
    obtain ⟨b1, b2, _⟩ := ZeroGC.allocate_bounds od gc k
    have hb1 : (ZeroGC.allocate od gc k).2._heap_pos ≤
        (ZeroGC.allocate od gc k).2._heap_start + (ZeroGC.allocate od gc k).2._heap_size := by
      rw [hpos, b1, b2]; omega
    have hnw1 : ∀ k1 ∈ ks, (ZeroGC.allocate od gc k).2._heap_start +
        (ZeroGC.allocate od gc k).2._heap_size + k1.size < 2 ^ 64 := by
      rw [b1, b2]; exact fun k1 hk1 => hnw k1 (List.mem_cons_of_mem _ hk1)
    have hall' : ZeroGC.all_succeed od (ZeroGC.allocate od gc k).2 ks = true := by
      simp only [ZeroGC.all_succeed, hres, Bool.true_and] at hall
      exact hall
    obtain ⟨i1, i2, i3, i4⟩ := ih (ZeroGC.allocate od gc k).2
      (fun k' hk' => hk k' (List.mem_cons_of_mem _ hk')) hb1 hnw1 hall'
    rw [hpos] at i1 i2 i3 i4
    have ⟨l1, l2, l3, _⟩ := hl
    have hsize : ObjectHeader._size od (ZeroGC.allocate_seq od (ZeroGC.allocate od gc k).2 ks).mem
        gc._heap_pos = k.size := by
      unfold ObjectHeader._size
      rw [(ZeroGC.allocate_seq_below od ks (ZeroGC.allocate od gc k).2 hb1 hnw1).2 _
        (by rw [hpos]; omega)]
      exact (ZeroGC.allocate_mem_header od gc k hl hguard).2.1
    simp only [ZeroGC.allocate_results, ZeroGC.allocate_seq, object_extents, List.map_cons,
      List.sum_cons, hres, List.length_cons]
    refine ⟨by rw [i1], by rw [i2]; omega, ?_, ?_⟩
    · intro e he
      rcases List.mem_cons.mp he with h | h
      · subst h
        exact hsize
      · exact i3 e h
    · have hne : gc._heap_pos ≠ (ZeroGC.allocate_seq od (ZeroGC.allocate od gc k).2 ks)._heap_pos := by
        rw [i2]; omega
      have hlt : gc._heap_pos < (ZeroGC.allocate_seq od (ZeroGC.allocate od gc k).2 ks)._heap_pos := by
        rw [i2]; omega
      simp only [heap_walk, hne, hlt, if_false, if_true, hsize, i4, Option.map_some']

/-- The heap tiling for class sizes whose sums do not wrap: from a freshly
constructed `ZeroGC`, after a finite sequence of `allocate` calls that all
return, for classes whose instances hold their header and have
`_heap_start + _heap_size + size < 2 ^ 64`, the `i`-th object starts at
`_heap_start` plus the sizes of the objects before it; the objects lie in
`[_heap_start, _heap_pos)`, each ends where the next starts, and every address
of that range is in one of them; every header holds the size of its object, so
the walk from `_heap_start` that steps by the size in each header meets the
objects in the order of allocation and stops at `_heap_pos`; and no object
reaches beyond the end of the heap. -/
theorem ZeroGC.heap_tiling (od : ObjectDesc) (malloc_result : Nat) (mem : Mem) (heap_size : Nat)
    (need_zeroing : Bool) (gc0 : ZeroGC) (ks : List Klass)
    (hnew : ZeroGC.mk_heap malloc_result mem heap_size need_zeroing = .ok gc0)
    (hl : od.layout_ok) (hk : ∀ k ∈ ks, od.HEADER_SIZE ≤ k.size)
    (hnw : ∀ k ∈ ks, malloc_result + heap_size + k.size < 2 ^ 64)
    (hall : ZeroGC.all_succeed od gc0 ks = true) :
    ZeroGC.allocate_results od gc0 ks = (object_extents malloc_result ks).map Prod.fst ∧
    (∀ i, i < ks.length → (ZeroGC.allocate_results od gc0 ks)[i]? =
      some (malloc_result + ((ks.take i).map Klass.size).sum)) ∧
    (ZeroGC.allocate_seq od gc0 ks)._heap_pos = malloc_result + (ks.map Klass.size).sum ∧
    (∀ e ∈ object_extents malloc_result ks,
      malloc_result ≤ e.1 ∧ e.1 + e.2 ≤ (ZeroGC.allocate_seq od gc0 ks)._heap_pos) ∧
    (object_extents malloc_result ks).Pairwise (fun e1 e2 => e1.1 + e1.2 ≤ e2.1) ∧
    (∀ a, malloc_result ≤ a → a < (ZeroGC.allocate_seq od gc0 ks)._heap_pos →
      ∃ e ∈ object_extents malloc_result ks, e.1 ≤ a ∧ a < e.1 + e.2) ∧
    (∀ e ∈ object_extents malloc_result ks,
      ObjectHeader._size od (ZeroGC.allocate_seq od gc0 ks).mem e.1 = e.2) ∧
    heap_walk od (ZeroGC.allocate_seq od gc0 ks).mem (ZeroGC.allocate_seq od gc0 ks)._heap_pos
      ks.length malloc_result = some (ZeroGC.allocate_results od gc0 ks) ∧
    (∀ e ∈ object_extents malloc_result ks, e.1 + e.2 ≤ malloc_result + heap_size) := by
  unfold ZeroGC.mk_heap at hnew
  by_cases hp : malloc_result = NULL
  · simp [hp] at hnew
  · simp only [hp, if_false, Except.ok.injEq] at hnew
    subst hnew
    obtain ⟨t1, t2, t3, t4⟩ := ZeroGC.allocate_seq_tiles od hl ks
      { _heap_size := heap_size, _need_zeroing := need_zeroing, _heap_start := malloc_result,
        _heap_pos := malloc_result, mem := mem } hk (Nat.le_add_right _ _) hnw hall
    obtain ⟨_, _, _, b4⟩ := ZeroGC.allocate_seq_keeps_bounds od ks
      { _heap_size := heap_size, _need_zeroing := need_zeroing, _heap_start := malloc_result,
        _heap_pos := malloc_result, mem := mem } ⟨le_refl _, Nat.le_add_right _ _⟩ hnw
    simp only at t1 t2 t3 t4 b4
    obtain ⟨e1, e2, e3⟩ := object_extents_tile ks malloc_result
    rw [t2] at b4
    rw [t1, t2]
    refine ⟨rfl, ?_, rfl, e1, e2, e3, t3, ?_, ?_⟩
    · intro i hi
      rw [List.getElem?_map, object_extents_get ks malloc_result i hi,
        List.getElem?_eq_getElem hi]
      rfl
    · rw [← t2]; exact t4
    · intro e he
      have := (e1 e he).2
      omega

/-- C18, the code at the failing input.  In a fresh 64-byte heap at address
1000 that does not zero fields, the calls for classes of 32, `2 ^ 64 - 32` and
32 bytes all return, and the objects are 1000, 1032 and 1000: the third does
not start at `_heap_start` plus the sizes of the objects before it, it starts
where the first starts, so the ranges are not disjoint; the second reaches
beyond the end of the heap 1064; and the walk by sizes from `_heap_start`
does not meet the three objects. -/
theorem ZeroGC_allocate_results_overlap :
    ZeroGC.mk_heap 1000 (fun _ => 0) 64 false = .ok ⟨64, false, 1000, 1000, fun _ => 0⟩ ∧
    ZeroGC.all_succeed example_od ⟨64, false, 1000, 1000, fun _ => 0⟩
      [⟨1, 32, false, 1⟩, ⟨2, 2 ^ 64 - 32, false, 1⟩, ⟨9, 32, false, 1⟩] = true ∧
    ZeroGC.allocate_results example_od ⟨64, false, 1000, 1000, fun _ => 0⟩
      [⟨1, 32, false, 1⟩, ⟨2, 2 ^ 64 - 32, false, 1⟩, ⟨9, 32, false, 1⟩] = [1000, 1032, 1000] ∧
    (object_extents 1000
      [⟨1, 32, false, 1⟩, ⟨2, 2 ^ 64 - 32, false, 1⟩, ⟨9, 32, false, 1⟩]).map Prod.fst ≠
      [1000, 1032, 1000] ∧
    1032 + (2 ^ 64 - 32) > 1000 + 64 ∧
    (ZeroGC.allocate_seq example_od ⟨64, false, 1000, 1000, fun _ => 0⟩
      [⟨1, 32, false, 1⟩, ⟨2, 2 ^ 64 - 32, false, 1⟩, ⟨9, 32, false, 1⟩])._heap_pos = 1032 ∧
    heap_walk example_od
      (ZeroGC.allocate_seq example_od ⟨64, false, 1000, 1000, fun _ => 0⟩
        [⟨1, 32, false, 1⟩, ⟨2, 2 ^ 64 - 32, false, 1⟩, ⟨9, 32, false, 1⟩]).mem
      (ZeroGC.allocate_seq example_od ⟨64, false, 1000, 1000, fun _ => 0⟩
        [⟨1, 32, false, 1⟩, ⟨2, 2 ^ 64 - 32, false, 1⟩, ⟨9, 32, false, 1⟩])._heap_pos 3 1000 =
      some [1000] := by
  refine ⟨rfl, by decide, by decide, by decide, by decide, by decide, by decide⟩

end gc

namespace gc

/-! ## Timing statistics -/

/-- A sequence of flushes keeps the difference between the time in the bucket
and the start of the scope. -/
theorem GCStatisticsScope.flushes_time :
    ∀ (ts : List Int) (scope : GCStatisticsScope) (stat : GCStatistics),
      (GCStatisticsScope.flushes scope stat ts).2._time -
          (GCStatisticsScope.flushes scope stat ts).1._start
        = stat._time - scope._start := by
  intro ts
  induction ts with
  | nil => intro scope stat; rfl
  | cons now rest ih =>
    intro scope stat
    simp only [GCStatisticsScope.flushes]
    rw [ih]
    simp only [GCStatisticsScope.flush, GCStatistics.add_time]
    omega

/-- C25. Scoped timer accumulation: a `GCStatisticsScope` constructed at the
clock reading `t0`, flushed at the readings `ts` and destroyed at the reading
`t_end` adds exactly `t_end - t0` to its bucket, whatever the number and the
readings of the flushes; each `flush()` adds `now - _start` and sets `_start`
to `now`. -/
theorem GCStatisticsScope_adds_elapsed_time (stat : GCStatistics) (t0 : Int) (ts : List Int)
    (t_end : Int) (scope : GCStatisticsScope) (now : Int) :
    (GCStatisticsScope.lifetime stat t0 ts t_end).time = stat.time + (t_end - t0) ∧
    (GCStatisticsScope.lifetime stat t0 ts t_end).time = (GCStatisticsScope.lifetime stat t0 [] t_end).time ∧
    (GCStatisticsScope.flush scope stat now).2.time = stat.time + (now - scope._start) ∧
    (GCStatisticsScope.flush scope stat now).1._start = now ∧
    (GCStatisticsScope.ctor t0)._start = t0 := by
  have h := GCStatisticsScope.flushes_time ts (GCStatisticsScope.ctor t0) stat
  simp only [GCStatisticsScope.ctor] at h
  refine ⟨?_, ?_, rfl, rfl, rfl⟩
  · simp only [GCStatisticsScope.lifetime, GCStatisticsScope.dtor, GCStatistics.add_time,
      GCStatistics.time, GCStatisticsScope.ctor]
    omega
  · simp only [GCStatisticsScope.lifetime, GCStatisticsScope.dtor, GCStatistics.add_time,
      GCStatistics.time, GCStatisticsScope.ctor, GCStatisticsScope.flushes]
    omega

end gc

namespace runtime

/-! ## The shadow-stack walker -/

/-- The loop over the roots of one entry makes the calls for its indices in
order. -/
theorem ShadowStackWalker.visit_roots_eq {σ : Type} (visitor : σ → VisitorCall → σ)
    (obj roots : Nat) :
    ∀ (is : List Nat) (s : σ) (calls : List VisitorCall),
      ShadowStackWalker.visit_roots visitor obj roots is (s, calls) =
        ((is.map (fun i => (⟨obj, roots + sizeof_address * i, gc.NULL⟩ : VisitorCall))).foldl
            visitor s,
          calls ++ is.map (fun i => (⟨obj, roots + sizeof_address * i, gc.NULL⟩ : VisitorCall))) := by
  intro is
  induction is with
  | nil => intro s calls; simp [ShadowStackWalker.visit_roots]
  | cons i rest ih =>
    intro s calls
    simp only [ShadowStackWalker.visit_roots, ih, List.map_cons, List.foldl_cons,
      List.append_assoc, List.singleton_append]

/-- The loop over the entries of a chain without metadata makes the calls of
the entries in the order of the chain. -/
theorem ShadowStackWalker.walk_eq {σ : Type} (entries : Nat → StackEntry)
    (visitor : σ → VisitorCall → σ) (obj : Nat) :
    ∀ (n fuel r : Nat) (ch : List Nat) (s : σ) (calls : List VisitorCall),
      shadow_chain entries n r = some ch → ch.length ≤ fuel →
      (∀ e ∈ ch, (entries e)._map._num_meta = 0) →
      ShadowStackWalker.walk entries visitor obj fuel r (s, calls) =
        WalkOutcome.returned
          ((ch.flatMap (entry_calls entries obj)).foldl visitor s,
            calls ++ ch.flatMap (entry_calls entries obj)) := by
  intro n
  induction n with
  | zero =>
    intro fuel r ch s calls hch _ _
    unfold shadow_chain at hch
    by_cases hr : r = gc.NULL
    · simp only [hr, if_true, Option.some.injEq] at hch
      subst hch
      cases fuel <;> simp [ShadowStackWalker.walk, hr]
    · simp [hr] at hch
  | succ n ih =>
    intro fuel r ch s calls hch hfuel hmeta
    unfold shadow_chain at hch
    by_cases hr : r = gc.NULL
    · simp only [hr, if_true, Option.some.injEq] at hch
      subst hch
      cases fuel <;> simp [ShadowStackWalker.walk, hr]
    · simp only [hr, if_false, Option.map_eq_some'] at hch
      obtain ⟨ch1, hch1, rfl⟩ := hch
      cases fuel with
      | zero => simp at hfuel
      | succ fuel =>
        simp only [List.length_cons, Nat.add_le_add_iff_right] at hfuel
        have hm : (entries r)._map._num_meta = 0 := hmeta r (List.mem_cons_self _ _)
        simp only [ShadowStackWalker.walk, hr, if_false, hm, ne_eq, not_true_eq_false,
          ShadowStackWalker.visit_roots_eq]
        rw [ih fuel _ ch1 _ _ hch1 hfuel (fun e he => hmeta e (List.mem_cons_of_mem _ he))]
        simp only [List.flatMap_cons, List.foldl_append, List.append_assoc, entry_calls]

theorem entry_calls_length (entries : Nat → StackEntry) (obj : Nat) :
    ∀ ch : List Nat, (ch.flatMap (entry_calls entries obj)).length =
      (ch.map (fun r => (entries r)._map._num_roots.toNat)).sum := by
  intro ch
  induction ch with
  | nil => rfl
  | cons r ch ih =>
    simp only [List.flatMap_cons, List.length_append, ih, List.map_cons, List.sum_cons,
      entry_calls, List.length_map, List.length_range]

/-- C24. Shadow-stack root enumeration: for a finite chain whose entries have
no metadata, `process_roots` returns after calling the visitor once for each of
the `_num_roots` root slots of every entry, entry by entry from the head of the
chain along `_next` and slot by slot in index order, each time with a null
`meta`; so the number of calls is the sum of `_num_roots` over the chain. -/
theorem ShadowStackWalker_process_roots_enumerates {σ : Type} (entries : Nat → StackEntry)
    (llvm_gc_root_chain n fuel : Nat) (ch : List Nat) (s : σ) (obj : Nat)
    (visitor : σ → VisitorCall → σ) (records_derived_ptrs : Bool)
    (hch : shadow_chain entries n llvm_gc_root_chain = some ch) (hfuel : ch.length ≤ fuel)
    (hmeta : ∀ e ∈ ch, (entries e)._map._num_meta = 0) :
    ShadowStackWalker.process_roots entries llvm_gc_root_chain fuel s obj visitor
        records_derived_ptrs =
      WalkOutcome.returned
        ((ch.flatMap (entry_calls entries obj)).foldl visitor s,
          ch.flatMap (entry_calls entries obj)) ∧
    (∀ c ∈ ch.flatMap (entry_calls entries obj), c.meta = gc.NULL ∧ c.obj = obj) ∧
    (ch.flatMap (entry_calls entries obj)).length =
      (ch.map (fun r => (entries r)._map._num_roots.toNat)).sum ∧
    ((∀ e ∈ ch, 0 ≤ (entries e)._map._num_roots) →
      (((ch.flatMap (entry_calls entries obj)).length : Nat) : Int) =
        (ch.map (fun r => (entries r)._map._num_roots)).sum) := by
  refine ⟨?_, ?_, entry_calls_length entries obj ch, ?_⟩
  · unfold ShadowStackWalker.process_roots
    rw [ShadowStackWalker.walk_eq entries visitor obj n fuel _ ch s [] hch hfuel hmeta]
    simp
  · intro c hc
    obtain ⟨r, _, hcr⟩ := List.mem_flatMap.mp hc
    unfold entry_calls at hcr
    obtain ⟨i, _, rfl⟩ := List.mem_map.mp hcr
    exact ⟨rfl, rfl⟩
  · intro hpos
    rw [entry_calls_length]
    clear hch hfuel hmeta
    induction ch with
    | nil => rfl
    | cons r ch ih =>
      simp only [List.map_cons, List.sum_cons, Nat.cast_add]
      rw [ih (fun e he => hpos e (List.mem_cons_of_mem _ he)),
        Int.toNat_of_nonneg (hpos r (List.mem_cons_self _ _))]

/-- Witness of C24: the chain of the example entries 100 and 200, with two
roots and one root; the visitor counts its calls. -/
theorem ShadowStackWalker_process_roots_enumerates_witness :
    shadow_chain example_entries 2 100 = some [100, 200] ∧
    ShadowStackWalker.process_roots example_entries 100 2 (0 : Nat) 7 (fun s _ => s + 1) false =
      WalkOutcome.returned
        (([100, 200].flatMap (entry_calls example_entries 7)).foldl (fun s _ => s + 1) 0,
          [100, 200].flatMap (entry_calls example_entries 7)) ∧
    [100, 200].flatMap (entry_calls example_entries 7) = [⟨7, 108, 0⟩, ⟨7, 116, 0⟩, ⟨7, 208, 0⟩] :=
  ⟨by decide,
    (ShadowStackWalker_process_roots_enumerates example_entries 100 2 2 [100, 200] (0 : Nat) 7
      (fun s _ => s + 1) false (by decide) (by decide) (by decide)).1,
    by decide⟩

end runtime

namespace runtime

/-! ## The stack-map walker: arithmetic of slots and differences -/

/-- For `int` offsets, two slots of a frame are the same slot exactly when the
offsets are equal. -/
theorem slot_at_eq_iff (stacktop : Nat) (b o : Int) (hb : -(2 ^ 31) ≤ b ∧ b < 2 ^ 31)
    (ho : -(2 ^ 31) ≤ o ∧ o < 2 ^ 31) : slot_at stacktop b = slot_at stacktop o ↔ b = o := by
  unfold slot_at
  constructor
  · intro h
    omega
  · intro h
    rw [h]

/-- A difference of two addresses that fits in an `int` is not changed by the
cast. -/
theorem int_of_diff_fits (derived base : Nat)
    (h : -(2 ^ 31) ≤ (derived : Int) - (base : Int) ∧ (derived : Int) - (base : Int) < 2 ^ 31) :
    int_of_diff derived base = (derived : Int) - (base : Int) := by
  unfold int_of_diff gc.int_of_size_t
  split <;> omega

/-- Adding to an address of 64 bits the difference to another one gives the
other one. -/
theorem address_plus_diff (derived base : Nat) (hd : derived < 2 ^ 64) :
    address_plus base ((derived : Int) - (base : Int)) = derived := by
  unfold address_plus
  omega

end runtime

namespace runtime

/-! ## The stack-map walker: fixing derived pointers -/

/-- The loop of `fix_derived_pointers` writes derived slots only. -/
theorem StackMapWalker.fix_fold_other :
    ∀ (l : List DerivedPtr) (m : gc.Mem) (a : Nat),
      (∀ r ∈ l, a ≠ r._derived_ptr_slot) → l.foldl StackMapWalker.fix_one m a = m a := by
  intro l
  induction l with
  | nil => intro m a _; rfl
  | cons r0 rest ih =>
    intro m a ha
    simp only [List.foldl_cons]
    rw [ih _ a (fun r hr => ha r (List.mem_cons_of_mem _ hr))]
    have hne : a ≠ r0._derived_ptr_slot := ha r0 (List.mem_cons_self _ _)
    simp [StackMapWalker.fix_one, gc.store, hne]

/-- The iteration of the loop of `fix_derived_pointers` for the triple `r`,
after the iterations for `pre`: when no derived slot of `pre` is the base slot
of `r`, the derived slot of `r` gets the value of the base slot in the memory
before the loop plus the offset of the triple. -/
theorem StackMapWalker.fix_fold_step (pre : List DerivedPtr) (r : DerivedPtr) (m : gc.Mem)
    (h : ∀ r1 ∈ pre, r1._derived_ptr_slot ≠ r._base_ptr_slot) :
    (pre ++ [r]).foldl StackMapWalker.fix_one m r._derived_ptr_slot =
      address_plus (m r._base_ptr_slot) r._offset := by
  rw [List.foldl_append]
  simp only [List.foldl_cons, List.foldl_nil]
  have hb := StackMapWalker.fix_fold_other pre m r._base_ptr_slot (fun r1 hr1 => (h r1 hr1).symm)
  simp [StackMapWalker.fix_one, gc.store, hb]

/-- The loop of `fix_derived_pointers` over triples whose derived slots are no
base slots: when every triple would write the value `v` of its derived slot,
every derived slot holds that value after the loop. -/
theorem StackMapWalker.fix_fold_value (v : Nat → Nat) :
    ∀ (l : List DerivedPtr) (m : gc.Mem),
      (∀ r ∈ l, ∀ r1 ∈ l, r1._derived_ptr_slot ≠ r._base_ptr_slot) →
      (∀ r ∈ l, address_plus (m r._base_ptr_slot) r._offset = v r._derived_ptr_slot) →
      ∀ r ∈ l, l.foldl StackMapWalker.fix_one m r._derived_ptr_slot = v r._derived_ptr_slot := by
  intro l
  induction l with
  | nil => intro m _ _ r hr; exact absurd hr (List.not_mem_nil r)
  | cons r0 rest ih =>
    intro m halias hv r hr
    simp only [List.foldl_cons]
    have halias1 : ∀ r ∈ rest, ∀ r1 ∈ rest, r1._derived_ptr_slot ≠ r._base_ptr_slot :=
      fun r hr r1 hr1 => halias r (List.mem_cons_of_mem _ hr) r1 (List.mem_cons_of_mem _ hr1)
    have hv1 : ∀ r ∈ rest, address_plus ((StackMapWalker.fix_one m r0) r._base_ptr_slot) r._offset =
        v r._derived_ptr_slot := by
      intro r hr
      have hne : r._base_ptr_slot ≠ r0._derived_ptr_slot :=
        fun e => halias r (List.mem_cons_of_mem _ hr) r0 (List.mem_cons_self _ _) e.symm
      rw [← hv r (List.mem_cons_of_mem _ hr)]
      simp [StackMapWalker.fix_one, gc.store, hne]
    have hrest := ih (StackMapWalker.fix_one m r0) halias1 hv1
    by_cases hex : ∃ r1 ∈ rest, r1._derived_ptr_slot = r._derived_ptr_slot
    · obtain ⟨r1, hr1, e⟩ := hex
      rw [← e]
      exact hrest r1 hr1
    · rcases List.mem_cons.mp hr with e | hr1
      · subst e
        rw [StackMapWalker.fix_fold_other rest _ _
          (fun r1 hr1 e => hex ⟨r1, hr1, e.symm⟩)]
        rw [← hv r (List.mem_cons_self _ _)]
        simp [StackMapWalker.fix_one, gc.store]
      · exact absurd ⟨r, hr1, rfl⟩ hex

/-- C23. Derived-pointer fix-up: let the triples of `_derived_ptrs` be recorded
in the memory `m0` (each with a derived slot that is not its base slot and with
the `int` difference of the two values), with differences that fit in an `int`
and with derived slots that are no base slots of other triples.  After the
memory is rewritten to any `m1`, the iteration of `fix_derived_pointers` for a
triple sets its derived slot to the new value of its base slot plus the old
difference of the derived and the base value, and the slot keeps that value to
the end of the loop when no later triple has the same derived slot; no other
cell is written; and if no base slot changed, every derived slot holds its
original value after the loop. -/
theorem StackMapWalker_fix_derived_pointers_relocates (w : StackMapWalker) (m0 m1 : gc.Mem)
    (hrec : ∀ r ∈ w._derived_ptrs, r._base_ptr_slot ≠ r._derived_ptr_slot ∧
      r._offset = int_of_diff (m0 r._derived_ptr_slot) (m0 r._base_ptr_slot))
    (hfit : ∀ r ∈ w._derived_ptrs,
      -(2 ^ 31) ≤ (m0 r._derived_ptr_slot : Int) - (m0 r._base_ptr_slot : Int) ∧
      (m0 r._derived_ptr_slot : Int) - (m0 r._base_ptr_slot : Int) < 2 ^ 31)
    (halias : ∀ r ∈ w._derived_ptrs, ∀ r1 ∈ w._derived_ptrs, r1 ≠ r →
      r1._derived_ptr_slot ≠ r._base_ptr_slot) :
    (∀ pre r post, w._derived_ptrs = pre ++ r :: post →
      (pre ++ [r]).foldl StackMapWalker.fix_one m1 r._derived_ptr_slot =
        address_plus (m1 r._base_ptr_slot)
          ((m0 r._derived_ptr_slot : Int) - (m0 r._base_ptr_slot : Int)) ∧
      ((∀ r1 ∈ post, r1._derived_ptr_slot ≠ r._derived_ptr_slot) →
        StackMapWalker.fix_derived_pointers w m1 r._derived_ptr_slot =
          address_plus (m1 r._base_ptr_slot)
            ((m0 r._derived_ptr_slot : Int) - (m0 r._base_ptr_slot : Int)))) ∧
    (∀ a, (∀ r ∈ w._derived_ptrs, a ≠ r._derived_ptr_slot) →
      StackMapWalker.fix_derived_pointers w m1 a = m1 a) ∧
    ((∀ r ∈ w._derived_ptrs, m1 r._base_ptr_slot = m0 r._base_ptr_slot) →
      (∀ r ∈ w._derived_ptrs, m0 r._derived_ptr_slot < 2 ^ 64) →
      ∀ r ∈ w._derived_ptrs,
        StackMapWalker.fix_derived_pointers w m1 r._derived_ptr_slot = m0 r._derived_ptr_slot) := by
  have halias1 : ∀ r ∈ w._derived_ptrs, ∀ r1 ∈ w._derived_ptrs,
      r1._derived_ptr_slot ≠ r._base_ptr_slot := by
    intro r hr r1 hr1
    by_cases e : r1 = r
    · subst e
      exact fun h => (hrec r1 hr).1 h.symm
    · exact halias r hr r1 hr1 e
  refine ⟨?_, ?_, ?_⟩
  · intro pre r post hsplit
    have hr : r ∈ w._derived_ptrs := by rw [hsplit]; simp
    have hstep : (pre ++ [r]).foldl StackMapWalker.fix_one m1 r._derived_ptr_slot =
        address_plus (m1 r._base_ptr_slot)
          ((m0 r._derived_ptr_slot : Int) - (m0 r._base_ptr_slot : Int)) := by
      rw [StackMapWalker.fix_fold_step pre r m1
        (fun r1 hr1 => halias1 r hr r1 (by rw [hsplit]; simp [hr1])),
        (hrec r hr).2, int_of_diff_fits _ _ (hfit r hr)]
    refine ⟨hstep, ?_⟩
    intro hlast
    unfold StackMapWalker.fix_derived_pointers
    have e : pre ++ r :: post = (pre ++ [r]) ++ post := by simp
    rw [hsplit, e, List.foldl_append,
      StackMapWalker.fix_fold_other post _ _ (fun r1 hr1 => (hlast r1 hr1).symm)]
    exact hstep
  · intro a ha
    exact StackMapWalker.fix_fold_other _ m1 a ha
  · intro hsame hval r hr
    unfold StackMapWalker.fix_derived_pointers
    refine StackMapWalker.fix_fold_value m0 w._derived_ptrs m1 halias1 ?_ r hr
    intro r hr
    rw [hsame r hr, (hrec r hr).2, int_of_diff_fits _ _ (hfit r hr)]
    exact address_plus_diff _ _ (hval r hr)

/-- Witness of C23: the triple of the example stack, recorded with the base
value 300 and the derived value 308; after the base slot is rewritten to 500
the derived slot is set to 508. -/
theorem StackMapWalker_fix_derived_pointers_relocates_witness :
    StackMapWalker.fix_derived_pointers ⟨10000, [⟨10016, 10024, 8⟩]⟩
        (gc.store example_stack 10016 500) 10024 =
      address_plus ((gc.store example_stack 10016 500) 10016)
        ((example_stack 10024 : Int) - (example_stack 10016 : Int)) ∧
    address_plus ((gc.store example_stack 10016 500) 10016)
        ((example_stack 10024 : Int) - (example_stack 10016 : Int)) = 508 :=
  ⟨((StackMapWalker_fix_derived_pointers_relocates ⟨10000, [⟨10016, 10024, 8⟩]⟩ example_stack
      (gc.store example_stack 10016 500) (by decide) (by decide) (by decide)).1
      [] ⟨10016, 10024, 8⟩ [] rfl).2 (by decide),
    by decide⟩

end runtime

namespace runtime

/-! ## The stack-map walker: enumerating the roots -/

/-- A visitor that keeps the cells of `stack` at each call of `cs` keeps them
through all the calls. -/
theorem visitor_foldl_preserves (visitor : gc.Mem → VisitorCall → gc.Mem) (stack : Nat → Prop) :
    ∀ (cs : List VisitorCall) (m : gc.Mem),
      (∀ m1, ∀ c ∈ cs, ∀ a, stack a → visitor m1 c a = m1 a) →
      ∀ a, stack a → cs.foldl visitor m a = m a := by
  intro cs
  induction cs with
  | nil => intro m _ a _; rfl
  | cons c rest ih =>
    intro m hvis a ha
    simp only [List.foldl_cons]
    rw [ih (visitor m c) (fun m1 c1 hc1 => hvis m1 c1 (List.mem_cons_of_mem _ hc1)) a ha]
    exact hvis m c (List.mem_cons_self _ _) a ha

theorem frame_calls_cons_eq (obj stacktop sz : Nat) (e : LocInfo) (rest : List LocInfo)
    (h : e._base_offset = e._offset) :
    frame_calls obj (stacktop, ⟨sz, e :: rest⟩) =
      ⟨obj, slot_at stacktop e._offset, gc.NULL⟩ :: frame_calls obj (stacktop, ⟨sz, rest⟩) := by
  simp [frame_calls, h]

theorem frame_calls_cons_ne (obj stacktop sz : Nat) (e : LocInfo) (rest : List LocInfo)
    (h : e._base_offset ≠ e._offset) :
    frame_calls obj (stacktop, ⟨sz, e :: rest⟩) = frame_calls obj (stacktop, ⟨sz, rest⟩) := by
  simp [frame_calls, h]

theorem frame_derived_cons_eq (m : gc.Mem) (stacktop sz : Nat) (e : LocInfo)
    (rest : List LocInfo) (h : e._base_offset = e._offset) :
    frame_derived m (stacktop, ⟨sz, e :: rest⟩) = frame_derived m (stacktop, ⟨sz, rest⟩) := by
  simp [frame_derived, h]

theorem frame_derived_cons_ne (m : gc.Mem) (stacktop sz : Nat) (e : LocInfo)
    (rest : List LocInfo) (h : e._base_offset ≠ e._offset) :
    frame_derived m (stacktop, ⟨sz, e :: rest⟩) =
      ⟨slot_at stacktop e._base_offset, slot_at stacktop e._offset,
        int_of_diff (m (slot_at stacktop e._offset)) (m (slot_at stacktop e._base_offset))⟩ ::
        frame_derived m (stacktop, ⟨sz, rest⟩) := by
  simp [frame_derived, h]

/-- The loop over the entries of one frame: the visitor is called on the slots
of the entries whose base offset is their offset, in order, and with
`records_derived_ptrs` a triple is added for each other entry. -/
theorem StackMapWalker.process_offsets_spec (visitor : gc.Mem → VisitorCall → gc.Mem)
    (obj : Nat) (records : Bool) (stack : Nat → Prop) (m : gc.Mem) (stacktop sz : Nat) :
    ∀ (os : List LocInfo) (st : WalkState),
      (∀ m1, ∀ c ∈ frame_calls obj (stacktop, ⟨sz, os⟩), ∀ a, stack a → visitor m1 c a = m1 a) →
      (∀ e ∈ os, e.in_range) →
      (∀ a, stack a → st.mem a = m a) →
      (records = true → ∀ e ∈ os, e._base_offset ≠ e._offset →
        stack (slot_at stacktop e._base_offset) ∧ stack (slot_at stacktop e._offset)) →
      (StackMapWalker.process_offsets visitor obj records stacktop os st).calls =
          st.calls ++ frame_calls obj (stacktop, ⟨sz, os⟩) ∧
      (StackMapWalker.process_offsets visitor obj records stacktop os st).derived =
          st.derived ++ (if records then frame_derived m (stacktop, ⟨sz, os⟩) else []) ∧
      (StackMapWalker.process_offsets visitor obj records stacktop os st).mem =
          (frame_calls obj (stacktop, ⟨sz, os⟩)).foldl visitor st.mem := by
  intro os
  induction os with
  | nil =>
    intro st _ _ _ _
    cases records <;> simp [StackMapWalker.process_offsets, frame_calls, frame_derived]
  | cons e rest ih =>
    intro st hvis hrange hmem hslots
    have hre := hrange e (List.mem_cons_self _ _)
    have hiff := slot_at_eq_iff stacktop e._base_offset e._offset ⟨hre.1, hre.2.1⟩
      ⟨hre.2.2.1, hre.2.2.2⟩
    have hrange1 : ∀ e ∈ rest, e.in_range := fun e1 h1 => hrange e1 (List.mem_cons_of_mem _ h1)
    have hslots1 : records = true → ∀ e ∈ rest, e._base_offset ≠ e._offset →
        stack (slot_at stacktop e._base_offset) ∧ stack (slot_at stacktop e._offset) :=
      fun hr e1 h1 => hslots hr e1 (List.mem_cons_of_mem _ h1)
    by_cases heq : e._base_offset = e._offset
    · have hs : slot_at stacktop e._base_offset = slot_at stacktop e._offset := hiff.mpr heq
      rw [frame_calls_cons_eq obj stacktop sz e rest heq,
        frame_derived_cons_eq m stacktop sz e rest heq] at *
      have hvis1 : ∀ m1, ∀ c ∈ frame_calls obj (stacktop, ⟨sz, rest⟩), ∀ a, stack a →
          visitor m1 c a = m1 a := fun m1 c hc => hvis m1 c (List.mem_cons_of_mem _ hc)
      have hmem1 : ∀ a, stack a →
          (visitor st.mem ⟨obj, slot_at stacktop e._offset, gc.NULL⟩) a = m a := by
        intro a ha
        rw [hvis st.mem _ (List.mem_cons_self _ _) a ha]
        exact hmem a ha
      obtain ⟨i1, i2, i3⟩ := ih ⟨visitor st.mem ⟨obj, slot_at stacktop e._offset, gc.NULL⟩,
        st.calls ++ [⟨obj, slot_at stacktop e._offset, gc.NULL⟩], st.derived⟩ hvis1 hrange1 hmem1
        hslots1
      simp only [StackMapWalker.process_offsets, hs, if_true]
      refine ⟨?_, ?_, ?_⟩
      · rw [i1]; simp
      · rw [i2]
      · rw [i3]; simp
    · have hs : slot_at stacktop e._base_offset ≠ slot_at stacktop e._offset :=
        fun h => heq (hiff.mp h)
      rw [frame_calls_cons_ne obj stacktop sz e rest heq,
        frame_derived_cons_ne m stacktop sz e rest heq] at *
      by_cases hrec : records = true
      · subst hrec
        obtain ⟨hb, hd⟩ := hslots rfl e (List.mem_cons_self _ _) heq
        obtain ⟨i1, i2, i3⟩ := ih ⟨st.mem, st.calls, st.derived ++
          [⟨slot_at stacktop e._base_offset, slot_at stacktop e._offset,
            int_of_diff (st.mem (slot_at stacktop e._offset))
              (st.mem (slot_at stacktop e._base_offset))⟩]⟩ hvis hrange1 hmem hslots1
        simp only [StackMapWalker.process_offsets, hs, if_false, if_true]
        refine ⟨i1, ?_, i3⟩
        rw [i2, hmem _ hb, hmem _ hd]
        simp
      · obtain ⟨i1, i2, i3⟩ := ih st hvis hrange1 hmem hslots1
        have hf : records = false := by simpa using hrec
        subst hf
        simp only [StackMapWalker.process_offsets, hs, if_false]
        refine ⟨i1, ?_, i3⟩
        simpa using i2

end runtime

namespace runtime

/-- The loop over the frames: from a state whose memory has the cells of
`stack` as in `m`, the walk over the frames that `stack_frames` gives returns
with the calls and the triples of the frames in order. -/
theorem StackMapWalker.walk_spec (stackmap : Nat → Option AddrInfo)
    (visitor : gc.Mem → VisitorCall → gc.Mem) (obj : Nat) (records : Bool) (stack : Nat → Prop)
    (m : gc.Mem) :
    ∀ (n stacktop : Nat) (frames : List (Nat × AddrInfo)) (fuel : Nat) (st : WalkState),
      stack_frames stackmap m n stacktop = some frames →
      frames.length ≤ fuel →
      (∀ m1, ∀ c ∈ frames.flatMap (frame_calls obj), ∀ a, stack a → visitor m1 c a = m1 a) →
      (∀ f ∈ frames, ∀ e ∈ f.2._offsets, e.in_range) →
      (∀ a, stack a → st.mem a = m a) →
      (∀ f ∈ frames, stack (return_address_slot (next_stacktop f.1 f.2))) →
      (records = true → ∀ f ∈ frames, ∀ e ∈ f.2._offsets, e._base_offset ≠ e._offset →
        stack (slot_at f.1 e._base_offset) ∧ stack (slot_at f.1 e._offset)) →
      ∃ st1, StackMapWalker.walk stackmap visitor obj records fuel stacktop
          (stackmap (m (return_address_slot stacktop))) st = WalkOutcome.returned st1 ∧
        st1.calls = st.calls ++ frames.flatMap (frame_calls obj) ∧
        st1.derived = st.derived ++
          (if records then frames.flatMap (frame_derived m) else []) ∧
        st1.mem = (frames.flatMap (frame_calls obj)).foldl visitor st.mem := by
  intro n
  induction n with
  | zero =>
    intro stacktop frames fuel st hframes _ _ _ _ _ _
    unfold stack_frames at hframes
    cases hinfo : stackmap (m (return_address_slot stacktop)) with
    | some info => rw [hinfo] at hframes; exact absurd hframes (by simp)
    | none =>
      rw [hinfo] at hframes
      have e : frames = [] := by simpa using hframes.symm
      subst e
      refine ⟨st, ?_, ?_, ?_, ?_⟩
      · cases fuel <;> simp [StackMapWalker.walk]
      · simp
      · cases records <;> simp
      · simp
  | succ n ih =>
    intro stacktop frames fuel st hframes hfuel hvis hrange hmem hret hslots
    unfold stack_frames at hframes
    cases hinfo : stackmap (m (return_address_slot stacktop)) with
    | none =>
      rw [hinfo] at hframes
      have e : frames = [] := by simpa using hframes.symm
      subst e
      refine ⟨st, ?_, ?_, ?_, ?_⟩
      · cases fuel <;> simp [StackMapWalker.walk]
      · simp
      · cases records <;> simp
      · simp
    | some info =>
      rw [hinfo] at hframes
      simp only [Option.map_eq_some'] at hframes
      obtain ⟨rest, hrest, e⟩ := hframes
      subst e
      cases fuel with
      | zero => simp at hfuel
      | succ fuel =>
        have hhead : (stacktop, info) ∈ (stacktop, info) :: rest := List.mem_cons_self _ _
        obtain ⟨sz, os⟩ := info
        have hvis0 : ∀ m1, ∀ c ∈ frame_calls obj (stacktop, ⟨sz, os⟩), ∀ a, stack a →
            visitor m1 c a = m1 a := by
          intro m1 c hc
          exact hvis m1 c (by simp only [List.flatMap_cons, List.mem_append]; exact Or.inl hc)
        obtain ⟨p1, p2, p3⟩ := StackMapWalker.process_offsets_spec visitor obj records stack m
          stacktop sz os st hvis0 (hrange _ hhead) hmem (fun hr => hslots hr _ hhead)
        have hmem1 : ∀ a, stack a →
            (StackMapWalker.process_offsets visitor obj records stacktop os st).mem a = m a := by
          intro a ha
          rw [p3, visitor_foldl_preserves visitor stack _ st.mem hvis0 a ha]
          exact hmem a ha
        obtain ⟨st1, w1, w2, w3, w4⟩ := ih (next_stacktop stacktop ⟨sz, os⟩) rest fuel
          (StackMapWalker.process_offsets visitor obj records stacktop os st) hrest
          (by simpa using hfuel)
          (fun m1 c hc => hvis m1 c
            (by simp only [List.flatMap_cons, List.mem_append]; exact Or.inr hc))
          (fun f hf => hrange f (List.mem_cons_of_mem _ hf)) hmem1
          (fun f hf => hret f (List.mem_cons_of_mem _ hf))
          (fun hr f hf => hslots hr f (List.mem_cons_of_mem _ hf))
        refine ⟨st1, ?_, ?_, ?_, ?_⟩
        · simp only [StackMapWalker.walk]
          rw [hmem1 _ (hret _ hhead)]
          exact w1
        · rw [w2, p1]; simp
        · rw [w3, p2]; cases records <;> simp
        · rw [w4, p3]; simp

/-- C22. Stack-map root enumeration: let the frames of the stack, from
`_stack_pointer` on while the return address below the top of the frame is a
safepoint of the stack map, be `frames`, the first of them described by the
map, with entries whose offsets are values of `int`, and let the visitor keep
the cells of the stack that the walk reads (the return addresses and, with
`records_derived_ptrs`, the slots of the derived pointers and their bases).
Then `process_roots` returns; the calls of the visitor are, frame by frame and
entry by entry, exactly those on the slots `stacktop + offset` of the entries
with `base_offset = offset`, with a null `meta`, so that no call is made for an
entry with another base offset; and `_derived_ptrs` is, with
`records_derived_ptrs`, the list of one triple (base slot, derived slot,
derived minus base) for each entry with `base_offset != offset`, whatever it
was recorded before, and is kept as it was without the flag. -/
theorem StackMapWalker_process_roots_enumerates (stackmap : Nat → Option AddrInfo)
    (w : StackMapWalker) (m : gc.Mem) (n fuel obj : Nat)
    (visitor : gc.Mem → VisitorCall → gc.Mem) (records : Bool) (stack : Nat → Prop)
    (frames : List (Nat × AddrInfo))
    (hsp : w._stack_pointer ≠ gc.NULL)
    (hframes : stack_frames stackmap m n w._stack_pointer = some frames)
    (hfirst : frames ≠ [])
    (hfuel : frames.length ≤ fuel)
    (hrange : ∀ f ∈ frames, ∀ e ∈ f.2._offsets, e.in_range)
    (hvis : ∀ m1, ∀ c ∈ frames.flatMap (frame_calls obj), ∀ a, stack a → visitor m1 c a = m1 a)
    (hret : ∀ f ∈ frames, stack (return_address_slot (next_stacktop f.1 f.2)))
    (hslots : records = true → ∀ f ∈ frames, ∀ e ∈ f.2._offsets, e._base_offset ≠ e._offset →
      stack (slot_at f.1 e._base_offset) ∧ stack (slot_at f.1 e._offset)) :
    StackMapWalker.process_roots (some stackmap) w m fuel obj visitor records =
      WalkOutcome.returned
        (⟨w._stack_pointer, if records then frames.flatMap (frame_derived m) else w._derived_ptrs⟩,
          (frames.flatMap (frame_calls obj)).foldl visitor m,
          frames.flatMap (frame_calls obj)) ∧
    (∀ c ∈ frames.flatMap (frame_calls obj), ∃ f ∈ frames, ∃ e ∈ f.2._offsets,
      e._base_offset = e._offset ∧ c = ⟨obj, slot_at f.1 e._offset, gc.NULL⟩) := by
  constructor
  · obtain ⟨st1, w1, w2, w3, w4⟩ := StackMapWalker.walk_spec stackmap visitor obj records stack m
      n w._stack_pointer frames fuel ⟨m, [], if records then [] else w._derived_ptrs⟩ hframes hfuel
      hvis hrange (fun _ _ => rfl) hret hslots
    cases hinfo : stackmap (m (return_address_slot w._stack_pointer)) with
    | none =>
      cases n with
      | zero =>
        unfold stack_frames at hframes
        rw [hinfo] at hframes
        exact absurd (by simpa using hframes.symm) hfirst
      | succ n =>
        unfold stack_frames at hframes
        rw [hinfo] at hframes
        exact absurd (by simpa using hframes.symm) hfirst
    | some info =>
      rw [hinfo] at w1
      obtain ⟨mem1, calls1, derived1⟩ := st1
      simp only at w2 w3 w4
      simp only [StackMapWalker.process_roots, hsp, if_false, hinfo, w1]
      subst w2 w4
      cases records <;> simp_all
  · intro c hc
    simp only [List.mem_flatMap, frame_calls, List.mem_map, List.mem_filter,
      decide_eq_true_eq] at hc
    obtain ⟨f, hf, e, ⟨he, heq⟩, hce⟩ := hc
    exact ⟨f, hf, e, he, heq, hce.symm⟩

end runtime

namespace runtime

/-- Witness of C22: the walk of the example stack with a visitor that counts
its calls in a cell off the stack, after a recording that is cleared. -/
theorem StackMapWalker_process_roots_enumerates_witness :
    StackMapWalker.process_roots (some example_stackmap) ⟨10000, [⟨1, 2, 3⟩]⟩ example_stack 2 64
        example_visitor true =
      WalkOutcome.returned
        (⟨10000, if true then example_frames.flatMap (frame_derived example_stack)
            else [⟨1, 2, 3⟩]⟩,
          (example_frames.flatMap (frame_calls 64)).foldl example_visitor example_stack,
          example_frames.flatMap (frame_calls 64)) ∧
    example_frames.flatMap (frame_calls 64) =
      [⟨64, 10008, gc.NULL⟩, ⟨64, 10016, gc.NULL⟩, ⟨64, 10040, gc.NULL⟩] ∧
    example_frames.flatMap (frame_derived example_stack) = [⟨10016, 10024, 8⟩] ∧
    (example_frames.flatMap (frame_calls 64)).foldl example_visitor example_stack 64 = 3 :=
  ⟨(StackMapWalker_process_roots_enumerates example_stackmap ⟨10000, [⟨1, 2, 3⟩]⟩ example_stack
      2 2 64 example_visitor true (fun a => 9000 ≤ a) example_frames (by decide) (by decide)
      (by decide) (by decide) (by decide)
      (by
        intro m1 c hc a ha
        have hobj : ∀ c ∈ example_frames.flatMap (frame_calls 64), c.obj = 64 := by decide
        have ha1 : 9000 ≤ a := ha
        have hne : a ≠ 64 := by omega
        simp [example_visitor, gc.store, hobj c hc, hne])
      (by decide) (fun _ => by decide)).1,
    by decide, by decide, by decide⟩

end runtime

namespace runtime

/-! ## The stack map -/

theorem StackMap.parse_constants_three (lay : StackMapLayout) (m : gc.Mem) (recrds : Nat)
    (h1 : constant_encoded lay m recrds = true)
    (h2 : constant_encoded lay m (recrds + lay.sizeof_Location) = true)
    (h3 : constant_encoded lay m (recrds + lay.sizeof_Location + lay.sizeof_Location) = true) :
    StackMap.parse_constants lay m 3 recrds =
      some (recrds + lay.sizeof_Location + lay.sizeof_Location + lay.sizeof_Location) := by
  simp only [constant_encoded, Bool.and_eq_true, decide_eq_true_eq] at h1 h2 h3
  simp [StackMap.parse_constants, h1, h2, h3]

theorem expected_offsets_cons (p : Int × Int) (rest : List (Int × Int)) :
    expected_offsets (p :: rest) =
      (if p.1 ≠ p.2 then [⟨p.1, p.1⟩, ⟨p.1, p.2⟩] else [⟨p.1, p.1⟩]) ++ expected_offsets rest := by
  simp [expected_offsets]

/-- The loop over the location pairs of a record that is laid out as the pairs
`ps`: it appends the offsets that the claim describes. -/
theorem StackMap.parse_pairs_ok (lay : StackMapLayout) (m : gc.Mem) :
    ∀ (ps : List (Int × Int)) (recrds : Nat) (offsets : List LocInfo),
      pairs_encoded lay m ps recrds = true →
      StackMap.parse_pairs lay m ps.length recrds offsets =
        some (recrds + ps.length * (2 * lay.sizeof_Location), offsets ++ expected_offsets ps) := by
  intro ps
  induction ps with
  | nil => intro recrds offsets _; simp [StackMap.parse_pairs, expected_offsets]
  | cons p rest ih =>
    intro recrds offsets h
    simp only [pairs_encoded, indirect_encoded, Bool.and_eq_true, decide_eq_true_eq] at h
    obtain ⟨⟨⟨⟨⟨⟨a1, a2⟩, a3⟩, a4⟩, a5⟩, ⟨⟨⟨⟨b1, b2⟩, b3⟩, b4⟩, b5⟩⟩, hrest⟩ := h
    simp only [List.length_cons, StackMap.parse_pairs, a1, a2, a3, a4, a5, b1, b2, b3, b4, b5,
      and_self, if_true]
    rw [ih _ _ hrest, expected_offsets_cons]
    have e : recrds + 2 * lay.sizeof_Location + rest.length * (2 * lay.sizeof_Location) =
        recrds + (rest.length + 1) * (2 * lay.sizeof_Location) := by
      rw [Nat.add_mul]; omega
    rw [e]
    by_cases hp : p.1 = p.2
    · simp [hp]
    · simp [hp]

end runtime

namespace runtime

/-- The body of the loop over the records for a record that is laid out as
`r`, of a function with the address `fa` and the stack size `ss`: the entry of
the safepoint gets the stack size and the offsets of the record. -/
theorem StackMap.parse_record_ok (lay : StackMapLayout) (m : gc.Mem) (func recrds fa ss : Nat)
    (_stack_maps : Nat → Option AddrInfo) (r : RecordSpec)
    (hfa : m (func + lay.StkSizeRecord_func_address) = fa)
    (hss : m (func + lay.StkSizeRecord_stack_size) = ss)
    (hkey : fa + r.instruction_offset < 2 ^ 64)
    (h : record_encoded lay m recrds r = true) :
    StackMap.parse_record lay m func recrds _stack_maps =
      some (record_end lay recrds r,
        StackMap.add_all [(fa + r.instruction_offset, ⟨ss, expected_offsets r.pairs⟩)]
          _stack_maps) := by
  simp only [record_encoded, Bool.and_eq_true, decide_eq_true_eq] at h
  obtain ⟨⟨⟨⟨⟨⟨⟨⟨h1, h2⟩, h3⟩, _⟩, c1⟩, c2⟩, c3⟩, hp⟩, ht⟩ := h
  have hc := StackMap.parse_constants_three lay m (recrds + lay.sizeof_StkMapRecord) c1 c2 c3
  have hcount : (3 + 2 * r.pairs.length - 3 + 1) / 2 = r.pairs.length := by omega
  have hpos : recrds + lay.sizeof_StkMapRecord + lay.sizeof_Location + lay.sizeof_Location +
      lay.sizeof_Location = recrds + lay.sizeof_StkMapRecord + 3 * lay.sizeof_Location := by
    omega
  have hpairs := StackMap.parse_pairs_ok lay m r.pairs _
    (StackMap.entry _stack_maps (fa + r.instruction_offset))._offsets hp
  have hmod : (fa + r.instruction_offset) % 2 ^ 64 = fa + r.instruction_offset :=
    Nat.mod_eq_of_lt hkey
  have hn3 : ¬ (3 + 2 * r.pairs.length < 3) := by omega
  have heven : (3 + 2 * r.pairs.length - 3) % 2 = 0 := by omega
  unfold StackMap.parse_record
  simp only [h1, h2, h3, hfa, hss, hc, hcount, hpos, hpairs, hmod, hn3, heven, ne_eq,
    not_true_eq_false, if_false]
  have ht1 : m (align8 (recrds + lay.sizeof_StkMapRecord + 3 * lay.sizeof_Location +
      r.pairs.length * (2 * lay.sizeof_Location)) + lay.StkMapRecordTail_num_live_outs) = 0 := ht
  simp [ht1, record_end, locations_end, StackMap.add_all]

theorem StackMap.add_all_append (sp1 sp2 : List (Nat × AddrInfo))
    (_stack_maps : Nat → Option AddrInfo) :
    StackMap.add_all (sp1 ++ sp2) _stack_maps =
      StackMap.add_all sp2 (StackMap.add_all sp1 _stack_maps) := by
  simp [StackMap.add_all, List.foldl_append]

/-- The loop over the records of a function whose records are laid out as
`rs`. -/
theorem StackMap.parse_records_ok (lay : StackMapLayout) (m : gc.Mem) (func fa ss : Nat)
    (hfa : m (func + lay.StkSizeRecord_func_address) = fa)
    (hss : m (func + lay.StkSizeRecord_stack_size) = ss) :
    ∀ (rs : List RecordSpec) (recrds : Nat) (_stack_maps : Nat → Option AddrInfo),
      (∀ r ∈ rs, fa + r.instruction_offset < 2 ^ 64) →
      records_encoded lay m rs recrds = true →
      StackMap.parse_records lay m func rs.length recrds _stack_maps =
        some (records_end lay rs recrds,
          StackMap.add_all (function_safepoints ⟨fa, ss, rs⟩) _stack_maps) := by
  intro rs
  induction rs with
  | nil =>
    intro recrds maps _ _
    simp [StackMap.parse_records, records_end, function_safepoints, StackMap.add_all]
  | cons r rest ih =>
    intro recrds maps hkeys h
    simp only [records_encoded, Bool.and_eq_true] at h
    obtain ⟨hr, hrest⟩ := h
    have h1 := StackMap.parse_record_ok lay m func recrds fa ss maps r hfa hss
      (hkeys r (List.mem_cons_self _ _)) hr
    have h2 := ih (record_end lay recrds r)
      (StackMap.add_all [(fa + r.instruction_offset, ⟨ss, expected_offsets r.pairs⟩)] maps)
      (fun r1 hr1 => hkeys r1 (List.mem_cons_of_mem _ hr1)) hrest
    simp only [List.length_cons, StackMap.parse_records, h1, h2, records_end]
    simp [function_safepoints, StackMap.add_all]

/-- The loop over the functions of a section whose functions are laid out as
`fs`. -/
theorem StackMap.parse_functions_ok (lay : StackMapLayout) (m : gc.Mem) (funcs : Nat) :
    ∀ (fs : List FunctionSpec) (i recrds : Nat) (_stack_maps : Nat → Option AddrInfo),
      functions_encoded lay m funcs fs i recrds = true →
      ∃ recrds1, StackMap.parse_functions lay m funcs fs.length i recrds _stack_maps =
        some (recrds1, StackMap.add_all (safepoints fs) _stack_maps) := by
  intro fs
  induction fs with
  | nil =>
    intro i recrds maps _
    exact ⟨recrds, by simp [StackMap.parse_functions, safepoints, StackMap.add_all]⟩
  | cons f rest ih =>
    intro i recrds maps h
    simp only [functions_encoded, Bool.and_eq_true, decide_eq_true_eq, List.all_eq_true] at h
    obtain ⟨⟨⟨⟨⟨⟨h1, h2⟩, h3⟩, _⟩, hkeys⟩, hrs⟩, hrest⟩ := h
    have hf := StackMap.parse_records_ok lay m (funcs + i * lay.sizeof_StkSizeRecord)
      f.func_address f.stack_size h1 h2 f.records recrds maps hkeys hrs
    obtain ⟨recrds1, hr1⟩ := ih (i + 1) (records_end lay f.records recrds)
      (StackMap.add_all (function_safepoints f) maps) hrest
    refine ⟨recrds1, ?_⟩
    simp only [List.length_cons, StackMap.parse_functions, h3, hf, hr1]
    have e : safepoints (f :: rest) = function_safepoints f ++ safepoints rest := by
      simp [safepoints]
    rw [e, StackMap.add_all_append]

/-- Safepoints with pairwise distinct addresses that the map does not hold yet
are added as they are: each address gets its entry and the other entries keep
theirs. -/
theorem StackMap.add_all_distinct :
    ∀ (sp : List (Nat × AddrInfo)) (_stack_maps : Nat → Option AddrInfo),
      (sp.map Prod.fst).Nodup →
      (∀ s ∈ sp, _stack_maps s.1 = none) →
      (∀ s ∈ sp, StackMap.add_all sp _stack_maps s.1 = some s.2) ∧
      (∀ a, a ∉ sp.map Prod.fst → StackMap.add_all sp _stack_maps a = _stack_maps a) := by
  intro sp
  induction sp with
  | nil =>
    intro maps _ _
    exact ⟨fun s hs => absurd hs (List.not_mem_nil s), fun a _ => rfl⟩
  | cons s0 rest ih =>
    intro maps hnd hnone
    simp only [List.map_cons, List.nodup_cons] at hnd
    obtain ⟨hfresh, hnd1⟩ := hnd
    have h0 : maps s0.1 = none := hnone s0 (List.mem_cons_self _ _)
    have hstep : StackMap.add_all (s0 :: rest) maps =
        StackMap.add_all rest (StackMap.insert maps s0.1 s0.2) := by
      simp [StackMap.add_all, StackMap.entry, h0]
    have hnone1 : ∀ s ∈ rest, StackMap.insert maps s0.1 s0.2 s.1 = none := by
      intro s hs
      have hne : s.1 ≠ s0.1 := fun e => hfresh (e ▸ List.mem_map_of_mem Prod.fst hs)
      simp [StackMap.insert, hne, hnone s (List.mem_cons_of_mem _ hs)]
    obtain ⟨i1, i2⟩ := ih (StackMap.insert maps s0.1 s0.2) hnd1 hnone1
    rw [hstep]
    constructor
    · intro s hs
      rcases List.mem_cons.mp hs with e | hs1
      · subst e
        rw [i2 _ hfresh]
        simp [StackMap.insert]
      · exact i1 s hs1
    · intro a ha
      simp only [List.map_cons, List.mem_cons, not_or] at ha
      rw [i2 a ha.2]
      simp [StackMap.insert, ha.1]

/-- C21. Stack-map parsing: for a well-formed section of version 3 that holds
the functions `fs` (each record with three zero constants and then pairs of
8-byte slots off the stack pointer, no constants table and no live-outs) whose
safepoint addresses `func_address + instruction_offset` are pairwise distinct,
the constructor completes and its map holds under each safepoint address the
stack size of the function and the offsets list of the record: for each pair
`(l1, l2)` in order the entry `(l1, l1)`, followed by the entry `(l1, l2)`
exactly when the offsets differ; `info(ret)` gives that entry for a safepoint
address and null for any other address. -/
theorem StackMap_ctor_stores_safepoints (lay : StackMapLayout) (m : gc.Mem)
    (LLVM_StackMaps : Nat) (fs : List FunctionSpec)
    (henc : section_encoded lay m LLVM_StackMaps fs = true)
    (hdistinct : ((safepoints fs).map Prod.fst).Nodup) :
    ∃ _stack_maps, StackMap.ctor lay m LLVM_StackMaps = some _stack_maps ∧
      (∀ f ∈ fs, ∀ r ∈ f.records,
        StackMap.info _stack_maps (f.func_address + r.instruction_offset) =
          some ⟨f.stack_size, expected_offsets r.pairs⟩) ∧
      (∀ ret, (∀ f ∈ fs, ∀ r ∈ f.records, ret ≠ f.func_address + r.instruction_offset) →
        StackMap.info _stack_maps ret = none) := by
  simp only [section_encoded, Bool.and_eq_true, decide_eq_true_eq] at henc
  obtain ⟨⟨⟨⟨⟨⟨h1, h2⟩, h3⟩, h4⟩, h5⟩, _⟩, hfs⟩ := henc
  obtain ⟨recrds1, hparse⟩ := StackMap.parse_functions_ok lay m
    (LLVM_StackMaps + lay.sizeof_Header) fs 0
    (LLVM_StackMaps + lay.sizeof_Header + fs.length * lay.sizeof_StkSizeRecord)
    (fun _ => none) hfs
  obtain ⟨a1, a2⟩ := StackMap.add_all_distinct (safepoints fs) (fun _ => none) hdistinct
    (fun _ _ => rfl)
  refine ⟨StackMap.add_all (safepoints fs) (fun _ => none), ?_, ?_, ?_⟩
  · simp [StackMap.ctor, h1, h2, h3, h4, h5, hparse]
  · intro f hf r hr
    have hmem : (f.func_address + r.instruction_offset,
        (⟨f.stack_size, expected_offsets r.pairs⟩ : AddrInfo)) ∈ safepoints fs := by
      simp only [safepoints, List.mem_flatMap, function_safepoints, List.mem_map]
      exact ⟨f, hf, r, hr, rfl⟩
    exact a1 _ hmem
  · intro ret hret
    have hnot : ret ∉ (safepoints fs).map Prod.fst := by
      simp only [safepoints, List.mem_map, List.mem_flatMap, function_safepoints, not_exists,
        not_and]
      intro s hs e
      obtain ⟨f, hf, r, hr, hs1⟩ := hs
      subst hs1
      exact hret f hf r hr e.symm
    rw [StackMap.info, a2 ret hnot]

end runtime

namespace runtime

/-- Witness of C21: the example section is well-formed with distinct safepoint
addresses; its map holds the entries of the safepoints 5000 and 6000 and no
entry for 7000. -/
theorem StackMap_ctor_stores_safepoints_witness :
    section_encoded example_layout example_section 1024 example_functions = true ∧
    ∃ _stack_maps, StackMap.ctor example_layout example_section 1024 = some _stack_maps ∧
      StackMap.info _stack_maps 5000 = some ⟨32, [⟨8, 8⟩, ⟨16, 16⟩, ⟨16, 24⟩]⟩ ∧
      StackMap.info _stack_maps 6000 = some ⟨16, [⟨0, 0⟩]⟩ ∧
      StackMap.info _stack_maps 7000 = none :=
  ⟨by decide,
    match StackMap_ctor_stores_safepoints example_layout example_section 1024 example_functions
      (by decide) (by decide) with
    | ⟨_stack_maps, h1, h2, h3⟩ =>
      ⟨_stack_maps, h1,
        h2 ⟨4000, 32, [⟨1000, [(8, 8), (16, 24)]⟩]⟩ (by decide) ⟨1000, [(8, 8), (16, 24)]⟩
          (by decide),
        h2 ⟨5990, 16, [⟨10, [(0, 0)]⟩]⟩ (by decide) ⟨10, [(0, 0)]⟩ (by decide),
        h3 7000 (by decide)⟩⟩

end runtime
